import Mathlib

/-!
Verification of the CPU scheduling simulator (`main.py`).

The core of the program is six scheduling algorithms (FCFS, SJF,
preemptive SJF/SRTF, priority, preemptive priority, Round Robin), a
metrics aggregator and a comparison driver.  This file embeds those
functions as Lean definitions, translated directly from the source,
and proves the specification's claims about them.

Conventions of the embedding:
* Python's unbounded integers become `Int`.
* Python dicts keyed by process id become functions `String → Option Int`
  (completion times) and `String → Int` (remaining burst), updated
  pointwise; a later update overwrites an earlier one, as a dict does.
* Python's stable `list.sort` / `sorted` become `List.insertionSort`
  (also a stable sort) with the same key.
* The `while` loops of the simulation are written with an explicit fuel
  parameter; the wrappers pass a fuel that is proved sufficient below,
  so for valid inputs the embedding computes exactly what the loops do.
* `ValueError` becomes `Except String`.
-/

namespace Scheduler

/-- One process, as in the `Process` dataclass of the source
(`pid`, `arrival_time`, `burst_time`, `priority`). -/
structure Process where
  pid : String
  arrival_time : Int
  burst_time : Int
  priority : Int := 0
deriving Repr, DecidableEq

/-- One contiguous CPU interval of the Gantt chart: the dict
`{"pid": ..., "start": ..., "end": ...}` of the source.  The `end` key is
called `stop` here because `end` is a reserved word in Lean;
`pid = none` is the idle sentinel (`None` in the source). -/
structure ScheduleEntry where
  pid : Option String
  start : Int
  stop : Int
deriving Repr, DecidableEq

/-- One per-process metrics row, as produced by the `stats` lists of the
source (keys `pid`, `arrival_time`, `burst_time`, `priority`,
`completion_time`, `turnaround_time`, `waiting_time`). -/
structure Stat where
  pid : String
  arrival_time : Int
  burst_time : Int
  priority : Int
  completion_time : Int
  turnaround_time : Int
  waiting_time : Int
deriving Repr, DecidableEq

/-- Lexicographic order on a two-component Python sort key, as used by
`sorted(processes, key=lambda p: (p.arrival_time, p.pid))`. -/
def lex2 (a b : Int × String) : Prop :=
  a.1 < b.1 ∨ (a.1 = b.1 ∧ a.2 ≤ b.2)

instance : DecidableRel lex2 := fun a b =>
  decidable_of_iff (a.1 < b.1 ∨ (a.1 = b.1 ∧ a.2 ≤ b.2)) Iff.rfl

/-- Lexicographic order on a three-component Python sort key, as used by
the ready-queue sorts `key=lambda p: (criterion, p.arrival_time, p.pid)`. -/
def lex3 (a b : Int × Int × String) : Prop :=
  a.1 < b.1 ∨ (a.1 = b.1 ∧ (a.2.1 < b.2.1 ∨ (a.2.1 = b.2.1 ∧ a.2.2 ≤ b.2.2)))

instance : DecidableRel lex3 := fun a b =>
  decidable_of_iff
    (a.1 < b.1 ∨ (a.1 = b.1 ∧ (a.2.1 < b.2.1 ∨ (a.2.1 = b.2.1 ∧ a.2.2 ≤ b.2.2))))
    Iff.rfl

/-- The two-component key of the initial sort
`sorted(processes, key=lambda p: (p.arrival_time, p.pid))`. -/
def arrivalPid (p : Process) : Int × String :=
  (p.arrival_time, p.pid)

/-- The initial sort by `(arrival_time, pid)` shared by every algorithm. -/
def sortByArrivalPid (l : List Process) : List Process :=
  List.insertionSort (fun a b => lex2 (arrivalPid a) (arrivalPid b)) l

/-- The sort `sorted(procs, key=lambda p: p.pid)` used when emitting the
stats tables. -/
def sortByPid (l : List Process) : List Process :=
  List.insertionSort (fun a b => a.pid ≤ b.pid) l

/-- SJF ready-queue key: `(p.burst_time, p.arrival_time, p.pid)`
(source line 176). -/
def sjfKey (p : Process) : Int × Int × String :=
  (p.burst_time, p.arrival_time, p.pid)

/-- Priority ready-queue key: `(p.priority, p.arrival_time, p.pid)`
(source lines 358 and 440). -/
def prioKey (p : Process) : Int × Int × String :=
  (p.priority, p.arrival_time, p.pid)

/-- SRTF ready-queue key: `(remaining[p.pid], p.arrival_time, p.pid)`
(source line 267); it reads the remaining-burst map. -/
def srtfKey (rem : String → Int) (p : Process) : Int × Int × String :=
  (rem p.pid, p.arrival_time, p.pid)

/-- Preemptive-priority ready-queue key (source line 440); the map of
remaining bursts is ignored, only the static priority matters. -/
def prioPreKey (_rem : String → Int) (p : Process) : Int × Int × String :=
  (p.priority, p.arrival_time, p.pid)

/-- Pointwise update of a completion-time dict (`completion_times[k] = v`). -/
def updD (f : String → Option Int) (k : String) (v : Int) : String → Option Int :=
  fun s => if s = k then some v else f s

/-- Pointwise update of a remaining-burst dict (`remaining[k] = v`). -/
def updR (f : String → Int) (k : String) (v : Int) : String → Int :=
  fun s => if s = k then v else f s

/-- The dict comprehension `{p.pid: p.burst_time for p in procs}`. -/
def initRem (procs : List Process) : String → Int :=
  procs.foldl (fun f p => updR f p.pid p.burst_time) (fun _ => 0)

/-- The stats-building loop shared by all algorithms: for each process,
`ct = completion_times[p.pid]`, `tat = ct - arrival`, `wt = tat - burst`.
A missing completion time defaults to `0`; the termination theorems below
show the lookup never misses for valid inputs (Python would raise
`KeyError` there). -/
def mkStats (ps : List Process) (ct : String → Option Int) : List Stat :=
  ps.map fun p =>
    let c := (ct p.pid).getD 0
    { pid := p.pid
      arrival_time := p.arrival_time
      burst_time := p.burst_time
      priority := p.priority
      completion_time := c
      turnaround_time := c - p.arrival_time
      waiting_time := c - p.arrival_time - p.burst_time }

/-- The loop of `fcfs_scheduling` (source lines 96-107): for each process in
arrival order, emit an idle gap if the CPU is free before its arrival, then
run it to completion. -/
def fcfsRun :
    List Process → Int → List ScheduleEntry → (String → Option Int) →
      List ScheduleEntry × (String → Option Int)
  | [], _, sch, ct => (sch, ct)
  | p :: rest, t, sch, ct =>
      let sch1 := if t < p.arrival_time then sch ++ [⟨none, t, p.arrival_time⟩] else sch
      let t1 := if t < p.arrival_time then p.arrival_time else t
      let e := t1 + p.burst_time
      fcfsRun rest e (sch1 ++ [⟨some p.pid, t1, e⟩]) (updD ct p.pid e)

/-- `fcfs_scheduling` (source lines 66-126). -/
def fcfs_scheduling (processes : List Process) :
    List ScheduleEntry × List Stat :=
  if processes = [] then ([], [])
  else
    let procs := sortByArrivalPid processes
    let r := fcfsRun procs 0 [] (fun _ => none)
    (r.1, mkStats procs r.2)

/-- The main loop shared by the two non-preemptive queue-based algorithms
(`sjf_scheduling`, source lines 161-184, and `priority_scheduling`, source
lines 342-366), parameterised by the ready-queue sort key.  Each iteration
admits the arrived prefix of `rest`, then either jumps over an idle gap to
the next arrival or sorts the ready queue by `key`, pops its head and runs
it to completion.  The loop condition `completed < n` is reached exactly
when both lists are empty. -/
def npLoop (key : Process → Int × Int × String) :
    Nat → List Process → List Process → Int → List ScheduleEntry →
      (String → Option Int) → List ScheduleEntry × (String → Option Int)
  | 0, _, _, _, sch, ct => (sch, ct)
  | fuel + 1, ready, rest, t, sch, ct =>
      let arrived := rest.takeWhile fun p => decide (p.arrival_time ≤ t)
      let rest1 := rest.dropWhile fun p => decide (p.arrival_time ≤ t)
      match ready ++ arrived with
      | [] =>
          match rest1 with
          | [] => (sch, ct)
          | q :: rest2 =>
              let sch1 :=
                if t < q.arrival_time then sch ++ [⟨none, t, q.arrival_time⟩] else sch
              npLoop key fuel [] (q :: rest2) q.arrival_time sch1 ct
      | _ :: _ =>
          match List.insertionSort (fun a b => lex3 (key a) (key b)) (ready ++ arrived) with
          | [] => (sch, ct)
          | c :: readyRest =>
              let e := t + c.burst_time
              npLoop key fuel readyRest rest1 e
                (sch ++ [⟨some c.pid, t, e⟩]) (updD ct c.pid e)

/-- `sjf_scheduling` (source lines 129-205). -/
def sjf_scheduling (processes : List Process) :
    List ScheduleEntry × List Stat :=
  if processes = [] then ([], [])
  else
    let procs := sortByArrivalPid processes
    let r := npLoop sjfKey (2 * procs.length + 2) [] procs 0 [] (fun _ => none)
    (r.1, mkStats (sortByPid procs) r.2)

/-- `priority_scheduling` (source lines 307-385). -/
def priority_scheduling (processes : List Process) :
    List ScheduleEntry × List Stat :=
  if processes = [] then ([], [])
  else
    let procs := sortByArrivalPid processes
    let r := npLoop prioKey (2 * procs.length + 2) [] procs 0 [] (fun _ => none)
    (r.1, mkStats (sortByPid procs) r.2)

/-- Run `pid` for one time unit starting at `t`: extend the last schedule
entry when it belongs to the same pid and ends at `t`
(`schedule[-1]["end"] += 1`, source lines 272-275 and 445-448), otherwise
append a fresh one-unit entry. -/
def appendRun : List ScheduleEntry → String → Int → List ScheduleEntry
  | [], pid, t => [⟨some pid, t, t + 1⟩]
  | [e], pid, t =>
      if e.pid = some pid ∧ e.stop = t then [⟨e.pid, e.start, e.stop + 1⟩]
      else [e, ⟨some pid, t, t + 1⟩]
  | e :: e2 :: es, pid, t => e :: appendRun (e2 :: es) pid t

/-- Record an idle gap from `t` to `next`: extend the last entry when it is
idle and ends at `t` (`schedule[-1]["end"] = next_arrival`, source lines
254-258 and 430-433), otherwise append a fresh idle entry. -/
def appendIdle : List ScheduleEntry → Int → Int → List ScheduleEntry
  | [], t, next => [⟨none, t, next⟩]
  | [e], t, next =>
      if e.pid = none ∧ e.stop = t then [⟨none, e.start, next⟩]
      else [e, ⟨none, t, next⟩]
  | e :: e2 :: es, t, next => e :: appendIdle (e2 :: es) t next

/-- The unit-stepping loop shared by the two preemptive algorithms
(`sjf_preemptive_scheduling`, source lines 243-284, and
`priority_preemptive_scheduling`, source lines 419-455), parameterised by
the ready-queue key (which may read the remaining-burst map).  Each
iteration admits the arrived prefix of `rest`, then either merges an idle
gap and jumps to the next arrival, or sorts the ready queue, runs its head
for one unit, and on reaching zero remaining burst records the completion
time and filters the process out of the queue.  The loop condition
`len(completion_times) < n` (plus the defensive `break`) is reached exactly
when both lists are empty. -/
def preLoop (key : (String → Int) → Process → Int × Int × String) :
    Nat → List Process → List Process → Int → (String → Int) →
      List ScheduleEntry → (String → Option Int) →
      List ScheduleEntry × (String → Option Int)
  | 0, _, _, _, _, sch, ct => (sch, ct)
  | fuel + 1, ready, rest, t, rem, sch, ct =>
      let arrived := rest.takeWhile fun p => decide (p.arrival_time ≤ t)
      let rest1 := rest.dropWhile fun p => decide (p.arrival_time ≤ t)
      match ready ++ arrived with
      | [] =>
          match rest1 with
          | [] => (sch, ct)
          | q :: rest2 =>
              let sch1 :=
                if t < q.arrival_time then appendIdle sch t q.arrival_time else sch
              preLoop key fuel [] (q :: rest2) q.arrival_time rem sch1 ct
      | _ :: _ =>
          match List.insertionSort (fun a b => lex3 (key rem a) (key rem b)) (ready ++ arrived) with
          | [] => (sch, ct)
          | c :: readyRest =>
              let sch1 := appendRun sch c.pid t
              let rem1 := updR rem c.pid (rem c.pid - 1)
              if rem1 c.pid = 0 then
                preLoop key fuel
                  ((c :: readyRest).filter fun p => decide (p.pid ≠ c.pid))
                  rest1 (t + 1) rem1 sch1 (updD ct c.pid (t + 1))
              else
                preLoop key fuel (c :: readyRest) rest1 (t + 1) rem1 sch1 ct

/-- Fuel that the termination proofs show to be sufficient for the
unit-stepping loops: twice the total burst, plus slack. -/
def totalBurstNat (procs : List Process) : Nat :=
  (procs.map fun p => p.burst_time.toNat).sum

/-- `sjf_preemptive_scheduling` (source lines 208-304). -/
def sjf_preemptive_scheduling (processes : List Process) :
    List ScheduleEntry × List Stat :=
  if processes = [] then ([], [])
  else
    let procs := sortByArrivalPid processes
    let r := preLoop srtfKey (2 * totalBurstNat procs + 2) [] procs 0
      (initRem procs) [] (fun _ => none)
    (r.1, mkStats (sortByPid procs) r.2)

/-- `priority_preemptive_scheduling` (source lines 388-474). -/
def priority_preemptive_scheduling (processes : List Process) :
    List ScheduleEntry × List Stat :=
  if processes = [] then ([], [])
  else
    let procs := sortByArrivalPid processes
    let r := preLoop prioPreKey (2 * totalBurstNat procs + 2) [] procs 0
      (initRem procs) [] (fun _ => none)
    (r.1, mkStats (sortByPid procs) r.2)

/-- The Round Robin loop (source lines 519-558).  Each iteration: if nothing
is ready and a future arrival exists, jump over the idle gap; admit the
arrived prefix of `rest`; pop the front of the FIFO queue; run it for
`min(quantum, remaining)`; admit processes that arrived during the slice;
then re-append the process if unfinished, else record its completion.
The loop condition `len(completion_times) < n` (together with the
`continue` branch) is reached exactly when both lists are empty. -/
def rrLoop (quantum : Int) :
    Nat → List Process → List Process → Int → (String → Int) →
      List ScheduleEntry → (String → Option Int) →
      List ScheduleEntry × (String → Option Int)
  | 0, _, _, _, _, sch, ct => (sch, ct)
  | fuel + 1, ready, rest, t, rem, sch, ct =>
      let t1 :=
        match ready, rest with
        | [], q :: _ => if t < q.arrival_time then q.arrival_time else t
        | _, _ => t
      let sch1 :=
        match ready, rest with
        | [], q :: _ =>
            if t < q.arrival_time then sch ++ [⟨none, t, q.arrival_time⟩] else sch
        | _, _ => sch
      let arrived := rest.takeWhile fun p => decide (p.arrival_time ≤ t1)
      let rest1 := rest.dropWhile fun p => decide (p.arrival_time ≤ t1)
      match ready ++ arrived with
      | [] => (sch1, ct)
      | c :: ready1 =>
          let run_time := min quantum (rem c.pid)
          let e := t1 + run_time
          let sch2 := sch1 ++ [⟨some c.pid, t1, e⟩]
          let rem1 := updR rem c.pid (rem c.pid - run_time)
          let arrived2 := rest1.takeWhile fun p => decide (p.arrival_time ≤ e)
          let rest2 := rest1.dropWhile fun p => decide (p.arrival_time ≤ e)
          if 0 < rem1 c.pid then
            rrLoop quantum fuel (ready1 ++ arrived2 ++ [c]) rest2 e rem1 sch2 ct
          else
            rrLoop quantum fuel (ready1 ++ arrived2) rest2 e rem1 sch2
              (updD ct c.pid e)

/-- `round_robin_scheduling` (source lines 477-577).  Note the order of the
two guards: the empty-list check precedes the quantum check, so an empty
input never raises, whatever the quantum. -/
def round_robin_scheduling (processes : List Process) (quantum : Int) :
    Except String (List ScheduleEntry × List Stat) :=
  if processes = [] then .ok ([], [])
  else if quantum ≤ 0 then .error "Time quantum must be a positive integer."
  else
    let procs := sortByArrivalPid processes
    let r := rrLoop quantum (totalBurstNat procs + 1) [] procs 0
      (initRem procs) [] (fun _ => none)
    .ok (r.1, mkStats (sortByPid procs) r.2)

/-- `CPUSchedulerApp._run_algorithm` (source lines 1562-1580): dispatch on
the algorithm key; `ValueError` becomes `Except.error`. -/
def runAlgorithm (algorithm : String) (processes : List Process)
    (quantum : Option Int) : Except String (List ScheduleEntry × List Stat) :=
  if algorithm = "FCFS" then .ok (fcfs_scheduling processes)
  else if algorithm = "SJF" then .ok (sjf_scheduling processes)
  else if algorithm = "SJF_PREEMPTIVE" then .ok (sjf_preemptive_scheduling processes)
  else if algorithm = "PRIORITY" then .ok (priority_scheduling processes)
  else if algorithm = "PRIORITY_PREEMPTIVE" then .ok (priority_preemptive_scheduling processes)
  else if algorithm = "RR" then
    match quantum with
    | none => .error "Time quantum is required for Round Robin."
    | some q => round_robin_scheduling processes q
  else .error ("Unsupported algorithm key: " ++ algorithm)

/-- Aggregate metrics, with the field names of the dict returned by
`CPUSchedulerApp._compute_aggregates`; Python floats are modelled as
rationals. -/
structure Aggregates where
  avg_waiting : ℚ
  avg_turnaround : ℚ
  min_waiting : ℚ
  max_waiting : ℚ
  cpu_utilization : ℚ
  throughput : ℚ
deriving Repr, DecidableEq

/-- `CPUSchedulerApp._compute_aggregates` (source lines 1582-1621). -/
def computeAggregates (schedule : List ScheduleEntry) (stats : List Stat) :
    Aggregates :=
  let waits : List Int := stats.map fun s => s.waiting_time
  let turns : List Int := stats.map fun s => s.turnaround_time
  let avg_waiting : ℚ :=
    if stats = [] then 0 else (waits.sum : ℚ) / (stats.length : ℚ)
  let avg_turnaround : ℚ :=
    if stats = [] then 0 else (turns.sum : ℚ) / (stats.length : ℚ)
  let minw : Int := waits.min?.getD 0
  let maxw : Int := waits.max?.getD 0
  let min_waiting : ℚ := if stats = [] then 0 else (minw : ℚ)
  let max_waiting : ℚ := if stats = [] then 0 else (maxw : ℚ)
  let total_time : Int := (schedule.map fun e => e.stop).max?.getD 0
  let busy_time : Int :=
    ((schedule.filter fun e => e.pid.isSome).map fun e => e.stop - e.start).sum
  let cpu_utilization : ℚ :=
    if schedule = [] then 0
    else if 0 < total_time then (busy_time : ℚ) / (total_time : ℚ) else 0
  let throughput : ℚ :=
    if schedule = [] then 0
    else if 0 < total_time then (stats.length : ℚ) / (total_time : ℚ) else 0
  ⟨avg_waiting, avg_turnaround, min_waiting, max_waiting, cpu_utilization,
    throughput⟩

/-- The six algorithm keys, in the iteration order of the
`_algorithm_display_to_key` dict (Python dicts iterate in insertion
order), as used by `run_comparison`. -/
def algorithmKeys : List String :=
  ["FCFS", "SJF", "SJF_PREEMPTIVE", "PRIORITY", "PRIORITY_PREEMPTIVE", "RR"]

/-- The loop of `CPUSchedulerApp.run_comparison` (source lines 1710-1732):
run each algorithm; on a `ValueError` skip the row when the key is `RR`
and re-raise otherwise. -/
def comparisonRows (keys : List String) (processes : List Process)
    (quantum : Option Int) : Except String (List (String × Aggregates)) :=
  match keys with
  | [] => .ok []
  | k :: ks =>
      match runAlgorithm k processes quantum with
      | .ok r =>
          match comparisonRows ks processes quantum with
          | .ok rows => .ok ((k, computeAggregates r.1 r.2) :: rows)
          | .error e => .error e
      | .error e =>
          if k = "RR" then comparisonRows ks processes quantum else .error e

/-- `run_comparison` over the full algorithm list. -/
def run_comparison (processes : List Process) (quantum : Option Int) :
    Except String (List (String × Aggregates)) :=
  comparisonRows algorithmKeys processes quantum

/-!
## Specification predicates

These express the spec's schedule invariants: `Chain sch a b` says the
entries of `sch` tile the interval from `a` to `b` — each entry starts
where its predecessor ended, every entry has positive length, the first
starts at `a` and the last ends at `b`.  `NoAdj` is the merge invariant
(no two adjacent entries carry the same pid, idle counted as a pid);
`NoAdjIdle` only forbids two adjacent idle entries.  `pidTime` is the
total CPU time a pid receives; `OwnersOk` says every non-idle entry
belongs to a listed process and does not start before its arrival. -/

/-- Entries tile the interval from `a` to `b` contiguously, each with
positive length. -/
def Chain : List ScheduleEntry → Int → Int → Prop
  | [], a, b => a = b
  | e :: es, a, b => e.start = a ∧ e.start < e.stop ∧ Chain es e.stop b

/-- No two adjacent entries carry the same pid (idle = `none` included). -/
def NoAdj (l : List ScheduleEntry) : Prop :=
  List.Chain' (fun a b => a.pid ≠ b.pid) l

/-- No two adjacent entries are both idle. -/
def NoAdjIdle (l : List ScheduleEntry) : Prop :=
  List.Chain' (fun a b => ¬(a.pid = none ∧ b.pid = none)) l

/-- Total CPU time the schedule grants to `pid`. -/
def pidTime (sch : List ScheduleEntry) (pid : String) : Int :=
  ((sch.filter fun e => decide (e.pid = some pid)).map fun e => e.stop - e.start).sum

/-- Every non-idle entry is owned by a listed process and starts no
earlier than that process's arrival. -/
def OwnersOk (procs : List Process) (sch : List ScheduleEntry) : Prop :=
  ∀ e ∈ sch, ∀ pid, e.pid = some pid →
    ∃ p, p ∈ procs ∧ p.pid = pid ∧ p.arrival_time ≤ e.start

/-- No entry of the schedule mentions the pid of any process in `procs`
(used for the processes that have not run yet). -/
def FreshFor (sch : List ScheduleEntry) (procs : List Process) : Prop :=
  ∀ e ∈ sch, ∀ q ∈ procs, e.pid ≠ some q.pid

/-!
## Order lemmas
-/

theorem lex3_refl (a : Int × Int × String) : lex3 a a :=
  Or.inr ⟨rfl, Or.inr ⟨rfl, le_refl _⟩⟩

theorem lex3_trans {a b c : Int × Int × String} (h1 : lex3 a b) (h2 : lex3 b c) :
    lex3 a c := by
  rcases h1 with h1 | ⟨e1, h1⟩
  · rcases h2 with h2 | ⟨e2, _⟩
    · exact Or.inl (h1.trans h2)
    · exact Or.inl (e2 ▸ h1)
  · rcases h2 with h2 | ⟨e2, h2⟩
    · exact Or.inl (e1 ▸ h2)
    · refine Or.inr ⟨e1.trans e2, ?_⟩
      rcases h1 with h1 | ⟨f1, h1⟩
      · rcases h2 with h2 | ⟨f2, _⟩
        · exact Or.inl (h1.trans h2)
        · exact Or.inl (f2 ▸ h1)
      · rcases h2 with h2 | ⟨f2, h2⟩
        · exact Or.inl (f1 ▸ h2)
        · exact Or.inr ⟨f1.trans f2, h1.trans h2⟩

theorem lex3_total (a b : Int × Int × String) : lex3 a b ∨ lex3 b a := by
  rcases lt_trichotomy a.1 b.1 with h | h | h
  · exact Or.inl (Or.inl h)
  · rcases lt_trichotomy a.2.1 b.2.1 with h2 | h2 | h2
    · exact Or.inl (Or.inr ⟨h, Or.inl h2⟩)
    · rcases le_total a.2.2 b.2.2 with h3 | h3
      · exact Or.inl (Or.inr ⟨h, Or.inr ⟨h2, h3⟩⟩)
      · exact Or.inr (Or.inr ⟨h.symm, Or.inr ⟨h2.symm, h3⟩⟩)
    · exact Or.inr (Or.inr ⟨h.symm, Or.inl h2⟩)
  · exact Or.inr (Or.inl h)

theorem lex2_trans {a b c : Int × String} (h1 : lex2 a b) (h2 : lex2 b c) :
    lex2 a c := by
  rcases h1 with h1 | ⟨e1, h1⟩
  · rcases h2 with h2 | ⟨e2, _⟩
    · exact Or.inl (h1.trans h2)
    · exact Or.inl (e2 ▸ h1)
  · rcases h2 with h2 | ⟨e2, h2⟩
    · exact Or.inl (e1 ▸ h2)
    · exact Or.inr ⟨e1.trans e2, h1.trans h2⟩

theorem lex2_total (a b : Int × String) : lex2 a b ∨ lex2 b a := by
  rcases lt_trichotomy a.1 b.1 with h | h | h
  · exact Or.inl (Or.inl h)
  · rcases le_total a.2 b.2 with h2 | h2
    · exact Or.inl (Or.inr ⟨h, h2⟩)
    · exact Or.inr (Or.inr ⟨h.symm, h2⟩)
  · exact Or.inr (Or.inl h)

/-!
## Sorting lemmas
-/

theorem insertionSort_ne_nil {α : Type} (r : α → α → Prop) [DecidableRel r]
    {l : List α} (h : l ≠ []) : List.insertionSort r l ≠ [] := by
  intro hs
  have hl := (List.perm_insertionSort r l).length_eq
  rw [hs] at hl
  exact h (List.length_eq_zero.mp hl.symm)

/-- The head of the key-sorted ready queue is a member of the queue and is
minimal in the queue under the three-level lexicographic key order. -/
theorem sortKey_head_min (key : Process → Int × Int × String) (l : List Process)
    {c : Process} {tail : List Process}
    (h : List.insertionSort (fun a b => lex3 (key a) (key b)) l = c :: tail) :
    c ∈ l ∧ ∀ p ∈ l, lex3 (key c) (key p) := by
  haveI : IsTotal Process (fun a b => lex3 (key a) (key b)) :=
    ⟨fun a b => lex3_total _ _⟩
  haveI : IsTrans Process (fun a b => lex3 (key a) (key b)) :=
    ⟨fun _ _ _ => lex3_trans⟩
  have hperm := List.perm_insertionSort (fun a b => lex3 (key a) (key b)) l
  rw [h] at hperm
  have hsorted := List.sorted_insertionSort (fun a b => lex3 (key a) (key b)) l
  rw [h] at hsorted
  refine ⟨hperm.mem_iff.mp (List.mem_cons_self c tail), fun p hp => ?_⟩
  have hp' : p ∈ c :: tail := hperm.mem_iff.mpr hp
  rcases List.mem_cons.mp hp' with rfl | hp'
  · exact lex3_refl _
  · exact (List.sorted_cons.mp hsorted).1 p hp'

theorem sortByArrivalPid_perm (l : List Process) : (sortByArrivalPid l).Perm l :=
  List.perm_insertionSort _ l

theorem sortByPid_perm (l : List Process) : (sortByPid l).Perm l :=
  List.perm_insertionSort _ l

theorem sortByArrivalPid_sorted (l : List Process) :
    List.Sorted (fun a b : Process => a.arrival_time ≤ b.arrival_time)
      (sortByArrivalPid l) := by
  haveI : IsTotal Process (fun a b => lex2 (arrivalPid a) (arrivalPid b)) :=
    ⟨fun a b => lex2_total _ _⟩
  haveI : IsTrans Process (fun a b => lex2 (arrivalPid a) (arrivalPid b)) :=
    ⟨fun _ _ _ => lex2_trans⟩
  have h := List.sorted_insertionSort
    (fun a b => lex2 (arrivalPid a) (arrivalPid b)) l
  refine h.imp ?_
  intro a b hab
  rcases hab with hab | ⟨hab, _⟩
  · exact le_of_lt hab
  · exact le_of_eq hab

/-!
## Chain lemmas
-/

theorem chain_nil {a b : Int} (h : Chain [] a b) : a = b := h

theorem chain_le : ∀ {l : List ScheduleEntry} {a b : Int}, Chain l a b → a ≤ b
  | [], _, _, h => le_of_eq h
  | _ :: _, _, _, ⟨hs, hlt, hc⟩ => le_trans (le_of_lt (hs ▸ hlt)) (chain_le hc)

theorem chain_snoc : ∀ {l : List ScheduleEntry} {a t u : Int} {x : Option String},
    Chain l a t → t < u → Chain (l ++ [⟨x, t, u⟩]) a u
  | [], a, t, u, x, h, hlt => ⟨(chain_nil h).symm, hlt, rfl⟩
  | e :: es, a, t, u, x, ⟨hs, hlt', hc⟩, hlt =>
      ⟨hs, hlt', chain_snoc hc hlt⟩

theorem chain_last_stop :
    ∀ {l : List ScheduleEntry} {a t : Int}, Chain l a t →
      ∀ e, l.getLast? = some e → e.stop = t
  | [], _, _, _, _, hl => by simp at hl
  | [e], _, _, h, e', hl => by
      simp only [List.getLast?_singleton, Option.some.injEq] at hl
      subst hl
      exact chain_nil h.2.2
  | e1 :: e2 :: es, a, t, h, e', hl => by
      rw [List.getLast?_cons_cons] at hl
      exact chain_last_stop h.2.2 e' hl

/-!
## pidTime lemmas
-/

theorem pidTime_nil (q : String) : pidTime [] q = 0 := rfl

theorem pidTime_append (l m : List ScheduleEntry) (q : String) :
    pidTime (l ++ m) q = pidTime l q + pidTime m q := by
  simp [pidTime, List.filter_append]

theorem pidTime_single (x : Option String) (s u : Int) (q : String) :
    pidTime [⟨x, s, u⟩] q = if x = some q then u - s else 0 := by
  by_cases h : x = some q <;> simp [pidTime, List.filter, h]

theorem pidTime_snoc (l : List ScheduleEntry) (x : Option String) (s u : Int)
    (q : String) :
    pidTime (l ++ [⟨x, s, u⟩]) q =
      pidTime l q + (if x = some q then u - s else 0) := by
  rw [pidTime_append, pidTime_single]

/-!
## NoAdj lemmas
-/

theorem mem_of_getLast?_eq {α : Type} {l : List α} {a : α}
    (h : l.getLast? = some a) : a ∈ l := by
  obtain ⟨hne, rfl⟩ := List.mem_getLast?_eq_getLast h
  exact List.getLast_mem hne

theorem noAdj_snoc {l : List ScheduleEntry} {x : Option String} {s u : Int}
    (h : NoAdj l) (hlast : ∀ e, l.getLast? = some e → e.pid ≠ x) :
    NoAdj (l ++ [⟨x, s, u⟩]) := by
  refine List.chain'_append.mpr ⟨h, List.chain'_singleton _, ?_⟩
  intro e he y hy
  simp only [List.head?_cons, Option.mem_def, Option.some.injEq] at hy
  subst hy
  exact hlast e he

theorem noAdjIdle_snoc_run {l : List ScheduleEntry} {pid : String} {s u : Int}
    (h : NoAdjIdle l) : NoAdjIdle (l ++ [⟨some pid, s, u⟩]) := by
  refine List.chain'_append.mpr ⟨h, List.chain'_singleton _, ?_⟩
  intro e _ y hy
  simp only [List.head?_cons, Option.mem_def, Option.some.injEq] at hy
  subst hy
  rintro ⟨_, hnone⟩
  simp at hnone

theorem noAdjIdle_snoc_idle {l : List ScheduleEntry} {s u : Int}
    (h : NoAdjIdle l) (hlast : ∀ e, l.getLast? = some e → e.pid ≠ none) :
    NoAdjIdle (l ++ [⟨none, s, u⟩]) := by
  refine List.chain'_append.mpr ⟨h, List.chain'_singleton _, ?_⟩
  intro e he y hy
  simp only [List.head?_cons, Option.mem_def, Option.some.injEq] at hy
  subst hy
  rintro ⟨hno, _⟩
  exact hlast e he hno

/-!
## appendRun lemmas

`appendRun l pid t` runs `pid` for one unit at `t`, merging into the
last entry when possible.  All lemmas assume `Chain l a t`, i.e. the
schedule so far tiles up to the current time `t`; under that assumption
the merge condition reduces to a pid comparison on the last entry.
-/

theorem chain_appendRun :
    ∀ {l : List ScheduleEntry} {a t : Int} (pid : String),
      Chain l a t → Chain (appendRun l pid t) a (t + 1)
  | [], a, t, pid, h => by
      show t = a ∧ t < t + 1 ∧ t + 1 = t + 1
      exact ⟨(chain_nil h).symm, by omega, rfl⟩
  | [e], a, t, pid, h => by
      obtain ⟨hs, hlt, hc⟩ := h
      have hstop : e.stop = t := chain_nil hc
      unfold appendRun
      by_cases hcond : e.pid = some pid ∧ e.stop = t
      · rw [if_pos hcond]
        show e.start = a ∧ e.start < e.stop + 1 ∧ e.stop + 1 = t + 1
        exact ⟨hs, by omega, by omega⟩
      · rw [if_neg hcond]
        show e.start = a ∧ e.start < e.stop ∧ t = e.stop ∧ t < t + 1 ∧ t + 1 = t + 1
        exact ⟨hs, hlt, hstop.symm, by omega, rfl⟩
  | e1 :: e2 :: es, a, t, pid, h => by
      obtain ⟨hs, hlt, hc⟩ := h
      exact ⟨hs, hlt, chain_appendRun pid hc⟩

theorem appendRun_head_pid (x : ScheduleEntry) (xs : List ScheduleEntry)
    (pid : String) (t : Int) :
    ∃ h tl, appendRun (x :: xs) pid t = h :: tl ∧ h.pid = x.pid ∧
      h.start = x.start := by
  match xs with
  | [] =>
      by_cases hcond : x.pid = some pid ∧ x.stop = t
      · refine ⟨⟨x.pid, x.start, x.stop + 1⟩, [], ?_, rfl, rfl⟩
        simp only [appendRun, if_pos hcond]
      · refine ⟨x, [⟨some pid, t, t + 1⟩], ?_, rfl, rfl⟩
        simp only [appendRun, if_neg hcond]
  | y :: ys => exact ⟨x, appendRun (y :: ys) pid t, rfl, rfl, rfl⟩

theorem noAdj_appendRun :
    ∀ {l : List ScheduleEntry} {a t : Int} (pid : String),
      Chain l a t → NoAdj l → NoAdj (appendRun l pid t)
  | [], _, _, pid, _, _ => List.chain'_singleton _
  | [e], a, t, pid, h, _ => by
      have hstop : e.stop = t := chain_nil h.2.2
      unfold appendRun
      by_cases hcond : e.pid = some pid ∧ e.stop = t
      · simp only [hcond, if_true]
        exact List.chain'_singleton _
      · simp only [hcond, if_false]
        have hpid : e.pid ≠ some pid := by
          intro hp
          exact hcond ⟨hp, hstop⟩
        exact List.chain'_cons.mpr ⟨hpid, List.chain'_singleton _⟩
  | e1 :: e2 :: es, a, t, pid, h, hadj => by
      obtain ⟨hs, hlt, hc⟩ := h
      have htail := noAdj_appendRun pid hc (List.chain'_cons.mp hadj).2
      obtain ⟨hd, tl, heq, hpid, _⟩ := appendRun_head_pid e2 es pid t
      show List.Chain' _ (e1 :: appendRun (e2 :: es) pid t)
      rw [heq]
      refine List.chain'_cons.mpr ⟨?_, heq ▸ htail⟩
      rw [hpid]
      exact (List.chain'_cons.mp hadj).1

theorem pidTime_appendRun :
    ∀ (l : List ScheduleEntry) (pid : String) (t : Int) (q : String),
      pidTime (appendRun l pid t) q =
        pidTime l q + (if pid = q then 1 else 0)
  | [], pid, t, q => by
      rw [show appendRun [] pid t = [⟨some pid, t, t + 1⟩] from rfl]
      rw [pidTime_single, pidTime_nil]
      by_cases h : pid = q
      · subst h
        rw [if_pos rfl, if_pos rfl]
        omega
      · have hq : (some pid : Option String) ≠ some q := by simp [h]
        rw [if_neg hq, if_neg h]
        omega
  | [e], pid, t, q => by
      by_cases hcond : e.pid = some pid ∧ e.stop = t
      · rw [show appendRun [e] pid t = [⟨e.pid, e.start, e.stop + 1⟩] by
          simp only [appendRun, if_pos hcond]]
        rw [pidTime_single, pidTime_single]
        obtain ⟨hp, _⟩ := hcond
        rw [hp]
        by_cases h : pid = q
        · subst h
          rw [if_pos rfl, if_pos rfl, if_pos rfl]
          omega
        · have hq : (some pid : Option String) ≠ some q := by simp [h]
          rw [if_neg hq, if_neg hq, if_neg h]
          omega
      · rw [show appendRun [e] pid t = [e] ++ [⟨some pid, t, t + 1⟩] by
          simp only [appendRun, if_neg hcond]; rfl]
        rw [pidTime_append]
        have hone : pidTime [(⟨some pid, t, t + 1⟩ : ScheduleEntry)] q =
            if pid = q then 1 else 0 := by
          rw [pidTime_single]
          by_cases h : pid = q
          · subst h
            rw [if_pos rfl, if_pos rfl]
            omega
          · have hq : (some pid : Option String) ≠ some q := by simp [h]
            rw [if_neg hq, if_neg h]
        rw [hone]
  | e1 :: e2 :: es, pid, t, q => by
      rw [show appendRun (e1 :: e2 :: es) pid t =
        [e1] ++ appendRun (e2 :: es) pid t from rfl]
      rw [pidTime_append, pidTime_appendRun (e2 :: es) pid t q]
      rw [show (e1 :: e2 :: es : List ScheduleEntry) =
        [e1] ++ (e2 :: es) from rfl, pidTime_append]
      omega

theorem chain_appendIdle :
    ∀ {l : List ScheduleEntry} {a t next : Int},
      Chain l a t → t < next → Chain (appendIdle l t next) a next
  | [], a, t, next, h, hlt => by
      show t = a ∧ t < next ∧ next = next
      exact ⟨(chain_nil h).symm, hlt, rfl⟩
  | [e], a, t, next, h, hlt => by
      obtain ⟨hs, hlt', hc⟩ := h
      have hstop : e.stop = t := chain_nil hc
      unfold appendIdle
      by_cases hcond : e.pid = none ∧ e.stop = t
      · rw [if_pos hcond]
        show e.start = a ∧ e.start < next ∧ next = next
        exact ⟨hs, by omega, rfl⟩
      · rw [if_neg hcond]
        show e.start = a ∧ e.start < e.stop ∧ t = e.stop ∧ t < next ∧ next = next
        exact ⟨hs, hlt', hstop.symm, hlt, rfl⟩
  | e1 :: e2 :: es, a, t, next, h, hlt => by
      obtain ⟨hs, hlt', hc⟩ := h
      exact ⟨hs, hlt', chain_appendIdle hc hlt⟩

theorem appendIdle_head_pid (x : ScheduleEntry) (xs : List ScheduleEntry)
    (t next : Int) :
    ∃ h tl, appendIdle (x :: xs) t next = h :: tl ∧ h.pid = x.pid ∧
      h.start = x.start := by
  match xs with
  | [] =>
      by_cases hcond : x.pid = none ∧ x.stop = t
      · refine ⟨⟨none, x.start, next⟩, [], ?_, hcond.1.symm, rfl⟩
        simp only [appendIdle, if_pos hcond]
      · refine ⟨x, [⟨none, t, next⟩], ?_, rfl, rfl⟩
        simp only [appendIdle, if_neg hcond]
  | y :: ys => exact ⟨x, appendIdle (y :: ys) t next, rfl, rfl, rfl⟩

theorem noAdj_appendIdle :
    ∀ {l : List ScheduleEntry} {a t next : Int},
      Chain l a t → NoAdj l → NoAdj (appendIdle l t next)
  | [], _, _, _, _, _ => List.chain'_singleton _
  | [e], a, t, next, h, _ => by
      have hstop : e.stop = t := chain_nil h.2.2
      unfold appendIdle
      by_cases hcond : e.pid = none ∧ e.stop = t
      · rw [if_pos hcond]
        exact List.chain'_singleton _
      · rw [if_neg hcond]
        have hpid : e.pid ≠ none := by
          intro hp
          exact hcond ⟨hp, hstop⟩
        exact List.chain'_cons.mpr ⟨hpid, List.chain'_singleton _⟩
  | e1 :: e2 :: es, a, t, next, h, hadj => by
      obtain ⟨hs, hlt, hc⟩ := h
      have htail :=
        @noAdj_appendIdle (e2 :: es) e1.stop t next hc (List.chain'_cons.mp hadj).2
      obtain ⟨hd, tl, heq, hpid, _⟩ := appendIdle_head_pid e2 es t next
      show List.Chain' _ (e1 :: appendIdle (e2 :: es) t next)
      rw [heq]
      refine List.chain'_cons.mpr ⟨?_, heq ▸ htail⟩
      rw [hpid]
      exact (List.chain'_cons.mp hadj).1

theorem pidTime_appendIdle :
    ∀ (l : List ScheduleEntry) (t next : Int) (q : String),
      pidTime (appendIdle l t next) q = pidTime l q
  | [], t, next, q => by
      rw [show appendIdle [] t next = [⟨none, t, next⟩] from rfl]
      rw [pidTime_single, pidTime_nil]
      simp
  | [e], t, next, q => by
      by_cases hcond : e.pid = none ∧ e.stop = t
      · rw [show appendIdle [e] t next = [⟨none, e.start, next⟩] by
          simp only [appendIdle, if_pos hcond]]
        rw [pidTime_single, pidTime_single, hcond.1]
        simp
      · rw [show appendIdle [e] t next = [e] ++ [⟨none, t, next⟩] by
          simp only [appendIdle, if_neg hcond]; rfl]
        rw [pidTime_append]
        have h0 : pidTime [(⟨none, t, next⟩ : ScheduleEntry)] q = 0 := by
          rw [pidTime_single]
          simp
        rw [h0]
        omega
  | e1 :: e2 :: es, t, next, q => by
      rw [show appendIdle (e1 :: e2 :: es) t next =
        [e1] ++ appendIdle (e2 :: es) t next from rfl]
      rw [pidTime_append, pidTime_appendIdle (e2 :: es) t next q]
      rw [show (e1 :: e2 :: es : List ScheduleEntry) =
        [e1] ++ (e2 :: es) from rfl, pidTime_append]

theorem ownersOk_appendIdle {procs : List Process} :
    ∀ {l : List ScheduleEntry} {t next : Int},
      OwnersOk procs l → OwnersOk procs (appendIdle l t next)
  | [], t, next, _ => by
      intro e he q hq
      rw [show appendIdle [] t next = [⟨none, t, next⟩] from rfl] at he
      simp only [List.mem_singleton] at he
      subst he
      simp at hq
  | [e0], t, next, h => by
      intro e he q hq
      by_cases hcond : e0.pid = none ∧ e0.stop = t
      · rw [show appendIdle [e0] t next = [⟨none, e0.start, next⟩] by
          simp only [appendIdle, if_pos hcond]] at he
        simp only [List.mem_singleton] at he
        subst he
        simp at hq
      · rw [show appendIdle [e0] t next = [e0, ⟨none, t, next⟩] by
          simp only [appendIdle, if_neg hcond]] at he
        rcases List.mem_cons.mp he with rfl | he
        · exact h e (List.mem_singleton_self e) q hq
        · simp only [List.mem_singleton] at he
          subst he
          simp at hq
  | e1 :: e2 :: es, t, next, h => by
      intro e he q hq
      rw [show appendIdle (e1 :: e2 :: es) t next =
        e1 :: appendIdle (e2 :: es) t next from rfl] at he
      rcases List.mem_cons.mp he with rfl | he
      · exact h e (List.mem_cons_self _ _) q hq
      · have htail : OwnersOk procs (e2 :: es) := by
          intro e' he' q' hq'
          exact h e' (List.mem_cons_of_mem _ he') q' hq'
        exact ownersOk_appendIdle htail e he q hq

theorem ownersOk_appendRun {procs : List Process} :
    ∀ {l : List ScheduleEntry} {pid : String} {t : Int},
      OwnersOk procs l →
      (∃ p, p ∈ procs ∧ p.pid = pid ∧ p.arrival_time ≤ t) →
      OwnersOk procs (appendRun l pid t)
  | [], pid, t, _, hp => by
      intro e he q hq
      rw [show appendRun [] pid t = [⟨some pid, t, t + 1⟩] from rfl] at he
      simp only [List.mem_singleton] at he
      subst he
      simp only [Option.some.injEq] at hq
      subst hq
      exact hp
  | [e0], pid, t, h, hp => by
      intro e he q hq
      by_cases hcond : e0.pid = some pid ∧ e0.stop = t
      · rw [show appendRun [e0] pid t = [⟨e0.pid, e0.start, e0.stop + 1⟩] by
          simp only [appendRun, if_pos hcond]] at he
        simp only [List.mem_singleton] at he
        subst he
        exact h e0 (List.mem_singleton_self e0) q hq
      · rw [show appendRun [e0] pid t = [e0, ⟨some pid, t, t + 1⟩] by
          simp only [appendRun, if_neg hcond]] at he
        rcases List.mem_cons.mp he with rfl | he
        · exact h e (List.mem_singleton_self e) q hq
        · simp only [List.mem_singleton] at he
          subst he
          simp only [Option.some.injEq] at hq
          subst hq
          exact hp
  | e1 :: e2 :: es, pid, t, h, hp => by
      intro e he q hq
      rw [show appendRun (e1 :: e2 :: es) pid t =
        e1 :: appendRun (e2 :: es) pid t from rfl] at he
      rcases List.mem_cons.mp he with rfl | he
      · exact h e (List.mem_cons_self _ _) q hq
      · have htail : OwnersOk procs (e2 :: es) := by
          intro e' he' q' hq'
          exact h e' (List.mem_cons_of_mem _ he') q' hq'
        exact ownersOk_appendRun htail hp e he q hq

/-!
## Arrival-admission and dict helpers
-/

theorem mem_takeWhile_arrival {rest : List Process} {t : Int} {p : Process}
    (h : p ∈ rest.takeWhile fun q => decide (q.arrival_time ≤ t)) :
    p ∈ rest ∧ p.arrival_time ≤ t := by
  refine ⟨(List.takeWhile_sublist _).mem h, ?_⟩
  have := List.mem_takeWhile_imp h
  simpa using this

theorem dropWhile_head_arrival {rest : List Process} {t : Int} {q : Process}
    {rest2 : List Process}
    (h : rest.dropWhile (fun p => decide (p.arrival_time ≤ t)) = q :: rest2) :
    t < q.arrival_time := by
  have hh := List.head?_dropWhile_not (fun p => decide (p.arrival_time ≤ t)) rest
  rw [h] at hh
  simp only [List.head?_cons] at hh
  simpa using hh

/-- On an arrival-sorted list, `takeWhile` admits exactly the processes
that have arrived by `t`. -/
theorem mem_takeWhile_of_sorted {rest : List Process} {t : Int}
    (hs : List.Sorted (fun a b : Process => a.arrival_time ≤ b.arrival_time) rest)
    {p : Process} (hp : p ∈ rest) (ha : p.arrival_time ≤ t) :
    p ∈ rest.takeWhile fun q => decide (q.arrival_time ≤ t) := by
  induction rest with
  | nil => cases hp
  | cons r rs ih =>
      obtain ⟨hr, hs'⟩ := List.sorted_cons.mp hs
      rcases List.mem_cons.mp hp with rfl | hp'
      · rw [List.takeWhile_cons, if_pos (by simpa using ha)]
        exact List.mem_cons_self _ _
      · have hra : r.arrival_time ≤ t := le_trans (hr p hp') ha
        rw [List.takeWhile_cons, if_pos (by simpa using hra)]
        exact List.mem_cons_of_mem _ (ih hs' hp')

theorem updD_same (f : String → Option Int) (k : String) (v : Int) :
    updD f k v k = some v := by
  simp [updD]

theorem updD_other (f : String → Option Int) {k k' : String} (v : Int)
    (h : k' ≠ k) : updD f k v k' = f k' := by
  simp [updD, h]

theorem updR_same (f : String → Int) (k : String) (v : Int) :
    updR f k v k = v := by
  simp [updR]

theorem updR_other (f : String → Int) {k k' : String} (v : Int)
    (h : k' ≠ k) : updR f k v k' = f k' := by
  simp [updR, h]

theorem foldlUpd_not_mem :
    ∀ (l : List Process) (base : String → Int) (k : String),
      (∀ p ∈ l, p.pid ≠ k) →
      l.foldl (fun f p => updR f p.pid p.burst_time) base k = base k
  | [], _, _, _ => rfl
  | p :: l, base, k, h => by
      rw [List.foldl_cons]
      rw [foldlUpd_not_mem l _ k fun q hq => h q (List.mem_cons_of_mem _ hq)]
      exact updR_other base _ fun hk => h p (List.mem_cons_self _ _) hk.symm

theorem foldlUpd_eq :
    ∀ (l : List Process) (base : String → Int) {p : Process},
      p ∈ l → ((l.map fun q => q.pid).Nodup) →
      l.foldl (fun f q => updR f q.pid q.burst_time) base p.pid = p.burst_time
  | [], _, _, hp, _ => absurd hp (List.not_mem_nil _)
  | q :: l, base, p, hp, hnd => by
      rw [List.foldl_cons]
      rw [List.map_cons, List.nodup_cons] at hnd
      rcases List.mem_cons.mp hp with rfl | hp'
      · rw [foldlUpd_not_mem l _ p.pid fun r hr hrk =>
          hnd.1 (hrk ▸ List.mem_map_of_mem (fun s => s.pid) hr)]
        exact updR_same base _ _
      · exact foldlUpd_eq l _ hp' hnd.2

theorem initRem_eq {procs : List Process} {p : Process} (hp : p ∈ procs)
    (hnd : (procs.map fun q => q.pid).Nodup) :
    initRem procs p.pid = p.burst_time :=
  foldlUpd_eq procs _ hp hnd

theorem pid_injective {l : List Process}
    (hnd : (l.map fun q => q.pid).Nodup) {p q : Process}
    (hp : p ∈ l) (hq : q ∈ l) (h : p.pid = q.pid) : p = q :=
  List.inj_on_of_nodup_map hnd hp hq h

/-!
## Result predicates: what a sound algorithm run guarantees
-/

/-- The schedule tiles `[0, T)`, every non-idle entry starts at or after
its owner's arrival, and every process receives exactly its burst time. -/
def ScheduleOk (processes : List Process) (sch : List ScheduleEntry)
    (T : Int) : Prop :=
  Chain sch 0 T ∧ OwnersOk processes sch ∧
  ∀ p ∈ processes, pidTime sch p.pid = p.burst_time

/-- The stats rows are in bijection with the processes, satisfy the
turnaround/waiting identities, complete no earlier than
`arrival + burst`, and the makespan `T` is the largest completion time
(attained by some row). -/
def StatsOk (processes : List Process) (stats : List Stat) (T : Int) : Prop :=
  stats.length = processes.length ∧
  (∀ p ∈ processes, ∃ s ∈ stats, s.pid = p.pid ∧
    s.arrival_time = p.arrival_time ∧ s.burst_time = p.burst_time ∧
    s.priority = p.priority ∧
    p.arrival_time + p.burst_time ≤ s.completion_time) ∧
  (∀ s ∈ stats, ∃ p ∈ processes, s.pid = p.pid ∧
    s.arrival_time = p.arrival_time ∧ s.burst_time = p.burst_time ∧
    s.priority = p.priority) ∧
  (∀ s ∈ stats,
    s.turnaround_time = s.completion_time - s.arrival_time ∧
    s.waiting_time = s.turnaround_time - s.burst_time ∧
    s.arrival_time + s.burst_time ≤ s.completion_time ∧
    s.completion_time ≤ T) ∧
  (∃ s ∈ stats, s.completion_time = T)

/-- Full soundness of one algorithm run. -/
def AlgoSound (processes : List Process)
    (r : List ScheduleEntry × List Stat) : Prop :=
  ∃ T, ScheduleOk processes r.1 T ∧ StatsOk processes r.2 T

/-!
## FCFS: the master invariant of the run loop
-/

/-- Invariant-carrying induction for the FCFS loop: starting from a
well-formed partial state, the loop completes every remaining process,
extends the schedule to a chain up to some final time `T`, and `T` is
the completion time of the last-finished process. -/
theorem fcfsRun_master (procsAll : List Process) :
    ∀ (procs : List Process) (t : Int) (sch : List ScheduleEntry)
      (ct : String → Option Int),
      (∀ p ∈ procs, 0 < p.burst_time) →
      ((procs.map fun p => p.pid).Nodup) →
      (∀ p ∈ procs, p ∈ procsAll) →
      FreshFor sch procs →
      Chain sch 0 t →
      NoAdj sch →
      (∀ e, sch.getLast? = some e → e.pid ≠ none) →
      OwnersOk procsAll sch →
      (∀ p ∈ procs, ct p.pid = none ∧ pidTime sch p.pid = 0) →
      (∀ pid c, ct pid = some c → c ≤ t) →
      ∃ T, t ≤ T ∧
        Chain (fcfsRun procs t sch ct).1 0 T ∧
        NoAdj (fcfsRun procs t sch ct).1 ∧
        OwnersOk procsAll (fcfsRun procs t sch ct).1 ∧
        (∀ p ∈ procs, ∃ c, (fcfsRun procs t sch ct).2 p.pid = some c ∧
          p.arrival_time + p.burst_time ≤ c ∧ c ≤ T ∧
          pidTime (fcfsRun procs t sch ct).1 p.pid = p.burst_time) ∧
        (∀ pid, (∀ p ∈ procs, p.pid ≠ pid) →
          (fcfsRun procs t sch ct).2 pid = ct pid ∧
          pidTime (fcfsRun procs t sch ct).1 pid = pidTime sch pid) ∧
        (∀ pid c, (fcfsRun procs t sch ct).2 pid = some c → c ≤ T) ∧
        (procs ≠ [] → ∃ p ∈ procs, (fcfsRun procs t sch ct).2 p.pid = some T) ∧
        (procs = [] → fcfsRun procs t sch ct = (sch, ct) ∧ T = t) := by
  intro procs
  induction procs with
  | nil =>
      intro t sch ct _ _ _ _ hchain hadj _ howners _ hctb
      refine ⟨t, le_refl t, hchain, hadj, howners, ?_, ?_, ?_, ?_, ?_⟩
      · intro p hp
        cases hp
      · intro pid _
        exact ⟨rfl, rfl⟩
      · intro pid c hc
        exact hctb pid c hc
      · intro h
        exact absurd rfl h
      · intro _
        exact ⟨rfl, rfl⟩
  | cons p rest ih =>
      intro t sch ct hb hnd hmem hfresh hchain hadj hlast howners hct hctb
      have hb0 : 0 < p.burst_time := hb p (List.mem_cons_self _ _)
      rw [List.map_cons, List.nodup_cons] at hnd
      obtain ⟨t1, ht1⟩ :
          ∃ x, (if t < p.arrival_time then p.arrival_time else t) = x := ⟨_, rfl⟩
      obtain ⟨sch1, hsch1⟩ :
          ∃ x, (if t < p.arrival_time then
            sch ++ [(⟨none, t, p.arrival_time⟩ : ScheduleEntry)] else sch) = x :=
        ⟨_, rfl⟩
      have hunfold : fcfsRun (p :: rest) t sch ct =
          fcfsRun rest (t1 + p.burst_time)
            (sch1 ++ [⟨some p.pid, t1, t1 + p.burst_time⟩])
            (updD ct p.pid (t1 + p.burst_time)) := by
        rw [← ht1, ← hsch1]
        rfl
      have htt1 : t ≤ t1 := by
        rw [← ht1]
        by_cases hc : t < p.arrival_time
        · rw [if_pos hc]
          omega
        · rw [if_neg hc]
      have ht1a : p.arrival_time ≤ t1 := by
        rw [← ht1]
        by_cases hc : t < p.arrival_time
        · rw [if_pos hc]
        · rw [if_neg hc]
          omega
      have hchain1 : Chain sch1 0 t1 := by
        rw [← ht1, ← hsch1]
        by_cases hc : t < p.arrival_time
        · rw [if_pos hc, if_pos hc]
          exact chain_snoc hchain hc
        · rw [if_neg hc, if_neg hc]
          exact hchain
      have hadj1 : NoAdj sch1 := by
        rw [← hsch1]
        by_cases hc : t < p.arrival_time
        · rw [if_pos hc]
          exact noAdj_snoc hadj hlast
        · rw [if_neg hc]
          exact hadj
      have hlast1 : ∀ e, sch1.getLast? = some e → e.pid ≠ some p.pid := by
        rw [← hsch1]
        by_cases hc : t < p.arrival_time
        · rw [if_pos hc]
          intro e he
          rw [List.getLast?_concat] at he
          cases he
          simp
        · rw [if_neg hc]
          intro e he
          exact hfresh e (mem_of_getLast?_eq he) p (List.mem_cons_self _ _)
      have hfresh1 : FreshFor sch1 (p :: rest) := by
        rw [← hsch1]
        by_cases hc : t < p.arrival_time
        · rw [if_pos hc]
          intro e he q hq
          rcases List.mem_append.mp he with he | he
          · exact hfresh e he q hq
          · simp only [List.mem_singleton] at he
            subst he
            simp
        · rw [if_neg hc]
          exact hfresh
      have howners1 : OwnersOk procsAll sch1 := by
        rw [← hsch1]
        by_cases hc : t < p.arrival_time
        · rw [if_pos hc]
          intro e he q hq
          rcases List.mem_append.mp he with he | he
          · exact howners e he q hq
          · simp only [List.mem_singleton] at he
            subst he
            simp at hq
        · rw [if_neg hc]
          exact howners
      have hpt1 : ∀ q : String, pidTime sch1 q = pidTime sch q := by
        intro q
        rw [← hsch1]
        by_cases hc : t < p.arrival_time
        · rw [if_pos hc, pidTime_snoc]
          simp
        · rw [if_neg hc]
      -- facts about the post-run state
      have hb' : ∀ q ∈ rest, 0 < q.burst_time :=
        fun q hq => hb q (List.mem_cons_of_mem _ hq)
      have hmem' : ∀ q ∈ rest, q ∈ procsAll :=
        fun q hq => hmem q (List.mem_cons_of_mem _ hq)
      have hpidp : ∀ q ∈ rest, q.pid ≠ p.pid := by
        intro q hq hqp
        exact hnd.1 (hqp ▸ List.mem_map_of_mem (fun s => s.pid) hq)
      have hfresh2 : FreshFor (sch1 ++ [⟨some p.pid, t1, t1 + p.burst_time⟩]) rest := by
        intro e he q hq
        rcases List.mem_append.mp he with he | he
        · exact hfresh1 e he q (List.mem_cons_of_mem _ hq)
        · simp only [List.mem_singleton] at he
          subst he
          simp only [Option.some.injEq, ne_eq]
          intro hqp
          exact hpidp q hq hqp.symm
      have hchain2 : Chain (sch1 ++ [⟨some p.pid, t1, t1 + p.burst_time⟩]) 0
          (t1 + p.burst_time) :=
        chain_snoc hchain1 (by omega)
      have hadj2 : NoAdj (sch1 ++ [⟨some p.pid, t1, t1 + p.burst_time⟩]) :=
        noAdj_snoc hadj1 hlast1
      have hlast2 : ∀ e : ScheduleEntry,
          (sch1 ++ [(⟨some p.pid, t1, t1 + p.burst_time⟩ : ScheduleEntry)]).getLast? =
            some e → e.pid ≠ none := by
        intro e he
        rw [List.getLast?_concat] at he
        cases he
        simp
      have howners2 : OwnersOk procsAll
          (sch1 ++ [⟨some p.pid, t1, t1 + p.burst_time⟩]) := by
        intro e he q hq
        rcases List.mem_append.mp he with he | he
        · exact howners1 e he q hq
        · simp only [List.mem_singleton] at he
          subst he
          simp only [Option.some.injEq] at hq
          exact ⟨p, hmem p (List.mem_cons_self _ _), hq ▸ rfl, ht1a⟩
      have hct2 : ∀ q ∈ rest,
          updD ct p.pid (t1 + p.burst_time) q.pid = none ∧
          pidTime (sch1 ++ [⟨some p.pid, t1, t1 + p.burst_time⟩]) q.pid = 0 := by
        intro q hq
        constructor
        · rw [updD_other ct _ (hpidp q hq)]
          exact (hct q (List.mem_cons_of_mem _ hq)).1
        · rw [pidTime_snoc, hpt1]
          have hne : (some p.pid : Option String) ≠ some q.pid := by
            simpa using fun h => hpidp q hq h.symm
          rw [if_neg hne]
          have := (hct q (List.mem_cons_of_mem _ hq)).2
          omega
      have hctb2 : ∀ pid c,
          updD ct p.pid (t1 + p.burst_time) pid = some c →
          c ≤ t1 + p.burst_time := by
        intro pid c hc
        by_cases hpq : pid = p.pid
        · subst hpq
          rw [updD_same] at hc
          cases hc
          omega
        · rw [updD_other ct _ hpq] at hc
          have := hctb pid c hc
          omega
      obtain ⟨T, hTe, hchainT, hadjT, hownT, hmain, huntch, hballT, hwit, hemp⟩ :=
        ih (t1 + p.burst_time) (sch1 ++ [⟨some p.pid, t1, t1 + p.burst_time⟩])
          (updD ct p.pid (t1 + p.burst_time)) hb' hnd.2 hmem' hfresh2 hchain2
          hadj2 hlast2 howners2 hct2 hctb2
      rw [hunfold]
      refine ⟨T, by omega, hchainT, hadjT, hownT, ?_, ?_, hballT, ?_, ?_⟩
      · intro q hq
        rcases List.mem_cons.mp hq with rfl | hq'
        · obtain ⟨hcteq, hpteq⟩ := huntch q.pid fun r hr => hpidp r hr
          refine ⟨t1 + q.burst_time, ?_, by omega, by omega, ?_⟩
          · rw [hcteq, updD_same]
          · rw [hpteq, pidTime_snoc, hpt1, if_pos rfl]
            have := (hct q (List.mem_cons_self _ _)).2
            omega
        · exact hmain q hq'
      · intro pid hpid
        have hrest : ∀ r ∈ rest, r.pid ≠ pid :=
          fun r hr => hpid r (List.mem_cons_of_mem _ hr)
        obtain ⟨h1, h2⟩ := huntch pid hrest
        have hppid : pid ≠ p.pid :=
          fun h => hpid p (List.mem_cons_self _ _) h.symm
        constructor
        · rw [h1, updD_other ct _ hppid]
        · rw [h2, pidTime_snoc, hpt1]
          have hne : (some p.pid : Option String) ≠ some pid := by
            simpa using fun h => hppid h.symm
          rw [if_neg hne]
          omega
      · intro _
        by_cases hrest : rest = []
        · subst hrest
          obtain ⟨heq, hTt⟩ := hemp rfl
          refine ⟨p, List.mem_cons_self _ _, ?_⟩
          rw [heq]
          show updD ct p.pid (t1 + p.burst_time) p.pid = some T
          rw [updD_same, hTt]
        · obtain ⟨q, hq, hqT⟩ := hwit hrest
          exact ⟨q, List.mem_cons_of_mem _ hq, hqT⟩
      · intro h
        simp at h

/-!
## The non-preemptive queue loop: unfolding equations and master invariant
-/

theorem npLoop_eq_exit (key : Process → Int × Int × String) (fuel : Nat)
    (ready rest : List Process) (t : Int) (sch : List ScheduleEntry)
    (ct : String → Option Int)
    (hra : ready ++ rest.takeWhile (fun p => decide (p.arrival_time ≤ t)) = [])
    (hr1 : rest.dropWhile (fun p => decide (p.arrival_time ≤ t)) = []) :
    npLoop key (fuel + 1) ready rest t sch ct = (sch, ct) := by
  simp only [npLoop, hra, hr1]

theorem npLoop_eq_idle (key : Process → Int × Int × String) (fuel : Nat)
    (ready rest : List Process) (t : Int) (sch : List ScheduleEntry)
    (ct : String → Option Int) (q : Process) (rest2 : List Process)
    (hra : ready ++ rest.takeWhile (fun p => decide (p.arrival_time ≤ t)) = [])
    (hr1 : rest.dropWhile (fun p => decide (p.arrival_time ≤ t)) = q :: rest2) :
    npLoop key (fuel + 1) ready rest t sch ct =
      npLoop key fuel [] (q :: rest2) q.arrival_time
        (if t < q.arrival_time then sch ++ [⟨none, t, q.arrival_time⟩] else sch)
        ct := by
  simp only [npLoop, hra, hr1]

theorem npLoop_eq_run (key : Process → Int × Int × String) (fuel : Nat)
    (ready rest : List Process) (t : Int) (sch : List ScheduleEntry)
    (ct : String → Option Int) (c0 c : Process) (cs readyRest : List Process)
    (hra : ready ++ rest.takeWhile (fun p => decide (p.arrival_time ≤ t)) =
      c0 :: cs)
    (hsort : List.insertionSort (fun a b => lex3 (key a) (key b)) (c0 :: cs) =
      c :: readyRest) :
    npLoop key (fuel + 1) ready rest t sch ct =
      npLoop key fuel readyRest
        (rest.dropWhile fun p => decide (p.arrival_time ≤ t))
        (t + c.burst_time)
        (sch ++ [⟨some c.pid, t, t + c.burst_time⟩])
        (updD ct c.pid (t + c.burst_time)) := by
  simp only [npLoop, hra, hsort]

/-- Invariant-carrying induction for the shared non-preemptive loop. -/
theorem npLoop_master (key : Process → Int × Int × String)
    (procsAll : List Process) :
    ∀ (fuel : Nat) (ready rest : List Process) (t : Int)
      (sch : List ScheduleEntry) (ct : String → Option Int),
      2 * (ready.length + rest.length) +
        (if ready ++ rest.takeWhile (fun p => decide (p.arrival_time ≤ t)) = [] ∧
            rest ≠ [] then 1 else 0) < fuel →
      List.Sorted (fun a b : Process => a.arrival_time ≤ b.arrival_time) rest →
      (∀ p ∈ ready, p.arrival_time ≤ t) →
      (∀ p ∈ ready ++ rest, 0 < p.burst_time) →
      (((ready ++ rest).map fun p => p.pid).Nodup) →
      (∀ p ∈ ready ++ rest, p ∈ procsAll) →
      FreshFor sch (ready ++ rest) →
      Chain sch 0 t →
      NoAdj sch →
      (∀ e, sch.getLast? = some e → e.pid = none →
        ready ++ rest.takeWhile (fun p => decide (p.arrival_time ≤ t)) ≠ []) →
      OwnersOk procsAll sch →
      (∀ p ∈ ready ++ rest, ct p.pid = none ∧ pidTime sch p.pid = 0) →
      (∀ pid c, ct pid = some c → c ≤ t) →
      ∃ T, t ≤ T ∧
        Chain (npLoop key fuel ready rest t sch ct).1 0 T ∧
        NoAdj (npLoop key fuel ready rest t sch ct).1 ∧
        OwnersOk procsAll (npLoop key fuel ready rest t sch ct).1 ∧
        (∀ p ∈ ready ++ rest,
          ∃ c, (npLoop key fuel ready rest t sch ct).2 p.pid = some c ∧
            p.arrival_time + p.burst_time ≤ c ∧ c ≤ T ∧
            pidTime (npLoop key fuel ready rest t sch ct).1 p.pid =
              p.burst_time) ∧
        (∀ pid, (∀ p ∈ ready ++ rest, p.pid ≠ pid) →
          (npLoop key fuel ready rest t sch ct).2 pid = ct pid ∧
          pidTime (npLoop key fuel ready rest t sch ct).1 pid =
            pidTime sch pid) ∧
        (∀ pid c, (npLoop key fuel ready rest t sch ct).2 pid = some c →
          c ≤ T) ∧
        (ready ++ rest ≠ [] →
          ∃ p ∈ ready ++ rest,
            (npLoop key fuel ready rest t sch ct).2 p.pid = some T) ∧
        (ready ++ rest = [] →
          npLoop key fuel ready rest t sch ct = (sch, ct) ∧ T = t) := by
  intro fuel
  induction fuel with
  | zero =>
      intro ready rest t sch ct hmeas
      exact absurd hmeas (Nat.not_lt_zero _)
  | succ fuel ih =>
      intro ready rest t sch ct hmeas hsorted hready hb hnd hmem hfresh hchain
        hadj hidleH howners hct hctb
      rcases hra : ready ++ rest.takeWhile (fun p => decide (p.arrival_time ≤ t))
        with _ | ⟨c0, cs⟩
      · -- nothing is ready after admission
        obtain ⟨hready0, htw⟩ := List.append_eq_nil.mp hra
        subst hready0
        rcases hr1 : rest.dropWhile (fun p => decide (p.arrival_time ≤ t))
          with _ | ⟨q, rest2⟩
        · -- exit: all processes completed
          have hrest0 : rest = [] := by
            rw [← List.takeWhile_append_dropWhile
              (fun p => decide (p.arrival_time ≤ t)) rest, htw, hr1]
            rfl
          subst hrest0
          rw [npLoop_eq_exit key fuel [] [] t sch ct hra hr1]
          refine ⟨t, le_refl t, hchain, hadj, howners, ?_, ?_, ?_, ?_, ?_⟩
          · intro p hp
            cases hp
          · intro pid _
            exact ⟨rfl, rfl⟩
          · intro pid c hc
            exact hctb pid c hc
          · intro h
            exact absurd rfl h
          · intro _
            exact ⟨rfl, rfl⟩
        · -- idle: jump to the next arrival
          have hrest_eq : rest = q :: rest2 := by
            rw [← List.takeWhile_append_dropWhile
              (fun p => decide (p.arrival_time ≤ t)) rest, htw, hr1]
            rfl
          subst hrest_eq
          have htq : t < q.arrival_time := dropWhile_head_arrival hr1
          rw [npLoop_eq_idle key fuel [] (q :: rest2) t sch ct q rest2 hra hr1,
            if_pos htq]
          have hlastni : ∀ e, sch.getLast? = some e → e.pid ≠ none := by
            intro e he hnone
            exact hidleH e he hnone hra
          have htwq : (q :: rest2).takeWhile
              (fun p => decide (p.arrival_time ≤ q.arrival_time)) =
              q :: rest2.takeWhile
                (fun p => decide (p.arrival_time ≤ q.arrival_time)) := by
            rw [List.takeWhile_cons, if_pos (by simp)]
          have hmeas' : 2 * (([] : List Process).length + (q :: rest2).length) +
              (if ([] : List Process) ++ (q :: rest2).takeWhile
                  (fun p => decide (p.arrival_time ≤ q.arrival_time)) = [] ∧
                  (q :: rest2) ≠ [] then 1 else 0) < fuel := by
            have hflag1 : (if ([] : List Process) ++ (q :: rest2).takeWhile
                (fun p => decide (p.arrival_time ≤ t)) = [] ∧
                (q :: rest2) ≠ [] then 1 else 0) = 1 :=
              if_pos ⟨hra, List.cons_ne_nil _ _⟩
            rw [hflag1] at hmeas
            have hflag0 : (if ([] : List Process) ++ (q :: rest2).takeWhile
                (fun p => decide (p.arrival_time ≤ q.arrival_time)) = [] ∧
                (q :: rest2) ≠ [] then 1 else 0) = 0 := by
              rw [List.nil_append, htwq]
              simp
            rw [hflag0]
            simp only [List.length_nil] at hmeas ⊢
            omega
          have hchain1 : Chain (sch ++ [⟨none, t, q.arrival_time⟩]) 0
              q.arrival_time := chain_snoc hchain htq
          have hadj1 : NoAdj (sch ++ [⟨none, t, q.arrival_time⟩]) :=
            noAdj_snoc hadj hlastni
          have howners1 : OwnersOk procsAll
              (sch ++ [⟨none, t, q.arrival_time⟩]) := by
            intro e he pid hq
            rcases List.mem_append.mp he with he | he
            · exact howners e he pid hq
            · simp only [List.mem_singleton] at he
              subst he
              simp at hq
          have hidleH1 : ∀ e,
              (sch ++ [(⟨none, t, q.arrival_time⟩ : ScheduleEntry)]).getLast? =
                some e → e.pid = none →
              ([] : List Process) ++ (q :: rest2).takeWhile
                (fun p => decide (p.arrival_time ≤ q.arrival_time)) ≠ [] := by
            intro e _ _
            rw [List.nil_append, htwq]
            exact List.cons_ne_nil _ _
          have hct1 : ∀ p ∈ ([] : List Process) ++ (q :: rest2),
              ct p.pid = none ∧
              pidTime (sch ++ [⟨none, t, q.arrival_time⟩]) p.pid = 0 := by
            intro p hp
            refine ⟨(hct p hp).1, ?_⟩
            rw [pidTime_snoc, if_neg (by simp)]
            have := (hct p hp).2
            omega
          have hctb1 : ∀ pid c, ct pid = some c → c ≤ q.arrival_time := by
            intro pid c hc
            have := hctb pid c hc
            omega
          obtain ⟨T, hTq, hchainT, hadjT, hownT, hmain, huntch, hballT, hwit,
              hemp⟩ :=
            ih [] (q :: rest2) q.arrival_time
              (sch ++ [⟨none, t, q.arrival_time⟩]) ct hmeas' hsorted
              (fun p hp => absurd hp (List.not_mem_nil p)) hb hnd hmem
              (fun e he p hp => by
                rcases List.mem_append.mp he with he | he
                · exact hfresh e he p hp
                · simp only [List.mem_singleton] at he
                  subst he
                  simp)
              hchain1 hadj1 hidleH1 howners1 hct1 hctb1
          refine ⟨T, by omega, hchainT, hadjT, hownT, hmain, ?_, hballT, hwit,
            ?_⟩
          · intro pid hpid
            obtain ⟨h1, h2⟩ := huntch pid hpid
            refine ⟨h1, ?_⟩
            rw [h2, pidTime_snoc, if_neg (by simp)]
            omega
          · intro h
            simp at h
      · -- at least one process is ready: sort and run its head to completion
        obtain ⟨c, readyRest, hsort⟩ :
            ∃ c readyRest,
              List.insertionSort (fun a b => lex3 (key a) (key b)) (c0 :: cs) =
                c :: readyRest := by
          rcases hs : List.insertionSort (fun a b => lex3 (key a) (key b))
            (c0 :: cs) with _ | ⟨c, rr⟩
          · exact absurd hs
              (insertionSort_ne_nil _ (List.cons_ne_nil _ _))
          · exact ⟨c, rr, rfl⟩
        have hsperm : (c :: readyRest).Perm (c0 :: cs) := by
          rw [← hsort]
          exact List.perm_insertionSort _ _
        have hrest_split : rest =
            rest.takeWhile (fun p => decide (p.arrival_time ≤ t)) ++
            rest.dropWhile (fun p => decide (p.arrival_time ≤ t)) :=
          (List.takeWhile_append_dropWhile _ _).symm
        have hA_eq : ready ++ rest = (c0 :: cs) ++
            rest.dropWhile (fun p => decide (p.arrival_time ≤ t)) := by
          conv_lhs => rw [hrest_split]
          rw [← List.append_assoc, hra]
        have hAperm : (ready ++ rest).Perm
            ((c :: readyRest) ++
              rest.dropWhile (fun p => decide (p.arrival_time ≤ t))) := by
          rw [hA_eq]
          exact (hsperm.append_right _).symm
        have hready1 : ∀ p ∈ c0 :: cs, p.arrival_time ≤ t := by
          intro p hp
          rw [← hra] at hp
          rcases List.mem_append.mp hp with hp | hp
          · exact hready p hp
          · exact (mem_takeWhile_arrival hp).2
        have hcA : c ∈ ready ++ rest := by
          rw [hA_eq]
          exact List.mem_append_left _
            (hsperm.mem_iff.mp (List.mem_cons_self _ _))
        have hsubA : ∀ x, x ∈ readyRest ++
            rest.dropWhile (fun p => decide (p.arrival_time ≤ t)) →
            x ∈ ready ++ rest := by
          intro x hx
          rw [hA_eq]
          rcases List.mem_append.mp hx with hx | hx
          · exact List.mem_append_left _
              (hsperm.mem_iff.mp (List.mem_cons_of_mem _ hx))
          · exact List.mem_append_right _ hx
        have hcb : 0 < c.burst_time := hb c hcA
        have hct0 : c.arrival_time ≤ t :=
          hready1 c (hsperm.mem_iff.mp (List.mem_cons_self _ _))
        have hndA' : (((c :: readyRest) ++
            rest.dropWhile (fun p => decide (p.arrival_time ≤ t))).map
              fun p => p.pid).Nodup :=
          ((hAperm.map fun p => p.pid).nodup_iff).mp hnd
        have hndc : c.pid ∉ ((readyRest ++
            rest.dropWhile (fun p => decide (p.arrival_time ≤ t))).map
              fun p => p.pid) := by
          rw [show ((c :: readyRest) ++
              rest.dropWhile (fun p => decide (p.arrival_time ≤ t))) =
              c :: (readyRest ++
                rest.dropWhile (fun p => decide (p.arrival_time ≤ t)))
              from rfl, List.map_cons, List.nodup_cons] at hndA'
          exact hndA'.1
        have hndA'2 : ((readyRest ++
            rest.dropWhile (fun p => decide (p.arrival_time ≤ t))).map
              fun p => p.pid).Nodup := by
          rw [show ((c :: readyRest) ++
              rest.dropWhile (fun p => decide (p.arrival_time ≤ t))) =
              c :: (readyRest ++
                rest.dropWhile (fun p => decide (p.arrival_time ≤ t)))
              from rfl, List.map_cons, List.nodup_cons] at hndA'
          exact hndA'.2
        have hpidc : ∀ x, x ∈ readyRest ++
            rest.dropWhile (fun p => decide (p.arrival_time ≤ t)) →
            x.pid ≠ c.pid := by
          intro x hx hxc
          exact hndc (hxc ▸ List.mem_map_of_mem (fun s => s.pid) hx)
        -- measure bookkeeping
        have hlen1 : (c :: readyRest).length = (c0 :: cs).length :=
          hsperm.length_eq
        have hlen2 : ready.length +
            (rest.takeWhile (fun p => decide (p.arrival_time ≤ t))).length =
            (c0 :: cs).length := by
          rw [← List.length_append, hra]
        have hlen3 :
            (rest.takeWhile (fun p => decide (p.arrival_time ≤ t))).length +
            (rest.dropWhile (fun p => decide (p.arrival_time ≤ t))).length =
            rest.length := by
          rw [← List.length_append, ← hrest_split]
        have hmeas' : 2 * (readyRest.length +
            (rest.dropWhile (fun p => decide (p.arrival_time ≤ t))).length) +
            (if readyRest ++
                (rest.dropWhile
                  (fun p => decide (p.arrival_time ≤ t))).takeWhile
                  (fun p => decide (p.arrival_time ≤ t + c.burst_time)) = [] ∧
                rest.dropWhile (fun p => decide (p.arrival_time ≤ t)) ≠ []
              then 1 else 0) < fuel := by
          have hflag' : (if readyRest ++
              (rest.dropWhile
                (fun p => decide (p.arrival_time ≤ t))).takeWhile
                (fun p => decide (p.arrival_time ≤ t + c.burst_time)) = [] ∧
              rest.dropWhile (fun p => decide (p.arrival_time ≤ t)) ≠ []
            then 1 else 0) ≤ 1 := by
            split
            · omega
            · omega
          simp only [List.length_cons] at hlen1 hlen2
          omega
        -- invariants at the post-run state
        have hfresh2 : FreshFor (sch ++ [⟨some c.pid, t, t + c.burst_time⟩])
            (readyRest ++
              rest.dropWhile fun p => decide (p.arrival_time ≤ t)) := by
          intro e he q hq
          rcases List.mem_append.mp he with he | he
          · exact hfresh e he q (hsubA q hq)
          · simp only [List.mem_singleton] at he
            subst he
            simp only [Option.some.injEq, ne_eq]
            intro hqc
            exact hpidc q hq hqc.symm
        have hchain2 : Chain (sch ++ [⟨some c.pid, t, t + c.burst_time⟩]) 0
            (t + c.burst_time) := chain_snoc hchain (by omega)
        have hadj2 : NoAdj (sch ++ [⟨some c.pid, t, t + c.burst_time⟩]) :=
          noAdj_snoc hadj fun e he => hfresh e (mem_of_getLast?_eq he) c hcA
        have hidleH2 : ∀ e,
            (sch ++ [(⟨some c.pid, t, t + c.burst_time⟩ :
              ScheduleEntry)]).getLast? = some e → e.pid = none →
            readyRest ++
              (rest.dropWhile
                (fun p => decide (p.arrival_time ≤ t))).takeWhile
                (fun p => decide (p.arrival_time ≤ t + c.burst_time)) ≠ [] := by
          intro e he hnone
          rw [List.getLast?_concat] at he
          cases he
          simp at hnone
        have howners2 : OwnersOk procsAll
            (sch ++ [⟨some c.pid, t, t + c.burst_time⟩]) := by
          intro e he q hq
          rcases List.mem_append.mp he with he | he
          · exact howners e he q hq
          · simp only [List.mem_singleton] at he
            subst he
            simp only [Option.some.injEq] at hq
            exact ⟨c, hmem c hcA, hq ▸ rfl, hct0⟩
        have hct2 : ∀ q ∈ readyRest ++
            rest.dropWhile (fun p => decide (p.arrival_time ≤ t)),
            updD ct c.pid (t + c.burst_time) q.pid = none ∧
            pidTime (sch ++ [⟨some c.pid, t, t + c.burst_time⟩]) q.pid = 0 := by
          intro q hq
          constructor
          · rw [updD_other ct _ (hpidc q hq)]
            exact (hct q (hsubA q hq)).1
          · rw [pidTime_snoc]
            have hne : (some c.pid : Option String) ≠ some q.pid := by
              simpa using fun h => hpidc q hq h.symm
            rw [if_neg hne]
            have := (hct q (hsubA q hq)).2
            omega
        have hctb2 : ∀ pid cc,
            updD ct c.pid (t + c.burst_time) pid = some cc →
            cc ≤ t + c.burst_time := by
          intro pid cc hcc
          by_cases hpq : pid = c.pid
          · subst hpq
            rw [updD_same] at hcc
            cases hcc
            omega
          · rw [updD_other ct _ hpq] at hcc
            have := hctb pid cc hcc
            omega
        obtain ⟨T, hTe, hchainT, hadjT, hownT, hmain, huntch, hballT, hwit,
            hemp⟩ :=
          ih readyRest (rest.dropWhile fun p => decide (p.arrival_time ≤ t))
            (t + c.burst_time) (sch ++ [⟨some c.pid, t, t + c.burst_time⟩])
            (updD ct c.pid (t + c.burst_time)) hmeas'
            (List.Pairwise.sublist (List.dropWhile_sublist _) hsorted)
            (fun p hp => by
              have : p ∈ c0 :: cs :=
                hsperm.mem_iff.mp (List.mem_cons_of_mem _ hp)
              have := hready1 p this
              omega)
            (fun p hp => hb p (hsubA p hp)) hndA'2
            (fun p hp => hmem p (hsubA p hp)) hfresh2 hchain2 hadj2 hidleH2
            howners2 hct2 hctb2
        rw [npLoop_eq_run key fuel ready rest t sch ct c0 c cs readyRest hra
          hsort]
        refine ⟨T, by omega, hchainT, hadjT, hownT, ?_, ?_, hballT, ?_, ?_⟩
        · intro p hp
          have hp' : p ∈ (c :: readyRest) ++
              rest.dropWhile (fun p => decide (p.arrival_time ≤ t)) :=
            hAperm.mem_iff.mp hp
          rcases List.mem_append.mp hp' with hp' | hp'
          · rcases List.mem_cons.mp hp' with rfl | hp''
            · obtain ⟨hcteq, hpteq⟩ := huntch p.pid fun r hr =>
                hpidc r hr
              refine ⟨t + p.burst_time, ?_, by omega, by omega, ?_⟩
              · rw [hcteq, updD_same]
              · rw [hpteq, pidTime_snoc, if_pos rfl]
                have := (hct p hcA).2
                omega
            · exact hmain p (List.mem_append_left _ hp'')
          · exact hmain p (List.mem_append_right _ hp')
        · intro pid hpid
          have hrest' : ∀ r ∈ readyRest ++
              rest.dropWhile (fun p => decide (p.arrival_time ≤ t)),
              r.pid ≠ pid :=
            fun r hr => hpid r (hsubA r hr)
          obtain ⟨h1, h2⟩ := huntch pid hrest'
          have hcpid : pid ≠ c.pid :=
            fun h => hpid c hcA h.symm
          constructor
          · rw [h1, updD_other ct _ hcpid]
          · rw [h2, pidTime_snoc]
            have hne : (some c.pid : Option String) ≠ some pid := by
              simpa using fun h => hcpid h.symm
            rw [if_neg hne]
            omega
        · intro _
          by_cases hA' : readyRest ++
              rest.dropWhile (fun p => decide (p.arrival_time ≤ t)) = []
          · obtain ⟨heq, hTt⟩ := hemp hA'
            refine ⟨c, hcA, ?_⟩
            rw [heq]
            show updD ct c.pid (t + c.burst_time) c.pid = some T
            rw [updD_same, hTt]
          · obtain ⟨q, hq, hqT⟩ := hwit hA'
            exact ⟨q, hsubA q hq, hqT⟩
        · intro h
          rw [h] at hcA
          cases hcA

/-!
## The preemptive unit-stepping loop: unfolding equations and master invariant
-/

/-- Total remaining burst over a process list, as a natural number; the
termination measure of the preemptive loops. -/
def sumRem (rem : String → Int) (l : List Process) : Nat :=
  (l.map fun p => (rem p.pid).toNat).sum

theorem sumRem_nil (rem : String → Int) : sumRem rem [] = 0 := rfl

theorem sumRem_cons (rem : String → Int) (p : Process) (l : List Process) :
    sumRem rem (p :: l) = (rem p.pid).toNat + sumRem rem l := by
  simp [sumRem]

theorem sumRem_perm (rem : String → Int) {l m : List Process} (h : l.Perm m) :
    sumRem rem l = sumRem rem m := by
  unfold sumRem
  exact (h.map fun p => (rem p.pid).toNat).sum_eq

theorem sumRem_congr {f g : String → Int} {l : List Process}
    (h : ∀ p ∈ l, f p.pid = g p.pid) : sumRem f l = sumRem g l := by
  unfold sumRem
  rw [List.map_congr_left fun p hp => by rw [h p hp]]

theorem preLoop_eq_exit (key : (String → Int) → Process → Int × Int × String)
    (fuel : Nat) (ready rest : List Process) (t : Int) (rem : String → Int)
    (sch : List ScheduleEntry) (ct : String → Option Int)
    (hra : ready ++ rest.takeWhile (fun p => decide (p.arrival_time ≤ t)) = [])
    (hr1 : rest.dropWhile (fun p => decide (p.arrival_time ≤ t)) = []) :
    preLoop key (fuel + 1) ready rest t rem sch ct = (sch, ct) := by
  simp only [preLoop, hra, hr1]

theorem preLoop_eq_idle (key : (String → Int) → Process → Int × Int × String)
    (fuel : Nat) (ready rest : List Process) (t : Int) (rem : String → Int)
    (sch : List ScheduleEntry) (ct : String → Option Int)
    (q : Process) (rest2 : List Process)
    (hra : ready ++ rest.takeWhile (fun p => decide (p.arrival_time ≤ t)) = [])
    (hr1 : rest.dropWhile (fun p => decide (p.arrival_time ≤ t)) = q :: rest2) :
    preLoop key (fuel + 1) ready rest t rem sch ct =
      preLoop key fuel [] (q :: rest2) q.arrival_time rem
        (if t < q.arrival_time then appendIdle sch t q.arrival_time else sch)
        ct := by
  simp only [preLoop, hra, hr1]

theorem preLoop_eq_run_fin
    (key : (String → Int) → Process → Int × Int × String)
    (fuel : Nat) (ready rest : List Process) (t : Int) (rem : String → Int)
    (sch : List ScheduleEntry) (ct : String → Option Int)
    (c0 c : Process) (cs readyRest : List Process)
    (hra : ready ++ rest.takeWhile (fun p => decide (p.arrival_time ≤ t)) =
      c0 :: cs)
    (hsort : List.insertionSort (fun a b => lex3 (key rem a) (key rem b))
      (c0 :: cs) = c :: readyRest)
    (hfin : rem c.pid - 1 = 0) :
    preLoop key (fuel + 1) ready rest t rem sch ct =
      preLoop key fuel
        ((c :: readyRest).filter fun p => decide (p.pid ≠ c.pid))
        (rest.dropWhile fun p => decide (p.arrival_time ≤ t)) (t + 1)
        (updR rem c.pid (rem c.pid - 1)) (appendRun sch c.pid t)
        (updD ct c.pid (t + 1)) := by
  simp only [preLoop, hra, hsort]
  rw [updR_same, if_pos hfin]

theorem preLoop_eq_run_go
    (key : (String → Int) → Process → Int × Int × String)
    (fuel : Nat) (ready rest : List Process) (t : Int) (rem : String → Int)
    (sch : List ScheduleEntry) (ct : String → Option Int)
    (c0 c : Process) (cs readyRest : List Process)
    (hra : ready ++ rest.takeWhile (fun p => decide (p.arrival_time ≤ t)) =
      c0 :: cs)
    (hsort : List.insertionSort (fun a b => lex3 (key rem a) (key rem b))
      (c0 :: cs) = c :: readyRest)
    (hnfin : ¬(rem c.pid - 1 = 0)) :
    preLoop key (fuel + 1) ready rest t rem sch ct =
      preLoop key fuel (c :: readyRest)
        (rest.dropWhile fun p => decide (p.arrival_time ≤ t)) (t + 1)
        (updR rem c.pid (rem c.pid - 1)) (appendRun sch c.pid t) ct := by
  simp only [preLoop, hra, hsort]
  rw [updR_same, if_neg hnfin]

/-- Invariant-carrying induction for the shared preemptive unit-stepping
loop.  `rem` tracks remaining bursts; a queued process always has at least
one unit left, and the schedule so far grants each active process exactly
`burst - rem` units. -/
theorem preLoop_master (key : (String → Int) → Process → Int × Int × String)
    (procsAll : List Process) :
    ∀ (fuel : Nat) (ready rest : List Process) (t : Int) (rem : String → Int)
      (sch : List ScheduleEntry) (ct : String → Option Int),
      2 * sumRem rem (ready ++ rest) +
        (if ready ++ rest.takeWhile (fun p => decide (p.arrival_time ≤ t)) = [] ∧
            rest ≠ [] then 1 else 0) < fuel →
      List.Sorted (fun a b : Process => a.arrival_time ≤ b.arrival_time) rest →
      (∀ p ∈ ready, p.arrival_time ≤ t) →
      (∀ p ∈ ready ++ rest, 0 < p.burst_time) →
      (((ready ++ rest).map fun p => p.pid).Nodup) →
      (∀ p ∈ ready ++ rest, p ∈ procsAll) →
      Chain sch 0 t →
      NoAdj sch →
      OwnersOk procsAll sch →
      (∀ p ∈ rest, rem p.pid = p.burst_time) →
      (∀ p ∈ ready, 1 ≤ rem p.pid ∧ rem p.pid ≤ p.burst_time ∧
        p.burst_time - rem p.pid ≤ t - p.arrival_time) →
      (∀ p ∈ ready ++ rest, ct p.pid = none ∧
        pidTime sch p.pid = p.burst_time - rem p.pid) →
      (∀ pid c, ct pid = some c → c ≤ t) →
      ∃ T, t ≤ T ∧
        Chain (preLoop key fuel ready rest t rem sch ct).1 0 T ∧
        NoAdj (preLoop key fuel ready rest t rem sch ct).1 ∧
        OwnersOk procsAll (preLoop key fuel ready rest t rem sch ct).1 ∧
        (∀ p ∈ ready ++ rest,
          ∃ c, (preLoop key fuel ready rest t rem sch ct).2 p.pid = some c ∧
            p.arrival_time + p.burst_time ≤ c ∧ c ≤ T ∧
            pidTime (preLoop key fuel ready rest t rem sch ct).1 p.pid =
              p.burst_time) ∧
        (∀ pid, (∀ p ∈ ready ++ rest, p.pid ≠ pid) →
          (preLoop key fuel ready rest t rem sch ct).2 pid = ct pid ∧
          pidTime (preLoop key fuel ready rest t rem sch ct).1 pid =
            pidTime sch pid) ∧
        (∀ pid c, (preLoop key fuel ready rest t rem sch ct).2 pid = some c →
          c ≤ T) ∧
        (ready ++ rest ≠ [] →
          ∃ p ∈ ready ++ rest,
            (preLoop key fuel ready rest t rem sch ct).2 p.pid = some T) ∧
        (ready ++ rest = [] →
          preLoop key fuel ready rest t rem sch ct = (sch, ct) ∧ T = t) := by
  intro fuel
  induction fuel with
  | zero =>
      intro ready rest t rem sch ct hmeas
      exact absurd hmeas (Nat.not_lt_zero _)
  | succ fuel ih =>
      intro ready rest t rem sch ct hmeas hsorted hready hb hnd hmem hchain
        hadj howners hremrest hremready hct hctb
      rcases hra : ready ++ rest.takeWhile (fun p => decide (p.arrival_time ≤ t))
        with _ | ⟨c0, cs⟩
      · obtain ⟨hready0, htw⟩ := List.append_eq_nil.mp hra
        subst hready0
        rcases hr1 : rest.dropWhile (fun p => decide (p.arrival_time ≤ t))
          with _ | ⟨q, rest2⟩
        · -- exit: all processes completed
          have hrest0 : rest = [] := by
            rw [← List.takeWhile_append_dropWhile
              (fun p => decide (p.arrival_time ≤ t)) rest, htw, hr1]
            rfl
          subst hrest0
          rw [preLoop_eq_exit key fuel [] [] t rem sch ct hra hr1]
          refine ⟨t, le_refl t, hchain, hadj, howners, ?_, ?_, ?_, ?_, ?_⟩
          · intro p hp
            cases hp
          · intro pid _
            exact ⟨rfl, rfl⟩
          · intro pid c hc
            exact hctb pid c hc
          · intro h
            exact absurd rfl h
          · intro _
            exact ⟨rfl, rfl⟩
        · -- idle: merge the gap and jump to the next arrival
          have hrest_eq : rest = q :: rest2 := by
            rw [← List.takeWhile_append_dropWhile
              (fun p => decide (p.arrival_time ≤ t)) rest, htw, hr1]
            rfl
          subst hrest_eq
          have htq : t < q.arrival_time := dropWhile_head_arrival hr1
          rw [preLoop_eq_idle key fuel [] (q :: rest2) t rem sch ct q rest2 hra
            hr1, if_pos htq]
          have htwq : (q :: rest2).takeWhile
              (fun p => decide (p.arrival_time ≤ q.arrival_time)) =
              q :: rest2.takeWhile
                (fun p => decide (p.arrival_time ≤ q.arrival_time)) := by
            rw [List.takeWhile_cons, if_pos (by simp)]
          have hmeas' : 2 * sumRem rem (([] : List Process) ++ (q :: rest2)) +
              (if ([] : List Process) ++ (q :: rest2).takeWhile
                  (fun p => decide (p.arrival_time ≤ q.arrival_time)) = [] ∧
                  (q :: rest2) ≠ [] then 1 else 0) < fuel := by
            have hflag1 : (if ([] : List Process) ++ (q :: rest2).takeWhile
                (fun p => decide (p.arrival_time ≤ t)) = [] ∧
                (q :: rest2) ≠ [] then 1 else 0) = 1 :=
              if_pos ⟨hra, List.cons_ne_nil _ _⟩
            rw [hflag1] at hmeas
            have hflag0 : (if ([] : List Process) ++ (q :: rest2).takeWhile
                (fun p => decide (p.arrival_time ≤ q.arrival_time)) = [] ∧
                (q :: rest2) ≠ [] then 1 else 0) = 0 := by
              rw [List.nil_append, htwq]
              simp
            rw [hflag0]
            omega
          have hct1 : ∀ p ∈ ([] : List Process) ++ (q :: rest2),
              ct p.pid = none ∧
              pidTime (appendIdle sch t q.arrival_time) p.pid =
                p.burst_time - rem p.pid := by
            intro p hp
            refine ⟨(hct p hp).1, ?_⟩
            rw [pidTime_appendIdle]
            exact (hct p hp).2
          obtain ⟨T, hTq, hchainT, hadjT, hownT, hmain, huntch, hballT, hwit,
              hemp⟩ :=
            ih [] (q :: rest2) q.arrival_time rem
              (appendIdle sch t q.arrival_time) ct hmeas' hsorted
              (fun p hp => absurd hp (List.not_mem_nil p)) hb hnd hmem
              (chain_appendIdle hchain htq) (noAdj_appendIdle hchain hadj)
              (ownersOk_appendIdle howners) hremrest
              (fun p hp => absurd hp (List.not_mem_nil p)) hct1
              (fun pid c hc => by
                have := hctb pid c hc
                omega)
          refine ⟨T, by omega, hchainT, hadjT, hownT, hmain, ?_, hballT, hwit,
            ?_⟩
          · intro pid hpid
            obtain ⟨h1, h2⟩ := huntch pid hpid
            refine ⟨h1, ?_⟩
            rw [h2, pidTime_appendIdle]
          · intro h
            simp at h
      · -- at least one process is ready: sort, run the head one unit
        obtain ⟨c, readyRest, hsort⟩ :
            ∃ c readyRest,
              List.insertionSort (fun a b => lex3 (key rem a) (key rem b))
                (c0 :: cs) = c :: readyRest := by
          rcases hs : List.insertionSort
            (fun a b => lex3 (key rem a) (key rem b)) (c0 :: cs)
            with _ | ⟨c, rr⟩
          · exact absurd hs (insertionSort_ne_nil _ (List.cons_ne_nil _ _))
          · exact ⟨c, rr, rfl⟩
        have hsperm : (c :: readyRest).Perm (c0 :: cs) := by
          rw [← hsort]
          exact List.perm_insertionSort _ _
        have hrest_split : rest =
            rest.takeWhile (fun p => decide (p.arrival_time ≤ t)) ++
            rest.dropWhile (fun p => decide (p.arrival_time ≤ t)) :=
          (List.takeWhile_append_dropWhile _ _).symm
        have hA_eq : ready ++ rest = (c0 :: cs) ++
            rest.dropWhile (fun p => decide (p.arrival_time ≤ t)) := by
          conv_lhs => rw [hrest_split]
          rw [← List.append_assoc, hra]
        have hAperm : (ready ++ rest).Perm
            ((c :: readyRest) ++
              rest.dropWhile (fun p => decide (p.arrival_time ≤ t))) := by
          rw [hA_eq]
          exact (hsperm.append_right _).symm
        have hready1 : ∀ p ∈ c0 :: cs, p.arrival_time ≤ t := by
          intro p hp
          rw [← hra] at hp
          rcases List.mem_append.mp hp with hp | hp
          · exact hready p hp
          · exact (mem_takeWhile_arrival hp).2
        have hq1bound : ∀ p ∈ c0 :: cs, 1 ≤ rem p.pid ∧
            rem p.pid ≤ p.burst_time ∧
            p.burst_time - rem p.pid ≤ t - p.arrival_time := by
          intro p hp
          have harr := hready1 p hp
          rw [← hra] at hp
          rcases List.mem_append.mp hp with hp | hp
          · exact hremready p hp
          · obtain ⟨hpr, _⟩ := mem_takeWhile_arrival hp
            have hrb := hremrest p hpr
            have hbp := hb p (List.mem_append_right _ hpr)
            refine ⟨by omega, by omega, by omega⟩
        have hcA : c ∈ ready ++ rest := by
          rw [hA_eq]
          exact List.mem_append_left _
            (hsperm.mem_iff.mp (List.mem_cons_self _ _))
        have hsubA : ∀ x, x ∈ readyRest ++
            rest.dropWhile (fun p => decide (p.arrival_time ≤ t)) →
            x ∈ ready ++ rest := by
          intro x hx
          rw [hA_eq]
          rcases List.mem_append.mp hx with hx | hx
          · exact List.mem_append_left _
              (hsperm.mem_iff.mp (List.mem_cons_of_mem _ hx))
          · exact List.mem_append_right _ hx
        have hcb : 0 < c.burst_time := hb c hcA
        have hct0 : c.arrival_time ≤ t :=
          hready1 c (hsperm.mem_iff.mp (List.mem_cons_self _ _))
        have hcrem := hq1bound c (hsperm.mem_iff.mp (List.mem_cons_self _ _))
        have hndA' : (((c :: readyRest) ++
            rest.dropWhile (fun p => decide (p.arrival_time ≤ t))).map
              fun p => p.pid).Nodup :=
          ((hAperm.map fun p => p.pid).nodup_iff).mp hnd
        have hndc : c.pid ∉ ((readyRest ++
            rest.dropWhile (fun p => decide (p.arrival_time ≤ t))).map
              fun p => p.pid) := by
          rw [show ((c :: readyRest) ++
              rest.dropWhile (fun p => decide (p.arrival_time ≤ t))) =
              c :: (readyRest ++
                rest.dropWhile (fun p => decide (p.arrival_time ≤ t)))
              from rfl, List.map_cons, List.nodup_cons] at hndA'
          exact hndA'.1
        have hpidc : ∀ x, x ∈ readyRest ++
            rest.dropWhile (fun p => decide (p.arrival_time ≤ t)) →
            x.pid ≠ c.pid := by
          intro x hx hxc
          exact hndc (hxc ▸ List.mem_map_of_mem (fun s => s.pid) hx)
        have hsumA : sumRem rem (ready ++ rest) = (rem c.pid).toNat +
            sumRem rem (readyRest ++
              rest.dropWhile fun p => decide (p.arrival_time ≤ t)) := by
          rw [sumRem_perm rem hAperm]
          exact sumRem_cons rem c _
        have hsumtail : sumRem (updR rem c.pid (rem c.pid - 1))
            (readyRest ++
              rest.dropWhile fun p => decide (p.arrival_time ≤ t)) =
            sumRem rem (readyRest ++
              rest.dropWhile fun p => decide (p.arrival_time ≤ t)) :=
          sumRem_congr fun p hp => updR_other rem _ (hpidc p hp)
        have hchain1 : Chain (appendRun sch c.pid t) 0 (t + 1) :=
          chain_appendRun c.pid hchain
        have hadj1 : NoAdj (appendRun sch c.pid t) :=
          noAdj_appendRun c.pid hchain hadj
        have howners1 : OwnersOk procsAll (appendRun sch c.pid t) :=
          ownersOk_appendRun howners ⟨c, hmem c hcA, rfl, hct0⟩
        have hrest1sub : ∀ p ∈
            rest.dropWhile (fun p => decide (p.arrival_time ≤ t)), p ∈ rest :=
          fun p hp => (List.dropWhile_sublist _).subset hp
        have hsorted1 : List.Sorted
            (fun a b : Process => a.arrival_time ≤ b.arrival_time)
            (rest.dropWhile fun p => decide (p.arrival_time ≤ t)) :=
          List.Pairwise.sublist (List.dropWhile_sublist _) hsorted
        by_cases hfin : rem c.pid - 1 = 0
        · -- the unit finishes the process: record completion, drop it
          have hfilter : (c :: readyRest).filter
              (fun p => decide (p.pid ≠ c.pid)) = readyRest := by
            rw [List.filter_cons, if_neg (by simp)]
            exact List.filter_eq_self.mpr fun r hr => by
              simpa using hpidc r (List.mem_append_left _ hr)
          rw [preLoop_eq_run_fin key fuel ready rest t rem sch ct c0 c cs
            readyRest hra hsort hfin, hfilter]
          have hmeas' : 2 * sumRem (updR rem c.pid (rem c.pid - 1))
              (readyRest ++
                rest.dropWhile fun p => decide (p.arrival_time ≤ t)) +
              (if readyRest ++
                  (rest.dropWhile
                    (fun p => decide (p.arrival_time ≤ t))).takeWhile
                    (fun p => decide (p.arrival_time ≤ t + 1)) = [] ∧
                  rest.dropWhile (fun p => decide (p.arrival_time ≤ t)) ≠ []
                then 1 else 0) < fuel := by
            have hflag' : (if readyRest ++
                (rest.dropWhile
                  (fun p => decide (p.arrival_time ≤ t))).takeWhile
                  (fun p => decide (p.arrival_time ≤ t + 1)) = [] ∧
                rest.dropWhile (fun p => decide (p.arrival_time ≤ t)) ≠ []
              then 1 else 0) ≤ 1 := by
              split
              · omega
              · omega
            have h1 : 1 ≤ (rem c.pid).toNat := by
              have := hcrem.1
              omega
            rw [hsumtail]
            omega
          have hct1 : ∀ p ∈ readyRest ++
              rest.dropWhile (fun p => decide (p.arrival_time ≤ t)),
              updD ct c.pid (t + 1) p.pid = none ∧
              pidTime (appendRun sch c.pid t) p.pid =
                p.burst_time - updR rem c.pid (rem c.pid - 1) p.pid := by
            intro p hp
            constructor
            · rw [updD_other ct _ (hpidc p hp)]
              exact (hct p (hsubA p hp)).1
            · rw [pidTime_appendRun, if_neg fun h => hpidc p hp h.symm,
                updR_other rem _ (hpidc p hp)]
              have := (hct p (hsubA p hp)).2
              omega
          obtain ⟨T, hT1, hchainT, hadjT, hownT, hmain, huntch, hballT, hwit,
              hemp⟩ :=
            ih readyRest (rest.dropWhile fun p => decide (p.arrival_time ≤ t))
              (t + 1) (updR rem c.pid (rem c.pid - 1)) (appendRun sch c.pid t)
              (updD ct c.pid (t + 1)) hmeas' hsorted1
              (fun p hp => by
                have := hready1 p (hsperm.mem_iff.mp (List.mem_cons_of_mem _ hp))
                omega)
              (fun p hp => hb p (hsubA p hp))
              (by
                rw [show ((c :: readyRest) ++
                    rest.dropWhile (fun p => decide (p.arrival_time ≤ t))) =
                    c :: (readyRest ++
                      rest.dropWhile (fun p => decide (p.arrival_time ≤ t)))
                    from rfl, List.map_cons, List.nodup_cons] at hndA'
                exact hndA'.2)
              (fun p hp => hmem p (hsubA p hp)) hchain1 hadj1 howners1
              (fun p hp => by
                rw [updR_other rem _ (hpidc p (List.mem_append_right _ hp))]
                exact hremrest p (hrest1sub p hp))
              (fun p hp => by
                rw [updR_other rem _ (hpidc p (List.mem_append_left _ hp))]
                have := hq1bound p
                  (hsperm.mem_iff.mp (List.mem_cons_of_mem _ hp))
                refine ⟨this.1, this.2.1, by omega⟩)
              hct1
              (fun pid cc hcc => by
                by_cases hpq : pid = c.pid
                · subst hpq
                  rw [updD_same] at hcc
                  cases hcc
                  omega
                · rw [updD_other ct _ hpq] at hcc
                  have := hctb pid cc hcc
                  omega)
          refine ⟨T, by omega, hchainT, hadjT, hownT, ?_, ?_, hballT, ?_, ?_⟩
          · intro p hp
            have hp' : p ∈ (c :: readyRest) ++
                rest.dropWhile (fun p => decide (p.arrival_time ≤ t)) :=
              hAperm.mem_iff.mp hp
            rcases List.mem_append.mp hp' with hp' | hp'
            · rcases List.mem_cons.mp hp' with rfl | hp''
              · obtain ⟨hcteq, hpteq⟩ := huntch p.pid fun r hr => hpidc r hr
                have hpt0 := (hct p hcA).2
                refine ⟨t + 1, ?_, by omega, by omega, ?_⟩
                · rw [hcteq, updD_same]
                · rw [hpteq, pidTime_appendRun, if_pos rfl]
                  omega
              · exact hmain p (List.mem_append_left _ hp'')
            · exact hmain p (List.mem_append_right _ hp')
          · intro pid hpid
            obtain ⟨h1, h2⟩ := huntch pid fun r hr => hpid r (hsubA r hr)
            have hcpid : pid ≠ c.pid := fun h => hpid c hcA h.symm
            constructor
            · rw [h1, updD_other ct _ hcpid]
            · rw [h2, pidTime_appendRun, if_neg fun h => hcpid h.symm]
              omega
          · intro _
            by_cases hA' : readyRest ++
                rest.dropWhile (fun p => decide (p.arrival_time ≤ t)) = []
            · obtain ⟨heq, hTt⟩ := hemp hA'
              refine ⟨c, hcA, ?_⟩
              rw [heq]
              show updD ct c.pid (t + 1) c.pid = some T
              rw [updD_same, hTt]
            · obtain ⟨q, hq, hqT⟩ := hwit hA'
              exact ⟨q, hsubA q hq, hqT⟩
          · intro h
            rw [h] at hcA
            cases hcA
        · -- the process still has remaining time: it stays in the queue
          rw [preLoop_eq_run_go key fuel ready rest t rem sch ct c0 c cs
            readyRest hra hsort hfin]
          have hge1 : 1 ≤ rem c.pid - 1 := by
            have := hcrem.1
            omega
          have hmeas' : 2 * sumRem (updR rem c.pid (rem c.pid - 1))
              ((c :: readyRest) ++
                rest.dropWhile fun p => decide (p.arrival_time ≤ t)) +
              (if (c :: readyRest) ++
                  (rest.dropWhile
                    (fun p => decide (p.arrival_time ≤ t))).takeWhile
                    (fun p => decide (p.arrival_time ≤ t + 1)) = [] ∧
                  rest.dropWhile (fun p => decide (p.arrival_time ≤ t)) ≠ []
                then 1 else 0) < fuel := by
            have hflag' : (if (c :: readyRest) ++
                (rest.dropWhile
                  (fun p => decide (p.arrival_time ≤ t))).takeWhile
                  (fun p => decide (p.arrival_time ≤ t + 1)) = [] ∧
                rest.dropWhile (fun p => decide (p.arrival_time ≤ t)) ≠ []
              then 1 else 0) ≤ 1 := by
              split
              · omega
              · omega
            have hsum1 : sumRem (updR rem c.pid (rem c.pid - 1))
                ((c :: readyRest) ++
                  rest.dropWhile fun p => decide (p.arrival_time ≤ t)) =
                (rem c.pid - 1).toNat +
                sumRem (updR rem c.pid (rem c.pid - 1))
                  (readyRest ++
                    rest.dropWhile fun p => decide (p.arrival_time ≤ t)) := by
              rw [show ((c :: readyRest) ++
                  rest.dropWhile (fun p => decide (p.arrival_time ≤ t))) =
                  c :: (readyRest ++
                    rest.dropWhile (fun p => decide (p.arrival_time ≤ t)))
                  from rfl, sumRem_cons, updR_same]
            have h1 : 1 ≤ (rem c.pid).toNat := by
              have := hcrem.1
              omega
            have h2 : (rem c.pid - 1).toNat = (rem c.pid).toNat - 1 := by
              have := hcrem.1
              omega
            rw [hsum1, hsumtail, h2]
            omega
          have hct1 : ∀ p ∈ (c :: readyRest) ++
              rest.dropWhile (fun p => decide (p.arrival_time ≤ t)),
              ct p.pid = none ∧
              pidTime (appendRun sch c.pid t) p.pid =
                p.burst_time - updR rem c.pid (rem c.pid - 1) p.pid := by
            intro p hp
            rcases List.mem_append.mp hp with hp' | hp'
            · rcases List.mem_cons.mp hp' with rfl | hp''
              · refine ⟨(hct p hcA).1, ?_⟩
                rw [pidTime_appendRun, if_pos rfl, updR_same]
                have := (hct p hcA).2
                omega
              · have hne := hpidc p (List.mem_append_left _ hp'')
                refine ⟨(hct p (hsubA p (List.mem_append_left _ hp''))).1, ?_⟩
                rw [pidTime_appendRun, if_neg fun h => hne h.symm,
                  updR_other rem _ hne]
                have := (hct p (hsubA p (List.mem_append_left _ hp''))).2
                omega
            · have hne := hpidc p (List.mem_append_right _ hp')
              refine ⟨(hct p (hsubA p (List.mem_append_right _ hp'))).1, ?_⟩
              rw [pidTime_appendRun, if_neg fun h => hne h.symm,
                updR_other rem _ hne]
              have := (hct p (hsubA p (List.mem_append_right _ hp'))).2
              omega
          obtain ⟨T, hT1, hchainT, hadjT, hownT, hmain, huntch, hballT, hwit,
              hemp⟩ :=
            ih (c :: readyRest)
              (rest.dropWhile fun p => decide (p.arrival_time ≤ t))
              (t + 1) (updR rem c.pid (rem c.pid - 1)) (appendRun sch c.pid t)
              ct hmeas' hsorted1
              (fun p hp => by
                rcases List.mem_cons.mp hp with rfl | hp'
                · omega
                · have := hready1 p
                    (hsperm.mem_iff.mp (List.mem_cons_of_mem _ hp'))
                  omega)
              (fun p hp => hb p (hAperm.mem_iff.mpr hp)) hndA'
              (fun p hp => hmem p (hAperm.mem_iff.mpr hp)) hchain1 hadj1
              howners1
              (fun p hp => by
                rw [updR_other rem _ (hpidc p (List.mem_append_right _ hp))]
                exact hremrest p (hrest1sub p hp))
              (fun p hp => by
                rcases List.mem_cons.mp hp with rfl | hp'
                · rw [updR_same]
                  refine ⟨hge1, by omega, by omega⟩
                · rw [updR_other rem _
                    (hpidc p (List.mem_append_left _ hp'))]
                  have := hq1bound p
                    (hsperm.mem_iff.mp (List.mem_cons_of_mem _ hp'))
                  refine ⟨this.1, this.2.1, by omega⟩)
              hct1
              (fun pid cc hcc => by
                have := hctb pid cc hcc
                omega)
          refine ⟨T, by omega, hchainT, hadjT, hownT, ?_, ?_, hballT, ?_, ?_⟩
          · intro p hp
            exact hmain p (hAperm.mem_iff.mp hp)
          · intro pid hpid
            obtain ⟨h1, h2⟩ := huntch pid fun r hr =>
              hpid r (hAperm.mem_iff.mpr hr)
            have hcpid : pid ≠ c.pid := fun h => hpid c hcA h.symm
            refine ⟨h1, ?_⟩
            rw [h2, pidTime_appendRun, if_neg fun h => hcpid h.symm]
            omega
          · intro _
            obtain ⟨q, hq, hqT⟩ := hwit (by simp)
            exact ⟨q, hAperm.mem_iff.mpr hq, hqT⟩
          · intro h
            rw [h] at hcA
            cases hcA

/-!
## The Round Robin loop: unfolding equations
-/

theorem rrLoop_eq_exit (quantum : Int) (fuel : Nat) (t : Int)
    (rem : String → Int) (sch : List ScheduleEntry)
    (ct : String → Option Int) :
    rrLoop quantum (fuel + 1) [] [] t rem sch ct = (sch, ct) := rfl

theorem rrLoop_eq_ready (quantum : Int) (fuel : Nat) (c : Process)
    (ready0 rest : List Process) (t : Int) (rem : String → Int)
    (sch : List ScheduleEntry) (ct : String → Option Int) :
    rrLoop quantum (fuel + 1) (c :: ready0) rest t rem sch ct =
      (if 0 < rem c.pid - min quantum (rem c.pid) then
        rrLoop quantum fuel
          (((ready0 ++ rest.takeWhile fun p => decide (p.arrival_time ≤ t)) ++
            (rest.dropWhile fun p => decide (p.arrival_time ≤ t)).takeWhile
              (fun p =>
                decide (p.arrival_time ≤ t + min quantum (rem c.pid)))) ++ [c])
          ((rest.dropWhile fun p => decide (p.arrival_time ≤ t)).dropWhile
            fun p => decide (p.arrival_time ≤ t + min quantum (rem c.pid)))
          (t + min quantum (rem c.pid))
          (updR rem c.pid (rem c.pid - min quantum (rem c.pid)))
          (sch ++ [⟨some c.pid, t, t + min quantum (rem c.pid)⟩]) ct
      else
        rrLoop quantum fuel
          ((ready0 ++ rest.takeWhile fun p => decide (p.arrival_time ≤ t)) ++
            (rest.dropWhile fun p => decide (p.arrival_time ≤ t)).takeWhile
              (fun p =>
                decide (p.arrival_time ≤ t + min quantum (rem c.pid))))
          ((rest.dropWhile fun p => decide (p.arrival_time ≤ t)).dropWhile
            fun p => decide (p.arrival_time ≤ t + min quantum (rem c.pid)))
          (t + min quantum (rem c.pid))
          (updR rem c.pid (rem c.pid - min quantum (rem c.pid)))
          (sch ++ [⟨some c.pid, t, t + min quantum (rem c.pid)⟩])
          (updD ct c.pid (t + min quantum (rem c.pid)))) := by
  simp only [rrLoop, List.cons_append]
  rw [updR_same]

theorem rrLoop_eq_idle (quantum : Int) (fuel : Nat) (q : Process)
    (rrest : List Process) (t : Int) (rem : String → Int)
    (sch : List ScheduleEntry) (ct : String → Option Int)
    (t1 : Int) (ht1 : (if t < q.arrival_time then q.arrival_time else t) = t1)
    (sch1 : List ScheduleEntry)
    (hsch1 : (if t < q.arrival_time then
      sch ++ [(⟨none, t, q.arrival_time⟩ : ScheduleEntry)] else sch) = sch1) :
    rrLoop quantum (fuel + 1) [] (q :: rrest) t rem sch ct =
      (if 0 < rem q.pid - min quantum (rem q.pid) then
        rrLoop quantum fuel
          (((rrest.takeWhile fun p => decide (p.arrival_time ≤ t1)) ++
            (rrest.dropWhile fun p => decide (p.arrival_time ≤ t1)).takeWhile
              (fun p =>
                decide (p.arrival_time ≤ t1 + min quantum (rem q.pid)))) ++ [q])
          ((rrest.dropWhile fun p => decide (p.arrival_time ≤ t1)).dropWhile
            fun p => decide (p.arrival_time ≤ t1 + min quantum (rem q.pid)))
          (t1 + min quantum (rem q.pid))
          (updR rem q.pid (rem q.pid - min quantum (rem q.pid)))
          (sch1 ++ [⟨some q.pid, t1, t1 + min quantum (rem q.pid)⟩]) ct
      else
        rrLoop quantum fuel
          ((rrest.takeWhile fun p => decide (p.arrival_time ≤ t1)) ++
            (rrest.dropWhile fun p => decide (p.arrival_time ≤ t1)).takeWhile
              (fun p =>
                decide (p.arrival_time ≤ t1 + min quantum (rem q.pid))))
          ((rrest.dropWhile fun p => decide (p.arrival_time ≤ t1)).dropWhile
            fun p => decide (p.arrival_time ≤ t1 + min quantum (rem q.pid)))
          (t1 + min quantum (rem q.pid))
          (updR rem q.pid (rem q.pid - min quantum (rem q.pid)))
          (sch1 ++ [⟨some q.pid, t1, t1 + min quantum (rem q.pid)⟩])
          (updD ct q.pid (t1 + min quantum (rem q.pid)))) := by
  have hqt1 : q.arrival_time ≤ t1 := by
    rw [← ht1]
    by_cases hc : t < q.arrival_time
    · rw [if_pos hc]
    · rw [if_neg hc]
      omega
  simp only [rrLoop, ht1, hsch1]
  rw [List.takeWhile_cons, List.dropWhile_cons,
    if_pos (show decide (q.arrival_time ≤ t1) = true by simpa using hqt1),
    if_pos (show decide (q.arrival_time ≤ t1) = true by simpa using hqt1)]
  simp only [List.nil_append]
  rw [updR_same]

/-- Invariant-carrying induction for the Round Robin loop.  The queue is
FIFO; every queued process has at least one remaining unit, so every slice
makes progress.  The schedule never merges same-pid slices, but never puts
two idle entries side by side. -/
theorem rrLoop_master (quantum : Int) (hq : 0 < quantum)
    (procsAll : List Process) :
    ∀ (fuel : Nat) (ready rest : List Process) (t : Int) (rem : String → Int)
      (sch : List ScheduleEntry) (ct : String → Option Int),
      sumRem rem (ready ++ rest) < fuel →
      List.Sorted (fun a b : Process => a.arrival_time ≤ b.arrival_time) rest →
      (∀ p ∈ ready, p.arrival_time ≤ t) →
      (∀ p ∈ ready ++ rest, 0 < p.burst_time) →
      (((ready ++ rest).map fun p => p.pid).Nodup) →
      (∀ p ∈ ready ++ rest, p ∈ procsAll) →
      Chain sch 0 t →
      NoAdjIdle sch →
      (∀ e, sch.getLast? = some e → e.pid ≠ none) →
      OwnersOk procsAll sch →
      (∀ p ∈ rest, rem p.pid = p.burst_time) →
      (∀ p ∈ ready, 1 ≤ rem p.pid ∧ rem p.pid ≤ p.burst_time ∧
        p.burst_time - rem p.pid ≤ t - p.arrival_time) →
      (∀ p ∈ ready ++ rest, ct p.pid = none ∧
        pidTime sch p.pid = p.burst_time - rem p.pid) →
      (∀ pid c, ct pid = some c → c ≤ t) →
      ∃ T, t ≤ T ∧
        Chain (rrLoop quantum fuel ready rest t rem sch ct).1 0 T ∧
        NoAdjIdle (rrLoop quantum fuel ready rest t rem sch ct).1 ∧
        OwnersOk procsAll (rrLoop quantum fuel ready rest t rem sch ct).1 ∧
        (∀ p ∈ ready ++ rest,
          ∃ c, (rrLoop quantum fuel ready rest t rem sch ct).2 p.pid = some c ∧
            p.arrival_time + p.burst_time ≤ c ∧ c ≤ T ∧
            pidTime (rrLoop quantum fuel ready rest t rem sch ct).1 p.pid =
              p.burst_time) ∧
        (∀ pid, (∀ p ∈ ready ++ rest, p.pid ≠ pid) →
          (rrLoop quantum fuel ready rest t rem sch ct).2 pid = ct pid ∧
          pidTime (rrLoop quantum fuel ready rest t rem sch ct).1 pid =
            pidTime sch pid) ∧
        (∀ pid c, (rrLoop quantum fuel ready rest t rem sch ct).2 pid =
          some c → c ≤ T) ∧
        (ready ++ rest ≠ [] →
          ∃ p ∈ ready ++ rest,
            (rrLoop quantum fuel ready rest t rem sch ct).2 p.pid = some T) ∧
        (ready ++ rest = [] →
          rrLoop quantum fuel ready rest t rem sch ct = (sch, ct) ∧
          T = t) := by
  intro fuel
  induction fuel with
  | zero =>
      intro ready rest t rem sch ct hmeas
      exact absurd hmeas (Nat.not_lt_zero _)
  | succ fuel ih =>
      intro ready rest t rem sch ct hmeas hsorted hready hb hnd hmem hchain
        hadjI hlastni howners hremrest hremready hct hctb
      -- one CPU slice, factored out of the two queue-nonempty cases
      have hslice : ∀ (c : Process) (ready1 rest1 : List Process) (t1 : Int)
          (sch1 : List ScheduleEntry)
          (res : List ScheduleEntry × (String → Option Int)),
          res = (if 0 < rem c.pid - min quantum (rem c.pid) then
            rrLoop quantum fuel
              ((ready1 ++ (rest1.takeWhile fun p =>
                decide (p.arrival_time ≤ t1 + min quantum (rem c.pid)))) ++ [c])
              (rest1.dropWhile fun p =>
                decide (p.arrival_time ≤ t1 + min quantum (rem c.pid)))
              (t1 + min quantum (rem c.pid))
              (updR rem c.pid (rem c.pid - min quantum (rem c.pid)))
              (sch1 ++ [⟨some c.pid, t1, t1 + min quantum (rem c.pid)⟩]) ct
          else
            rrLoop quantum fuel
              (ready1 ++ (rest1.takeWhile fun p =>
                decide (p.arrival_time ≤ t1 + min quantum (rem c.pid))))
              (rest1.dropWhile fun p =>
                decide (p.arrival_time ≤ t1 + min quantum (rem c.pid)))
              (t1 + min quantum (rem c.pid))
              (updR rem c.pid (rem c.pid - min quantum (rem c.pid)))
              (sch1 ++ [⟨some c.pid, t1, t1 + min quantum (rem c.pid)⟩])
              (updD ct c.pid (t1 + min quantum (rem c.pid)))) →
          sumRem rem ((c :: ready1) ++ rest1) < fuel + 1 →
          List.Sorted (fun a b : Process => a.arrival_time ≤ b.arrival_time)
            rest1 →
          (∀ p ∈ c :: ready1, p.arrival_time ≤ t1) →
          (∀ p ∈ (c :: ready1) ++ rest1, 0 < p.burst_time) →
          ((((c :: ready1) ++ rest1).map fun p => p.pid).Nodup) →
          (∀ p ∈ (c :: ready1) ++ rest1, p ∈ procsAll) →
          Chain sch1 0 t1 →
          NoAdjIdle sch1 →
          OwnersOk procsAll sch1 →
          (∀ p ∈ rest1, rem p.pid = p.burst_time) →
          (∀ p ∈ c :: ready1, 1 ≤ rem p.pid ∧ rem p.pid ≤ p.burst_time ∧
            p.burst_time - rem p.pid ≤ t1 - p.arrival_time) →
          (∀ p ∈ (c :: ready1) ++ rest1, ct p.pid = none ∧
            pidTime sch1 p.pid = p.burst_time - rem p.pid) →
          (∀ pid cc, ct pid = some cc → cc ≤ t1) →
          ∃ T, t1 ≤ T ∧
            Chain res.1 0 T ∧ NoAdjIdle res.1 ∧ OwnersOk procsAll res.1 ∧
            (∀ p ∈ (c :: ready1) ++ rest1,
              ∃ cc, res.2 p.pid = some cc ∧
                p.arrival_time + p.burst_time ≤ cc ∧ cc ≤ T ∧
                pidTime res.1 p.pid = p.burst_time) ∧
            (∀ pid, (∀ p ∈ (c :: ready1) ++ rest1, p.pid ≠ pid) →
              res.2 pid = ct pid ∧ pidTime res.1 pid = pidTime sch1 pid) ∧
            (∀ pid cc, res.2 pid = some cc → cc ≤ T) ∧
            (∃ p ∈ (c :: ready1) ++ rest1, res.2 p.pid = some T) := by
        intro c ready1 rest1 t1 sch1 res hres hm hs hr hb' hnd' hmem' hch hai
          how hrr hrq hctq hctbq
        have hcrem := hrq c (List.mem_cons_self _ _)
        obtain ⟨rt, hrt⟩ : ∃ x, min quantum (rem c.pid) = x := ⟨_, rfl⟩
        rw [hrt] at hres
        obtain ⟨tw2, htw2⟩ : ∃ x,
            (rest1.takeWhile fun p => decide (p.arrival_time ≤ t1 + rt)) = x :=
          ⟨_, rfl⟩
        obtain ⟨dw2, hdw2⟩ : ∃ x,
            (rest1.dropWhile fun p => decide (p.arrival_time ≤ t1 + rt)) = x :=
          ⟨_, rfl⟩
        obtain ⟨rem1, hrem1⟩ : ∃ x, updR rem c.pid (rem c.pid - rt) = x :=
          ⟨_, rfl⟩
        obtain ⟨sch2, hsch2⟩ : ∃ x,
            sch1 ++ [(⟨some c.pid, t1, t1 + rt⟩ : ScheduleEntry)] = x :=
          ⟨_, rfl⟩
        rw [htw2, hdw2, hrem1, hsch2] at hres
        have hrt1 : 1 ≤ rt := by
          rw [← hrt]
          exact le_min hq hcrem.1
        have hrtle : rt ≤ rem c.pid := by
          rw [← hrt]
          exact min_le_right _ _
        have hcarr : c.arrival_time ≤ t1 := hr c (List.mem_cons_self _ _)
        have hcA : c ∈ (c :: ready1) ++ rest1 :=
          List.mem_append_left _ (List.mem_cons_self _ _)
        have hcb : 0 < c.burst_time := hb' c hcA
        have hsplit : rest1 = tw2 ++ dw2 := by
          rw [← htw2, ← hdw2]
          exact (List.takeWhile_append_dropWhile _ _).symm
        have hndc : c.pid ∉ ((ready1 ++ rest1).map fun p => p.pid) := by
          rw [show (c :: ready1) ++ rest1 = c :: (ready1 ++ rest1) from rfl,
            List.map_cons, List.nodup_cons] at hnd'
          exact hnd'.1
        have hpidc : ∀ x, x ∈ ready1 ++ rest1 → x.pid ≠ c.pid := by
          intro x hx hxc
          exact hndc (hxc ▸ List.mem_map_of_mem (fun s => s.pid) hx)
        have hmemA : ∀ p, p ∈ ready1 ++ rest1 → p ∈ (c :: ready1) ++ rest1 := by
          intro p hp
          rcases List.mem_append.mp hp with hp | hp
          · exact List.mem_append_left _ (List.mem_cons_of_mem _ hp)
          · exact List.mem_append_right _ hp
        have hrem1c : rem1 c.pid = rem c.pid - rt := by
          rw [← hrem1]
          exact updR_same _ _ _
        have hrem1o : ∀ pid, pid ≠ c.pid → rem1 pid = rem pid := by
          intro pid hpid
          rw [← hrem1]
          exact updR_other rem _ hpid
        have hchain2 : Chain sch2 0 (t1 + rt) := by
          rw [← hsch2]
          exact chain_snoc hch (by omega)
        have hadjI2 : NoAdjIdle sch2 := by
          rw [← hsch2]
          exact noAdjIdle_snoc_run hai
        have hlastni2 : ∀ e : ScheduleEntry, sch2.getLast? = some e →
            e.pid ≠ none := by
          rw [← hsch2]
          intro e he
          rw [List.getLast?_concat] at he
          cases he
          simp
        have how2 : OwnersOk procsAll sch2 := by
          rw [← hsch2]
          intro e he pid hpid
          rcases List.mem_append.mp he with he | he
          · exact how e he pid hpid
          · simp only [List.mem_singleton] at he
            subst he
            simp only [Option.some.injEq] at hpid
            exact ⟨c, hmem' c hcA, hpid ▸ rfl, hcarr⟩
        have hpt2 : ∀ q : String, pidTime sch2 q = pidTime sch1 q +
            (if some c.pid = some q then t1 + rt - t1 else 0) := by
          intro q
          rw [← hsch2]
          exact pidTime_snoc sch1 _ _ _ q
        have htw2mem : ∀ p ∈ tw2, p ∈ rest1 ∧ p.arrival_time ≤ t1 + rt := by
          intro p hp
          rw [← htw2] at hp
          exact mem_takeWhile_arrival hp
        have hdw2sub : ∀ p ∈ dw2, p ∈ rest1 := by
          intro p hp
          rw [← hdw2] at hp
          exact (List.dropWhile_sublist _).subset hp
        have hsorted2 : List.Sorted
            (fun a b : Process => a.arrival_time ≤ b.arrival_time) dw2 := by
          rw [← hdw2]
          exact List.Pairwise.sublist (List.dropWhile_sublist _) hs
        have hready2 : ∀ p ∈ ready1 ++ tw2, p.arrival_time ≤ t1 + rt := by
          intro p hp
          rcases List.mem_append.mp hp with hp | hp
          · have := hr p (List.mem_cons_of_mem _ hp)
            omega
          · exact (htw2mem p hp).2
        have hsubQ : ∀ x, x ∈ ready1 ++ tw2 → x ∈ ready1 ++ rest1 := by
          intro x hx
          rcases List.mem_append.mp hx with hx | hx
          · exact List.mem_append_left _ hx
          · exact List.mem_append_right _ (htw2mem x hx).1
        have hQeq : (ready1 ++ tw2) ++ dw2 = ready1 ++ rest1 := by
          rw [List.append_assoc, ← hsplit]
        have hrr2 : ∀ p ∈ dw2, rem1 p.pid = p.burst_time := by
          intro p hp
          have hp' := hdw2sub p hp
          rw [hrem1o p.pid (hpidc p (List.mem_append_right _ hp'))]
          exact hrr p hp'
        have hrq2 : ∀ p ∈ ready1 ++ tw2, 1 ≤ rem1 p.pid ∧
            rem1 p.pid ≤ p.burst_time ∧
            p.burst_time - rem1 p.pid ≤ t1 + rt - p.arrival_time := by
          intro p hp
          rw [hrem1o p.pid (hpidc p (hsubQ p hp))]
          rcases List.mem_append.mp hp with hp' | hp'
          · have := hrq p (List.mem_cons_of_mem _ hp')
            refine ⟨this.1, this.2.1, by omega⟩
          · obtain ⟨hpr, harr⟩ := htw2mem p hp'
            have := hrr p hpr
            have hbp := hb' p (List.mem_append_right _ hpr)
            refine ⟨by omega, by omega, by omega⟩
        have hctA : ∀ p ∈ ready1 ++ rest1, ct p.pid = none ∧
            pidTime sch2 p.pid = p.burst_time - rem1 p.pid := by
          intro p hp
          refine ⟨(hctq p (hmemA p hp)).1, ?_⟩
          have hne : (some c.pid : Option String) ≠ some p.pid := by
            simpa using fun h => hpidc p hp h.symm
          rw [hpt2, if_neg hne, hrem1o p.pid (hpidc p hp)]
          have := (hctq p (hmemA p hp)).2
          omega
        have hctc2 : pidTime sch2 c.pid = c.burst_time - rem1 c.pid := by
          rw [hpt2, if_pos rfl, hrem1c]
          have := (hctq c hcA).2
          omega
        have hsumc : sumRem rem ((c :: ready1) ++ rest1) =
            (rem c.pid).toNat + sumRem rem (ready1 ++ rest1) := by
          rw [show (c :: ready1) ++ rest1 = c :: (ready1 ++ rest1) from rfl,
            sumRem_cons]
        have hsumtail : sumRem rem1 (ready1 ++ rest1) =
            sumRem rem (ready1 ++ rest1) := by
          rw [← hrem1]
          exact sumRem_congr fun p hp => updR_other rem _ (hpidc p hp)
        have hmA := hm
        rw [hsumc] at hmA
        by_cases hgo : 0 < rem c.pid - rt
        · -- the slice does not finish the process: re-queue it at the back
          rw [if_pos hgo] at hres
          subst hres
          have hAperm : ((((ready1 ++ tw2) ++ [c]) ++ dw2)).Perm
              ((c :: ready1) ++ rest1) := by
            rw [show ((ready1 ++ tw2) ++ [c]) ++ dw2 =
              (ready1 ++ tw2) ++ (c :: dw2) by
                rw [List.append_assoc]
                rfl]
            refine List.perm_middle.trans ?_
            rw [hQeq]
            exact List.Perm.refl _
          have hmeas2 : sumRem rem1 (((ready1 ++ tw2) ++ [c]) ++ dw2) <
              fuel := by
            rw [sumRem_perm rem1 hAperm,
              show (c :: ready1) ++ rest1 = c :: (ready1 ++ rest1) from rfl,
              sumRem_cons, hsumtail, hrem1c]
            omega
          have hready3 : ∀ p ∈ (ready1 ++ tw2) ++ [c],
              p.arrival_time ≤ t1 + rt := by
            intro p hp
            rcases List.mem_append.mp hp with hp | hp
            · exact hready2 p hp
            · simp only [List.mem_singleton] at hp
              subst hp
              omega
          have hrq3 : ∀ p ∈ (ready1 ++ tw2) ++ [c], 1 ≤ rem1 p.pid ∧
              rem1 p.pid ≤ p.burst_time ∧
              p.burst_time - rem1 p.pid ≤ t1 + rt - p.arrival_time := by
            intro p hp
            rcases List.mem_append.mp hp with hp | hp
            · exact hrq2 p hp
            · simp only [List.mem_singleton] at hp
              subst hp
              rw [hrem1c]
              have h1 := hcrem.2.1
              have h2 := hcrem.2.2
              refine ⟨by omega, by omega, by omega⟩
          have hct3 : ∀ p ∈ (((ready1 ++ tw2) ++ [c]) ++ dw2),
              ct p.pid = none ∧
              pidTime sch2 p.pid = p.burst_time - rem1 p.pid := by
            intro p hp
            have hp' : p ∈ (c :: ready1) ++ rest1 := hAperm.mem_iff.mp hp
            rcases List.mem_cons.mp (show p ∈ c :: (ready1 ++ rest1) from hp')
              with rfl | hp''
            · exact ⟨(hctq p hcA).1, hctc2⟩
            · exact hctA p hp''
          obtain ⟨T, hTe, hchT, haiT, hownT, hmainT, huntchT, hballT, hwitT,
              hempT⟩ :=
            ih (((ready1 ++ tw2) ++ [c])) dw2 (t1 + rt) rem1 sch2 ct hmeas2
              hsorted2 hready3
              (fun p hp => hb' p (hAperm.mem_iff.mp hp))
              (((hAperm.map fun p => p.pid).nodup_iff).mpr hnd')
              (fun p hp => hmem' p (hAperm.mem_iff.mp hp))
              hchain2 hadjI2 hlastni2 how2 hrr2 hrq3 hct3
              (fun pid cc hcc => by
                have := hctbq pid cc hcc
                omega)
          refine ⟨T, by omega, hchT, haiT, hownT, ?_, ?_, hballT, ?_⟩
          · intro p hp
            exact hmainT p (hAperm.mem_iff.mpr hp)
          · intro pid hpid
            obtain ⟨h1, h2⟩ := huntchT pid fun r hr' =>
              hpid r (hAperm.mem_iff.mp hr')
            have hcpid : pid ≠ c.pid := fun h => hpid c hcA h.symm
            refine ⟨h1, ?_⟩
            rw [h2, hpt2, if_neg (by
              simpa using fun h => hcpid h.symm)]
            omega
          · obtain ⟨p, hp, hpT⟩ := hwitT (by simp)
            exact ⟨p, hAperm.mem_iff.mp hp, hpT⟩
        · -- the slice finishes the process: record its completion time
          rw [if_neg hgo] at hres
          subst hres
          have hrteq : rt = rem c.pid := by omega
          have hmeas2 : sumRem rem1 ((ready1 ++ tw2) ++ dw2) < fuel := by
            rw [hQeq, hsumtail]
            omega
          have hct3 : ∀ p ∈ (ready1 ++ tw2) ++ dw2,
              updD ct c.pid (t1 + rt) p.pid = none ∧
              pidTime sch2 p.pid = p.burst_time - rem1 p.pid := by
            intro p hp
            rw [hQeq] at hp
            refine ⟨?_, (hctA p hp).2⟩
            rw [updD_other ct _ (hpidc p hp)]
            exact (hctA p hp).1
          obtain ⟨T, hTe, hchT, haiT, hownT, hmainT, huntchT, hballT, hwitT,
              hempT⟩ :=
            ih ((ready1 ++ tw2)) dw2 (t1 + rt) rem1 sch2
              (updD ct c.pid (t1 + rt)) hmeas2 hsorted2 hready2
              (fun p hp => hb' p (hmemA p (hQeq ▸ hp)))
              (by
                rw [show ((ready1 ++ tw2) ++ dw2).map (fun p => p.pid) =
                  ((ready1 ++ rest1).map fun p => p.pid) by rw [hQeq]]
                rw [show (c :: ready1) ++ rest1 = c :: (ready1 ++ rest1)
                  from rfl, List.map_cons, List.nodup_cons] at hnd'
                exact hnd'.2)
              (fun p hp => hmem' p (hmemA p (hQeq ▸ hp)))
              hchain2 hadjI2 hlastni2 how2 hrr2 hrq2 hct3
              (fun pid cc hcc => by
                by_cases hpq : pid = c.pid
                · subst hpq
                  rw [updD_same] at hcc
                  cases hcc
                  omega
                · rw [updD_other ct _ hpq] at hcc
                  have := hctbq pid cc hcc
                  omega)
          refine ⟨T, by omega, hchT, haiT, hownT, ?_, ?_, hballT, ?_⟩
          · intro p hp
            rcases List.mem_cons.mp
              (show p ∈ c :: (ready1 ++ rest1) from hp) with rfl | hp'
            · obtain ⟨h1, h2⟩ := huntchT p.pid fun r hr' =>
                hpidc r (hQeq ▸ hr')
              have h3 := hcrem.2.2
              refine ⟨t1 + rt, ?_, by omega, by omega, ?_⟩
              · rw [h1, updD_same]
              · rw [h2, hctc2, hrem1c]
                omega
            · have hp'' : p ∈ (ready1 ++ tw2) ++ dw2 := by
                rw [hQeq]
                exact hp'
              exact hmainT p hp''
          · intro pid hpid
            obtain ⟨h1, h2⟩ := huntchT pid fun r hr' =>
              hpid r (hmemA r (hQeq ▸ hr'))
            have hcpid : pid ≠ c.pid := fun h => hpid c hcA h.symm
            constructor
            · rw [h1, updD_other ct _ hcpid]
            · rw [h2, hpt2, if_neg (by simpa using fun h => hcpid h.symm)]
              omega
          · by_cases hE : (ready1 ++ tw2) ++ dw2 = []
            · obtain ⟨heq, hTt⟩ := hempT hE
              refine ⟨c, hcA, ?_⟩
              rw [heq]
              show updD ct c.pid (t1 + rt) c.pid = some T
              rw [updD_same, hTt]
            · obtain ⟨p, hp, hpT⟩ := hwitT hE
              exact ⟨p, hmemA p (hQeq ▸ hp), hpT⟩
      -- now the three top-level shapes of one iteration
      rcases ready with _ | ⟨c, ready0⟩
      · rcases rest with _ | ⟨q, rrest⟩
        · -- both lists empty: the loop is done
          rw [rrLoop_eq_exit]
          refine ⟨t, le_refl t, hchain, hadjI, howners, ?_, ?_, ?_, ?_, ?_⟩
          · intro p hp
            cases hp
          · intro pid _
            exact ⟨rfl, rfl⟩
          · intro pid cc hc
            exact hctb pid cc hc
          · intro h
            exact absurd rfl h
          · intro _
            exact ⟨rfl, rfl⟩
        · -- nothing ready: jump over the idle gap, then run the arrival
          obtain ⟨t1, ht1⟩ :
              ∃ x, (if t < q.arrival_time then q.arrival_time else t) = x :=
            ⟨_, rfl⟩
          obtain ⟨sch1, hsch1⟩ : ∃ x, (if t < q.arrival_time then
              sch ++ [(⟨none, t, q.arrival_time⟩ : ScheduleEntry)] else sch) =
              x := ⟨_, rfl⟩
          rw [rrLoop_eq_idle quantum fuel q rrest t rem sch ct t1 ht1 sch1
            hsch1]
          have htt1 : t ≤ t1 := by
            rw [← ht1]
            by_cases hc : t < q.arrival_time
            · rw [if_pos hc]
              omega
            · rw [if_neg hc]
          have hqt1 : q.arrival_time ≤ t1 := by
            rw [← ht1]
            by_cases hc : t < q.arrival_time
            · rw [if_pos hc]
            · rw [if_neg hc]
              omega
          have hchain1 : Chain sch1 0 t1 := by
            rw [← ht1, ← hsch1]
            by_cases hc : t < q.arrival_time
            · rw [if_pos hc, if_pos hc]
              exact chain_snoc hchain hc
            · rw [if_neg hc, if_neg hc]
              exact hchain
          have hadjI1 : NoAdjIdle sch1 := by
            rw [← hsch1]
            by_cases hc : t < q.arrival_time
            · rw [if_pos hc]
              exact noAdjIdle_snoc_idle hadjI hlastni
            · rw [if_neg hc]
              exact hadjI
          have howners1 : OwnersOk procsAll sch1 := by
            rw [← hsch1]
            by_cases hc : t < q.arrival_time
            · rw [if_pos hc]
              intro e he pid hpid
              rcases List.mem_append.mp he with he | he
              · exact howners e he pid hpid
              · simp only [List.mem_singleton] at he
                subst he
                simp at hpid
            · rw [if_neg hc]
              exact howners
          have hpt1 : ∀ pid : String, pidTime sch1 pid = pidTime sch pid := by
            intro pid
            rw [← hsch1]
            by_cases hc : t < q.arrival_time
            · rw [if_pos hc, pidTime_snoc]
              simp
            · rw [if_neg hc]
          have hAeq2 : (q :: (rrest.takeWhile fun p =>
              decide (p.arrival_time ≤ t1))) ++
              (rrest.dropWhile fun p => decide (p.arrival_time ≤ t1)) =
              q :: rrest := by
            rw [List.cons_append, List.takeWhile_append_dropWhile]
          have hsorted' : List.Sorted
              (fun a b : Process => a.arrival_time ≤ b.arrival_time) rrest :=
            (List.sorted_cons.mp hsorted).2
          obtain ⟨T, hT1, hchT, haiT, hownT, hmainT, huntchT, hballT,
              hwitT⟩ :=
            hslice q (rrest.takeWhile fun p => decide (p.arrival_time ≤ t1))
              (rrest.dropWhile fun p => decide (p.arrival_time ≤ t1)) t1 sch1
              _ rfl
              (by
                rw [hAeq2]
                simpa using hmeas)
              (List.Pairwise.sublist (List.dropWhile_sublist _) hsorted')
              (by
                intro p hp
                rcases List.mem_cons.mp hp with rfl | hp'
                · exact hqt1
                · exact (mem_takeWhile_arrival hp').2)
              (by
                rw [hAeq2]
                intro p hp
                exact hb p (by simpa using hp))
              (by
                rw [hAeq2]
                simpa using hnd)
              (by
                rw [hAeq2]
                intro p hp
                exact hmem p (by simpa using hp))
              hchain1 hadjI1 howners1
              (by
                intro p hp
                exact hremrest p
                  (List.mem_cons_of_mem _ ((List.dropWhile_sublist _).subset hp)))
              (by
                intro p hp
                have hpmem : p ∈ q :: rrest := by
                  rcases List.mem_cons.mp hp with rfl | hp'
                  · exact List.mem_cons_self _ _
                  · exact List.mem_cons_of_mem _
                      ((List.takeWhile_sublist _).subset hp')
                have harr : p.arrival_time ≤ t1 := by
                  rcases List.mem_cons.mp hp with rfl | hp'
                  · exact hqt1
                  · exact (mem_takeWhile_arrival hp').2
                have hbp := hb p (List.mem_append_right _ hpmem)
                have := hremrest p hpmem
                refine ⟨by omega, by omega, by omega⟩)
              (by
                rw [hAeq2]
                intro p hp
                have hp' : p ∈ ([] : List Process) ++ (q :: rrest) := by
                  simpa using hp
                refine ⟨(hct p hp').1, ?_⟩
                rw [hpt1]
                exact (hct p hp').2)
              (fun pid cc hcc => by
                have := hctb pid cc hcc
                omega)
          rw [hAeq2] at hmainT huntchT hwitT
          refine ⟨T, by omega, hchT, haiT, hownT, ?_, ?_, hballT, ?_, ?_⟩
          · intro p hp
            exact hmainT p (by simpa using hp)
          · intro pid hpid
            obtain ⟨h1, h2⟩ := huntchT pid fun r hr' =>
              hpid r (by simpa using hr')
            refine ⟨h1, ?_⟩
            rw [h2, hpt1]
          · intro _
            obtain ⟨p, hp, hpT⟩ := hwitT
            exact ⟨p, by simpa using hp, hpT⟩
          · intro h
            simp at h
      · -- a process is at the head of the queue: run one slice
        rw [rrLoop_eq_ready]
        have hAct : (c :: (ready0 ++ (rest.takeWhile fun p =>
            decide (p.arrival_time ≤ t)))) ++
            (rest.dropWhile fun p => decide (p.arrival_time ≤ t)) =
            (c :: ready0) ++ rest := by
          rw [List.cons_append, List.cons_append, List.append_assoc,
            List.takeWhile_append_dropWhile]
        obtain ⟨T, hT1, hchT, haiT, hownT, hmainT, huntchT, hballT, hwitT⟩ :=
          hslice c (ready0 ++ (rest.takeWhile fun p =>
              decide (p.arrival_time ≤ t)))
            (rest.dropWhile fun p => decide (p.arrival_time ≤ t)) t sch
            _ rfl
            (by
              rw [hAct]
              exact hmeas)
            (List.Pairwise.sublist (List.dropWhile_sublist _) hsorted)
            (by
              intro p hp
              rcases List.mem_cons.mp hp with rfl | hp'
              · exact hready p (List.mem_cons_self _ _)
              · rcases List.mem_append.mp hp' with hp'' | hp''
                · exact hready p (List.mem_cons_of_mem _ hp'')
                · exact (mem_takeWhile_arrival hp'').2)
            (by
              rw [hAct]
              exact hb)
            (by
              rw [hAct]
              exact hnd)
            (by
              rw [hAct]
              exact hmem)
            hchain hadjI howners
            (by
              intro p hp
              exact hremrest p ((List.dropWhile_sublist _).subset hp))
            (by
              intro p hp
              rcases List.mem_cons.mp hp with rfl | hp'
              · exact hremready p (List.mem_cons_self _ _)
              · rcases List.mem_append.mp hp' with hp'' | hp''
                · exact hremready p (List.mem_cons_of_mem _ hp'')
                · obtain ⟨hpr, harr⟩ := mem_takeWhile_arrival hp''
                  have hbp := hb p (List.mem_append_right _ hpr)
                  have := hremrest p hpr
                  refine ⟨by omega, by omega, by omega⟩)
            (by
              rw [hAct]
              exact hct)
            hctb
        rw [hAct] at hmainT huntchT hwitT
        refine ⟨T, hT1, hchT, haiT, hownT, hmainT, huntchT, hballT, ?_, ?_⟩
        · intro _
          exact hwitT
        · intro h
          simp at h

/-!
## From completion-time facts to StatsOk
-/

/-- Building the stats table from a completion-time map that satisfies the
master-lemma bounds yields a sound stats table. -/
theorem statsOk_of_ct {processes procs statsOrder : List Process}
    (hperm : procs.Perm processes) (hpermS : statsOrder.Perm procs)
    (ct : String → Option Int) (T : Int)
    (hmain : ∀ p ∈ procs, ∃ c, ct p.pid = some c ∧
      p.arrival_time + p.burst_time ≤ c ∧ c ≤ T)
    (hwit : ∃ p ∈ procs, ct p.pid = some T) :
    StatsOk processes (mkStats statsOrder ct) T := by
  have hmemS : ∀ p : Process, p ∈ statsOrder ↔ p ∈ processes :=
    fun p => (hpermS.trans hperm).mem_iff
  refine ⟨?_, ?_, ?_, ?_, ?_⟩
  · rw [mkStats, List.length_map, hpermS.length_eq, hperm.length_eq]
  · intro p hp
    obtain ⟨c, hc, hbound, _⟩ := hmain p (hperm.mem_iff.mpr hp)
    refine ⟨_, List.mem_map_of_mem _ ((hmemS p).mpr hp), rfl, rfl, rfl, rfl,
      ?_⟩
    show p.arrival_time + p.burst_time ≤ (ct p.pid).getD 0
    rw [hc]
    exact hbound
  · intro s hs
    obtain ⟨p, hp, rfl⟩ := List.mem_map.mp hs
    exact ⟨p, (hmemS p).mp hp, rfl, rfl, rfl, rfl⟩
  · intro s hs
    obtain ⟨p, hp, rfl⟩ := List.mem_map.mp hs
    obtain ⟨c, hc, hbound, hcT⟩ := hmain p (hpermS.mem_iff.mp hp)
    refine ⟨rfl, rfl, ?_, ?_⟩
    · show p.arrival_time + p.burst_time ≤ (ct p.pid).getD 0
      rw [hc]
      exact hbound
    · show (ct p.pid).getD 0 ≤ T
      rw [hc]
      exact hcT
  · obtain ⟨p, hp, hpT⟩ := hwit
    refine ⟨_, List.mem_map_of_mem _ (hpermS.mem_iff.mpr hp), ?_⟩
    show (ct p.pid).getD 0 = T
    rw [hpT]
    rfl

/-- Soundness of the shared non-preemptive scheduling construction. -/
theorem npSchedule_sound (key : Process → Int × Int × String)
    (processes : List Process) (hne : processes ≠ [])
    (hb : ∀ p ∈ processes, 0 < p.burst_time)
    (hnd : (processes.map fun p => p.pid).Nodup) :
    AlgoSound processes
      ((npLoop key (2 * (sortByArrivalPid processes).length + 2) []
          (sortByArrivalPid processes) 0 [] (fun _ => none)).1,
        mkStats (sortByPid (sortByArrivalPid processes))
          (npLoop key (2 * (sortByArrivalPid processes).length + 2) []
            (sortByArrivalPid processes) 0 [] (fun _ => none)).2) ∧
      NoAdj (npLoop key (2 * (sortByArrivalPid processes).length + 2) []
        (sortByArrivalPid processes) 0 [] (fun _ => none)).1 := by
  have hperm := sortByArrivalPid_perm processes
  have hbs : ∀ p ∈ sortByArrivalPid processes, 0 < p.burst_time :=
    fun p hp => hb p (hperm.mem_iff.mp hp)
  have hnds : ((sortByArrivalPid processes).map fun p => p.pid).Nodup :=
    (List.Perm.nodup_iff (hperm.map fun p => p.pid)).mpr hnd
  have hmem : ∀ p ∈ sortByArrivalPid processes, p ∈ processes :=
    fun p hp => hperm.mem_iff.mp hp
  have hmeas : 2 * (([] : List Process).length +
      (sortByArrivalPid processes).length) +
      (if ([] : List Process) ++ (sortByArrivalPid processes).takeWhile
          (fun p => decide (p.arrival_time ≤ 0)) = [] ∧
          sortByArrivalPid processes ≠ [] then 1 else 0) <
      2 * (sortByArrivalPid processes).length + 2 := by
    have : (if ([] : List Process) ++ (sortByArrivalPid processes).takeWhile
        (fun p => decide (p.arrival_time ≤ 0)) = [] ∧
        sortByArrivalPid processes ≠ [] then 1 else 0) ≤ 1 := by
      split
      · omega
      · omega
    simp only [List.length_nil]
    omega
  obtain ⟨T, hT0, hchain, hadj, hown, hmain, _, _, hwit, _⟩ :=
    npLoop_master key processes (2 * (sortByArrivalPid processes).length + 2)
      [] (sortByArrivalPid processes) 0 [] (fun _ => none) hmeas
      (sortByArrivalPid_sorted processes)
      (fun p hp => absurd hp (List.not_mem_nil p)) hbs hnds hmem
      (fun e he => absurd he (List.not_mem_nil e)) rfl trivial
      (by intro e he; simp at he) (fun e he => absurd he (List.not_mem_nil e))
      (fun p _ => ⟨rfl, rfl⟩) (fun pid c hc => by simp at hc)
  have hsne : sortByArrivalPid processes ≠ [] := by
    intro h
    rw [h] at hperm
    exact hne hperm.symm.eq_nil
  constructor
  · refine ⟨T, ⟨hchain, hown, ?_⟩, ?_⟩
    · intro p hp
      obtain ⟨c, _, _, _, hpt⟩ := hmain p (hperm.mem_iff.mpr hp)
      exact hpt
    · refine statsOk_of_ct hperm (sortByPid_perm _) _ T ?_ ?_
      · intro p hp
        obtain ⟨c, hc, hbound, hcT, _⟩ := hmain p hp
        exact ⟨c, hc, hbound, hcT⟩
      · obtain ⟨p, hp, hpT⟩ := hwit (by simpa using hsne)
        exact ⟨p, by simpa using hp, hpT⟩
  · exact hadj

/-- Soundness of the shared preemptive scheduling construction. -/
theorem preSchedule_sound (key : (String → Int) → Process → Int × Int × String)
    (processes : List Process) (hne : processes ≠ [])
    (hb : ∀ p ∈ processes, 0 < p.burst_time)
    (hnd : (processes.map fun p => p.pid).Nodup) :
    AlgoSound processes
      ((preLoop key (2 * totalBurstNat (sortByArrivalPid processes) + 2) []
          (sortByArrivalPid processes) 0
          (initRem (sortByArrivalPid processes)) [] (fun _ => none)).1,
        mkStats (sortByPid (sortByArrivalPid processes))
          (preLoop key (2 * totalBurstNat (sortByArrivalPid processes) + 2) []
            (sortByArrivalPid processes) 0
            (initRem (sortByArrivalPid processes)) [] (fun _ => none)).2) ∧
      NoAdj (preLoop key (2 * totalBurstNat (sortByArrivalPid processes) + 2)
        [] (sortByArrivalPid processes) 0
        (initRem (sortByArrivalPid processes)) [] (fun _ => none)).1 := by
  have hperm := sortByArrivalPid_perm processes
  have hbs : ∀ p ∈ sortByArrivalPid processes, 0 < p.burst_time :=
    fun p hp => hb p (hperm.mem_iff.mp hp)
  have hnds : ((sortByArrivalPid processes).map fun p => p.pid).Nodup :=
    (List.Perm.nodup_iff (hperm.map fun p => p.pid)).mpr hnd
  have hmem : ∀ p ∈ sortByArrivalPid processes, p ∈ processes :=
    fun p hp => hperm.mem_iff.mp hp
  have hsum : sumRem (initRem (sortByArrivalPid processes))
      (sortByArrivalPid processes) =
      totalBurstNat (sortByArrivalPid processes) := by
    unfold sumRem totalBurstNat
    rw [List.map_congr_left fun p hp => by rw [initRem_eq hp hnds]]
  have hmeas : 2 * sumRem (initRem (sortByArrivalPid processes))
      (([] : List Process) ++ sortByArrivalPid processes) +
      (if ([] : List Process) ++ (sortByArrivalPid processes).takeWhile
          (fun p => decide (p.arrival_time ≤ 0)) = [] ∧
          sortByArrivalPid processes ≠ [] then 1 else 0) <
      2 * totalBurstNat (sortByArrivalPid processes) + 2 := by
    have hflag : (if ([] : List Process) ++
        (sortByArrivalPid processes).takeWhile
          (fun p => decide (p.arrival_time ≤ 0)) = [] ∧
        sortByArrivalPid processes ≠ [] then 1 else 0) ≤ 1 := by
      split
      · omega
      · omega
    rw [List.nil_append, hsum]
    omega
  obtain ⟨T, hT0, hchain, hadj, hown, hmain, _, _, hwit, _⟩ :=
    preLoop_master key processes
      (2 * totalBurstNat (sortByArrivalPid processes) + 2)
      [] (sortByArrivalPid processes) 0 (initRem (sortByArrivalPid processes))
      [] (fun _ => none) hmeas (sortByArrivalPid_sorted processes)
      (fun p hp => absurd hp (List.not_mem_nil p)) hbs hnds hmem rfl trivial
      (fun e he => absurd he (List.not_mem_nil e))
      (fun p hp => initRem_eq hp hnds)
      (fun p hp => absurd hp (List.not_mem_nil p))
      (fun p hp => ⟨rfl, by
        rw [pidTime_nil, initRem_eq (by simpa using hp) hnds]
        omega⟩)
      (fun pid c hc => by simp at hc)
  have hsne : sortByArrivalPid processes ≠ [] := by
    intro h
    rw [h] at hperm
    exact hne hperm.symm.eq_nil
  constructor
  · refine ⟨T, ⟨hchain, hown, ?_⟩, ?_⟩
    · intro p hp
      obtain ⟨c, _, _, _, hpt⟩ := hmain p (by
        simpa using hperm.mem_iff.mpr hp)
      exact hpt
    · refine statsOk_of_ct hperm (sortByPid_perm _) _ T ?_ ?_
      · intro p hp
        obtain ⟨c, hc, hbound, hcT, _⟩ := hmain p (by simpa using hp)
        exact ⟨c, hc, hbound, hcT⟩
      · obtain ⟨p, hp, hpT⟩ := hwit (by simpa using hsne)
        exact ⟨p, by simpa using hp, hpT⟩
  · exact hadj

/-- Soundness of Round Robin: for a positive quantum and valid processes it
returns a sound run whose schedule never has two adjacent idle entries. -/
theorem rr_sound (processes : List Process) (quantum : Int) (hq : 0 < quantum)
    (hne : processes ≠ [])
    (hb : ∀ p ∈ processes, 0 < p.burst_time)
    (hnd : (processes.map fun p => p.pid).Nodup) :
    ∃ r, round_robin_scheduling processes quantum = .ok r ∧
      AlgoSound processes r ∧ NoAdjIdle r.1 := by
  have hperm := sortByArrivalPid_perm processes
  have hbs : ∀ p ∈ sortByArrivalPid processes, 0 < p.burst_time :=
    fun p hp => hb p (hperm.mem_iff.mp hp)
  have hnds : ((sortByArrivalPid processes).map fun p => p.pid).Nodup :=
    (List.Perm.nodup_iff (hperm.map fun p => p.pid)).mpr hnd
  have hmem : ∀ p ∈ sortByArrivalPid processes, p ∈ processes :=
    fun p hp => hperm.mem_iff.mp hp
  have hsum : sumRem (initRem (sortByArrivalPid processes))
      (sortByArrivalPid processes) =
      totalBurstNat (sortByArrivalPid processes) := by
    unfold sumRem totalBurstNat
    rw [List.map_congr_left fun p hp => by rw [initRem_eq hp hnds]]
  have hmeas : sumRem (initRem (sortByArrivalPid processes))
      (([] : List Process) ++ sortByArrivalPid processes) <
      totalBurstNat (sortByArrivalPid processes) + 1 := by
    rw [List.nil_append, hsum]
    omega
  obtain ⟨T, hT0, hchain, hadjI, hown, hmain, _, _, hwit, _⟩ :=
    rrLoop_master quantum hq processes
      (totalBurstNat (sortByArrivalPid processes) + 1)
      [] (sortByArrivalPid processes) 0 (initRem (sortByArrivalPid processes))
      [] (fun _ => none) hmeas (sortByArrivalPid_sorted processes)
      (fun p hp => absurd hp (List.not_mem_nil p)) hbs hnds hmem rfl trivial
      (by intro e he; simp at he)
      (fun e he => absurd he (List.not_mem_nil e))
      (fun p hp => initRem_eq hp hnds)
      (fun p hp => absurd hp (List.not_mem_nil p))
      (fun p hp => ⟨rfl, by
        rw [pidTime_nil, initRem_eq (by simpa using hp) hnds]
        omega⟩)
      (fun pid c hc => by simp at hc)
  have hsne : sortByArrivalPid processes ≠ [] := by
    intro h
    rw [h] at hperm
    exact hne hperm.symm.eq_nil
  rw [round_robin_scheduling, if_neg hne, if_neg (by omega : ¬quantum ≤ 0)]
  refine ⟨_, rfl, ?_, hadjI⟩
  refine ⟨T, ⟨hchain, hown, ?_⟩, ?_⟩
  · intro p hp
    obtain ⟨c, _, _, _, hpt⟩ := hmain p (by simpa using hperm.mem_iff.mpr hp)
    exact hpt
  · refine statsOk_of_ct hperm (sortByPid_perm _) _ T ?_ ?_
    · intro p hp
      obtain ⟨c, hc, hbound, hcT, _⟩ := hmain p (by simpa using hp)
      exact ⟨c, hc, hbound, hcT⟩
    · obtain ⟨p, hp, hpT⟩ := hwit (by simpa using hsne)
      exact ⟨p, by simpa using hp, hpT⟩

/-- Soundness of preemptive SJF (SRTF). -/
theorem sjf_preemptive_sound (processes : List Process) (hne : processes ≠ [])
    (hb : ∀ p ∈ processes, 0 < p.burst_time)
    (hnd : (processes.map fun p => p.pid).Nodup) :
    AlgoSound processes (sjf_preemptive_scheduling processes) ∧
      NoAdj (sjf_preemptive_scheduling processes).1 := by
  rw [sjf_preemptive_scheduling, if_neg hne]
  exact preSchedule_sound srtfKey processes hne hb hnd

/-- Soundness of preemptive priority scheduling. -/
theorem priority_preemptive_sound (processes : List Process)
    (hne : processes ≠ [])
    (hb : ∀ p ∈ processes, 0 < p.burst_time)
    (hnd : (processes.map fun p => p.pid).Nodup) :
    AlgoSound processes (priority_preemptive_scheduling processes) ∧
      NoAdj (priority_preemptive_scheduling processes).1 := by
  rw [priority_preemptive_scheduling, if_neg hne]
  exact preSchedule_sound prioPreKey processes hne hb hnd

/-- Soundness of non-preemptive SJF. -/
theorem sjf_sound (processes : List Process) (hne : processes ≠ [])
    (hb : ∀ p ∈ processes, 0 < p.burst_time)
    (hnd : (processes.map fun p => p.pid).Nodup) :
    AlgoSound processes (sjf_scheduling processes) ∧
      NoAdj (sjf_scheduling processes).1 := by
  rw [sjf_scheduling, if_neg hne]
  exact npSchedule_sound sjfKey processes hne hb hnd

/-- Soundness of non-preemptive priority scheduling. -/
theorem priority_sound (processes : List Process) (hne : processes ≠ [])
    (hb : ∀ p ∈ processes, 0 < p.burst_time)
    (hnd : (processes.map fun p => p.pid).Nodup) :
    AlgoSound processes (priority_scheduling processes) ∧
      NoAdj (priority_scheduling processes).1 := by
  rw [priority_scheduling, if_neg hne]
  exact npSchedule_sound prioKey processes hne hb hnd

/-- Soundness of FCFS, plus the merge invariant of its schedule. -/
theorem fcfs_sound (processes : List Process) (hne : processes ≠ [])
    (hb : ∀ p ∈ processes, 0 < p.burst_time)
    (hnd : (processes.map fun p => p.pid).Nodup) :
    AlgoSound processes (fcfs_scheduling processes) ∧
      NoAdj (fcfs_scheduling processes).1 := by
  have hperm := sortByArrivalPid_perm processes
  have hbs : ∀ p ∈ sortByArrivalPid processes, 0 < p.burst_time :=
    fun p hp => hb p (hperm.mem_iff.mp hp)
  have hnds : ((sortByArrivalPid processes).map fun p => p.pid).Nodup :=
    (List.Perm.nodup_iff (hperm.map fun p => p.pid)).mpr hnd
  have hmem : ∀ p ∈ sortByArrivalPid processes, p ∈ processes :=
    fun p hp => hperm.mem_iff.mp hp
  obtain ⟨T, hT0, hchain, hadj, hown, hmain, _, _, hwit, _⟩ :=
    fcfsRun_master processes (sortByArrivalPid processes) 0 [] (fun _ => none)
      hbs hnds hmem (fun e he => absurd he (List.not_mem_nil e)) rfl trivial
      (by intro e he; simp at he) (fun e he => absurd he (List.not_mem_nil e))
      (fun p _ => ⟨rfl, rfl⟩) (fun pid c hc => by simp at hc)
  have hsne : sortByArrivalPid processes ≠ [] := by
    intro h
    rw [h] at hperm
    exact hne hperm.symm.eq_nil
  rw [fcfs_scheduling, if_neg hne]
  constructor
  · refine ⟨T, ⟨hchain, hown, ?_⟩, ?_⟩
    · intro p hp
      obtain ⟨c, _, _, _, hpt⟩ := hmain p (hperm.mem_iff.mpr hp)
      exact hpt
    · refine statsOk_of_ct hperm (List.Perm.refl _) _ T ?_ ?_
      · intro p hp
        obtain ⟨c, hc, hbound, hcT, _⟩ := hmain p hp
        exact ⟨c, hc, hbound, hcT⟩
      · obtain ⟨p, hp, hpT⟩ := hwit hsne
        exact ⟨p, hp, hpT⟩
  · exact hadj

/-!
## Projections of AlgoSound used by the individual claims
-/

/-- The schedule is one contiguous chain from `0` to the largest completion
time reported in the stats (which some row attains). -/
def CoverageOk (r : List ScheduleEntry × List Stat) : Prop :=
  ∃ T, Chain r.1 0 T ∧ (∀ s ∈ r.2, s.completion_time ≤ T) ∧
    ∃ s ∈ r.2, s.completion_time = T

theorem algoSound_coverage {ps : List Process}
    {r : List ScheduleEntry × List Stat} (h : AlgoSound ps r) :
    CoverageOk r := by
  obtain ⟨T, hS, hSt⟩ := h
  exact ⟨T, hS.1, fun s hs => (hSt.2.2.2.1 s hs).2.2.2, hSt.2.2.2.2⟩

/-- The per-row metric identities and bounds of claim C2. -/
def StatRowOk (s : Stat) : Prop :=
  s.turnaround_time = s.completion_time - s.arrival_time ∧
  s.waiting_time = s.turnaround_time - s.burst_time ∧
  0 ≤ s.waiting_time ∧ s.burst_time ≤ s.turnaround_time

theorem algoSound_statRows {ps : List Process}
    {r : List ScheduleEntry × List Stat} (h : AlgoSound ps r) :
    ∀ s ∈ r.2, StatRowOk s := by
  obtain ⟨T, _, hSt⟩ := h
  intro s hs
  obtain ⟨h1, h2, h3, _⟩ := hSt.2.2.2.1 s hs
  exact ⟨h1, h2, by omega, by omega⟩

/-- Completeness of a run, for claim C8: a stats row per process, with a
completion time at least `arrival + burst`, and a schedule tiling `[0, T)`. -/
def CompleteRun (ps : List Process) (r : List ScheduleEntry × List Stat) :
    Prop :=
  r.2.length = ps.length ∧
  (∀ p ∈ ps, ∃ s ∈ r.2, s.pid = p.pid ∧ s.arrival_time = p.arrival_time ∧
    s.burst_time = p.burst_time ∧
    p.arrival_time + p.burst_time ≤ s.completion_time) ∧
  ∃ T, Chain r.1 0 T

theorem algoSound_complete {ps : List Process}
    {r : List ScheduleEntry × List Stat} (h : AlgoSound ps r) :
    CompleteRun ps r := by
  obtain ⟨T, hS, hSt⟩ := h
  refine ⟨hSt.1, ?_, T, hS.1⟩
  intro p hp
  obtain ⟨s, hs, hpid, harr, hbur, _, hbound⟩ := hSt.2.1 p hp
  exact ⟨s, hs, hpid, harr, hbur, hbound⟩

/-- Per-process schedule accounting, for claim C10. -/
def AccountingOk (ps : List Process) (sch : List ScheduleEntry) : Prop :=
  OwnersOk ps sch ∧ ∀ p ∈ ps, pidTime sch p.pid = p.burst_time

theorem algoSound_accounting {ps : List Process}
    {r : List ScheduleEntry × List Stat} (h : AlgoSound ps r) :
    AccountingOk ps r.1 := by
  obtain ⟨T, hS, _⟩ := h
  exact ⟨hS.2.1, hS.2.2⟩

/-!
## The claims
-/

/-- The coverage/merge invariant claim C1 states for each algorithm,
as it actually holds on the code: contiguity, positivity, start at 0 and
end at the maximal completion time hold for all six algorithms; the
no-adjacent-equal-pid merge invariant holds for the five non-Round-Robin
algorithms; Round Robin only guarantees that no two adjacent entries are
both idle (adjacent same-pid slices are left split). -/
def C1Prop (processes : List Process) (quantum : Int) : Prop :=
  (CoverageOk (fcfs_scheduling processes) ∧
    NoAdj (fcfs_scheduling processes).1) ∧
  (CoverageOk (sjf_scheduling processes) ∧
    NoAdj (sjf_scheduling processes).1) ∧
  (CoverageOk (sjf_preemptive_scheduling processes) ∧
    NoAdj (sjf_preemptive_scheduling processes).1) ∧
  (CoverageOk (priority_scheduling processes) ∧
    NoAdj (priority_scheduling processes).1) ∧
  (CoverageOk (priority_preemptive_scheduling processes) ∧
    NoAdj (priority_preemptive_scheduling processes).1) ∧
  (∃ r, round_robin_scheduling processes quantum = .ok r ∧
    CoverageOk r ∧ NoAdjIdle r.1)

/-- C1, counterexample: the claim as stated asserts the merge invariant
(no two adjacent entries with the same pid) for all six algorithms, but
Round Robin on a single process with burst 4 and quantum 2 emits the two
adjacent same-pid slices `[0,2)` and `[2,4)` without merging them. -/
theorem C1_counterexample :
    (round_robin_scheduling [⟨"P1", 0, 4, 0⟩] 2).map Prod.fst =
      Except.ok [⟨some "P1", 0, 2⟩, ⟨some "P1", 2, 4⟩] ∧
    ¬ NoAdj [(⟨some "P1", 0, 2⟩ : ScheduleEntry), ⟨some "P1", 2, 4⟩] := by
  constructor
  · rfl
  · intro h
    exact (List.chain'_cons.mp h).1 rfl

/-- C1 (amended): for every valid non-empty process set and positive
quantum, every algorithm's schedule is contiguous and non-overlapping,
starts at 0 and ends at the maximum completion time with every entry of
positive length; no two adjacent entries share a pid for the five
non-Round-Robin algorithms (in particular no two adjacent idle entries);
Round Robin leaves adjacent same-pid slices split and only guarantees
that no two adjacent entries are both idle. -/
theorem C1_amended (processes : List Process) (quantum : Int)
    (hne : processes ≠ [])
    (ha : ∀ p ∈ processes, 0 ≤ p.arrival_time)
    (hb : ∀ p ∈ processes, 0 < p.burst_time)
    (hnd : (processes.map fun p => p.pid).Nodup)
    (hq : 0 < quantum) :
    C1Prop processes quantum := by
  obtain ⟨hs1, hn1⟩ := fcfs_sound processes hne hb hnd
  obtain ⟨hs2, hn2⟩ := sjf_sound processes hne hb hnd
  obtain ⟨hs3, hn3⟩ := sjf_preemptive_sound processes hne hb hnd
  obtain ⟨hs4, hn4⟩ := priority_sound processes hne hb hnd
  obtain ⟨hs5, hn5⟩ := priority_preemptive_sound processes hne hb hnd
  obtain ⟨r, hr, hsR, hnR⟩ := rr_sound processes quantum hq hne hb hnd
  exact ⟨⟨algoSound_coverage hs1, hn1⟩, ⟨algoSound_coverage hs2, hn2⟩,
    ⟨algoSound_coverage hs3, hn3⟩, ⟨algoSound_coverage hs4, hn4⟩,
    ⟨algoSound_coverage hs5, hn5⟩, r, hr, algoSound_coverage hsR, hnR⟩

/-- Witness for the amended C1, at a concrete two-process input. -/
theorem C1_amended_witness :
    (([⟨"P1", 0, 2, 1⟩, ⟨"P2", 1, 3, 0⟩] : List Process) ≠ [] ∧
      (∀ p ∈ ([⟨"P1", 0, 2, 1⟩, ⟨"P2", 1, 3, 0⟩] : List Process),
        0 ≤ p.arrival_time) ∧
      (∀ p ∈ ([⟨"P1", 0, 2, 1⟩, ⟨"P2", 1, 3, 0⟩] : List Process),
        0 < p.burst_time) ∧
      (([⟨"P1", 0, 2, 1⟩, ⟨"P2", 1, 3, 0⟩] : List Process).map
        fun p => p.pid).Nodup ∧
      (0 : Int) < 2) ∧
    C1Prop [⟨"P1", 0, 2, 1⟩, ⟨"P2", 1, 3, 0⟩] 2 :=
  ⟨by decide,
    C1_amended [⟨"P1", 0, 2, 1⟩, ⟨"P2", 1, 3, 0⟩] 2 (by decide) (by decide)
      (by decide) (by decide) (by decide)⟩

/-- C7: every algorithm maps the empty process list to the pair of an
empty schedule and empty stats, without any error; in particular Round
Robin does so for every quantum, valid or not, so empty input is
distinguished from the invalid-argument error. -/
theorem C7_empty_input (quantum : Int) :
    fcfs_scheduling [] = ([], []) ∧
    sjf_scheduling [] = ([], []) ∧
    sjf_preemptive_scheduling [] = ([], []) ∧
    priority_scheduling [] = ([], []) ∧
    priority_preemptive_scheduling [] = ([], []) ∧
    round_robin_scheduling [] quantum = .ok ([], []) :=
  ⟨rfl, rfl, rfl, rfl, rfl, rfl⟩

/-- The statement of claim C2 for one process set and quantum: in every
algorithm's stats, each row satisfies
`turnaround = completion - arrival`, `waiting = turnaround - burst`,
`waiting ≥ 0` and `turnaround ≥ burst`. -/
def C2Prop (processes : List Process) (quantum : Int) : Prop :=
  (∀ s ∈ (fcfs_scheduling processes).2, StatRowOk s) ∧
  (∀ s ∈ (sjf_scheduling processes).2, StatRowOk s) ∧
  (∀ s ∈ (sjf_preemptive_scheduling processes).2, StatRowOk s) ∧
  (∀ s ∈ (priority_scheduling processes).2, StatRowOk s) ∧
  (∀ s ∈ (priority_preemptive_scheduling processes).2, StatRowOk s) ∧
  (∃ r, round_robin_scheduling processes quantum = .ok r ∧
    ∀ s ∈ r.2, StatRowOk s)

/-- C2: for all six algorithms on a valid non-empty process set (with a
positive quantum for Round Robin), every reported stats row satisfies
`turnaround_time = completion_time - arrival_time`,
`waiting_time = turnaround_time - burst_time`, `waiting_time ≥ 0` and
`turnaround_time ≥ burst_time`. -/
theorem C2_metric_identities (processes : List Process) (quantum : Int)
    (hne : processes ≠ [])
    (ha : ∀ p ∈ processes, 0 ≤ p.arrival_time)
    (hb : ∀ p ∈ processes, 0 < p.burst_time)
    (hnd : (processes.map fun p => p.pid).Nodup)
    (hq : 0 < quantum) :
    C2Prop processes quantum := by
  obtain ⟨hs1, _⟩ := fcfs_sound processes hne hb hnd
  obtain ⟨hs2, _⟩ := sjf_sound processes hne hb hnd
  obtain ⟨hs3, _⟩ := sjf_preemptive_sound processes hne hb hnd
  obtain ⟨hs4, _⟩ := priority_sound processes hne hb hnd
  obtain ⟨hs5, _⟩ := priority_preemptive_sound processes hne hb hnd
  obtain ⟨r, hr, hsR, _⟩ := rr_sound processes quantum hq hne hb hnd
  exact ⟨algoSound_statRows hs1, algoSound_statRows hs2,
    algoSound_statRows hs3, algoSound_statRows hs4, algoSound_statRows hs5,
    r, hr, algoSound_statRows hsR⟩

/-- Witness for C2, at a concrete two-process input. -/
theorem C2_metric_identities_witness :
    (([⟨"P1", 0, 2, 1⟩, ⟨"P2", 1, 3, 0⟩] : List Process) ≠ [] ∧
      (∀ p ∈ ([⟨"P1", 0, 2, 1⟩, ⟨"P2", 1, 3, 0⟩] : List Process),
        0 ≤ p.arrival_time) ∧
      (∀ p ∈ ([⟨"P1", 0, 2, 1⟩, ⟨"P2", 1, 3, 0⟩] : List Process),
        0 < p.burst_time) ∧
      (([⟨"P1", 0, 2, 1⟩, ⟨"P2", 1, 3, 0⟩] : List Process).map
        fun p => p.pid).Nodup ∧
      (0 : Int) < 2) ∧
    C2Prop [⟨"P1", 0, 2, 1⟩, ⟨"P2", 1, 3, 0⟩] 2 :=
  ⟨by decide,
    C2_metric_identities [⟨"P1", 0, 2, 1⟩, ⟨"P2", 1, 3, 0⟩] 2 (by decide)
      (by decide) (by decide) (by decide) (by decide)⟩

/-- The statement of claim C8 for one process set and quantum: every
algorithm terminates with a complete result — one stats row per process,
each recording a completion time at least `arrival + burst`, and a
schedule that tiles an interval `[0, T)`. -/
def C8Prop (processes : List Process) (quantum : Int) : Prop :=
  CompleteRun processes (fcfs_scheduling processes) ∧
  CompleteRun processes (sjf_scheduling processes) ∧
  CompleteRun processes (sjf_preemptive_scheduling processes) ∧
  CompleteRun processes (priority_scheduling processes) ∧
  CompleteRun processes (priority_preemptive_scheduling processes) ∧
  (∃ r, round_robin_scheduling processes quantum = .ok r ∧
    CompleteRun processes r)

/-- C8: for every process list with positive bursts (and a positive
quantum for Round Robin), each of the six algorithms terminates and
produces a complete schedule with a completion time recorded for every
process. -/
theorem C8_termination_completeness (processes : List Process) (quantum : Int)
    (hne : processes ≠ [])
    (ha : ∀ p ∈ processes, 0 ≤ p.arrival_time)
    (hb : ∀ p ∈ processes, 0 < p.burst_time)
    (hnd : (processes.map fun p => p.pid).Nodup)
    (hq : 0 < quantum) :
    C8Prop processes quantum := by
  obtain ⟨hs1, _⟩ := fcfs_sound processes hne hb hnd
  obtain ⟨hs2, _⟩ := sjf_sound processes hne hb hnd
  obtain ⟨hs3, _⟩ := sjf_preemptive_sound processes hne hb hnd
  obtain ⟨hs4, _⟩ := priority_sound processes hne hb hnd
  obtain ⟨hs5, _⟩ := priority_preemptive_sound processes hne hb hnd
  obtain ⟨r, hr, hsR, _⟩ := rr_sound processes quantum hq hne hb hnd
  exact ⟨algoSound_complete hs1, algoSound_complete hs2,
    algoSound_complete hs3, algoSound_complete hs4, algoSound_complete hs5,
    r, hr, algoSound_complete hsR⟩

/-- Witness for C8, at a concrete two-process input. -/
theorem C8_termination_completeness_witness :
    (([⟨"P1", 0, 2, 1⟩, ⟨"P2", 1, 3, 0⟩] : List Process) ≠ [] ∧
      (∀ p ∈ ([⟨"P1", 0, 2, 1⟩, ⟨"P2", 1, 3, 0⟩] : List Process),
        0 ≤ p.arrival_time) ∧
      (∀ p ∈ ([⟨"P1", 0, 2, 1⟩, ⟨"P2", 1, 3, 0⟩] : List Process),
        0 < p.burst_time) ∧
      (([⟨"P1", 0, 2, 1⟩, ⟨"P2", 1, 3, 0⟩] : List Process).map
        fun p => p.pid).Nodup ∧
      (0 : Int) < 2) ∧
    C8Prop [⟨"P1", 0, 2, 1⟩, ⟨"P2", 1, 3, 0⟩] 2 :=
  ⟨by decide,
    C8_termination_completeness [⟨"P1", 0, 2, 1⟩, ⟨"P2", 1, 3, 0⟩] 2
      (by decide) (by decide) (by decide) (by decide) (by decide)⟩

/-- The statement of claim C10 for one process set and quantum: in every
algorithm's schedule, each non-idle entry starts no earlier than its
owner's arrival, and each process's entries sum to exactly its burst. -/
def C10Prop (processes : List Process) (quantum : Int) : Prop :=
  AccountingOk processes (fcfs_scheduling processes).1 ∧
  AccountingOk processes (sjf_scheduling processes).1 ∧
  AccountingOk processes (sjf_preemptive_scheduling processes).1 ∧
  AccountingOk processes (priority_scheduling processes).1 ∧
  AccountingOk processes (priority_preemptive_scheduling processes).1 ∧
  (∃ r, round_robin_scheduling processes quantum = .ok r ∧
    AccountingOk processes r.1)

/-- C10 (implicit): for every valid input and each of the six algorithms,
no schedule entry for a pid starts before that process's arrival time,
and the total duration of the entries carrying that pid equals exactly its
burst time. -/
theorem C10_arrival_and_burst_accounting (processes : List Process)
    (quantum : Int) (hne : processes ≠ [])
    (ha : ∀ p ∈ processes, 0 ≤ p.arrival_time)
    (hb : ∀ p ∈ processes, 0 < p.burst_time)
    (hnd : (processes.map fun p => p.pid).Nodup)
    (hq : 0 < quantum) :
    C10Prop processes quantum := by
  obtain ⟨hs1, _⟩ := fcfs_sound processes hne hb hnd
  obtain ⟨hs2, _⟩ := sjf_sound processes hne hb hnd
  obtain ⟨hs3, _⟩ := sjf_preemptive_sound processes hne hb hnd
  obtain ⟨hs4, _⟩ := priority_sound processes hne hb hnd
  obtain ⟨hs5, _⟩ := priority_preemptive_sound processes hne hb hnd
  obtain ⟨r, hr, hsR, _⟩ := rr_sound processes quantum hq hne hb hnd
  exact ⟨algoSound_accounting hs1, algoSound_accounting hs2,
    algoSound_accounting hs3, algoSound_accounting hs4,
    algoSound_accounting hs5, r, hr, algoSound_accounting hsR⟩

/-- Witness for C10, at a concrete two-process input. -/
theorem C10_arrival_and_burst_accounting_witness :
    (([⟨"P1", 0, 2, 1⟩, ⟨"P2", 1, 3, 0⟩] : List Process) ≠ [] ∧
      (∀ p ∈ ([⟨"P1", 0, 2, 1⟩, ⟨"P2", 1, 3, 0⟩] : List Process),
        0 ≤ p.arrival_time) ∧
      (∀ p ∈ ([⟨"P1", 0, 2, 1⟩, ⟨"P2", 1, 3, 0⟩] : List Process),
        0 < p.burst_time) ∧
      (([⟨"P1", 0, 2, 1⟩, ⟨"P2", 1, 3, 0⟩] : List Process).map
        fun p => p.pid).Nodup ∧
      (0 : Int) < 2) ∧
    C10Prop [⟨"P1", 0, 2, 1⟩, ⟨"P2", 1, 3, 0⟩] 2 :=
  ⟨by decide,
    C10_arrival_and_burst_accounting [⟨"P1", 0, 2, 1⟩, ⟨"P2", 1, 3, 0⟩] 2
      (by decide) (by decide) (by decide) (by decide) (by decide)⟩

/-- C3, counterexample: the claim asserts that `run` fails with an
invalid-argument error for the empty list when the Round Robin quantum is
non-positive, and whenever some process has a non-positive burst or negative
arrival.  In fact `round_robin_scheduling` returns the empty result before
checking the quantum, and the dispatcher never validates bursts or
arrivals: FCFS happily schedules a process with burst 0 and arrival -5,
even emitting a zero-length entry. -/
theorem C3_counterexample :
    runAlgorithm "RR" [] (some 0) = .ok ([], []) ∧
    runAlgorithm "FCFS" [⟨"P1", -5, 0, 0⟩] none =
      .ok ([⟨some "P1", 0, 0⟩], [⟨"P1", -5, 0, 0, 0, 5, 5⟩]) :=
  ⟨rfl, rfl⟩

/-- C3 (amended): `run` fails with an invalid-argument error exactly when
the algorithm identifier is unknown, or the algorithm is Round Robin and
the quantum is absent, or the algorithm is Round Robin, the quantum is
`≤ 0` and the process list is non-empty (the empty-list check precedes the
quantum check).  Non-positive bursts and negative arrivals are not
checked by `run` at all — they are rejected earlier, at process-entry
time in the GUI. -/
theorem C3_amended (algorithm : String) (processes : List Process)
    (quantum : Option Int) :
    (∃ e, runAlgorithm algorithm processes quantum = Except.error e) ↔
      (algorithm ∉ algorithmKeys ∨
        (algorithm = "RR" ∧ quantum = none) ∨
        (algorithm = "RR" ∧
          ∃ qv, quantum = some qv ∧ qv ≤ 0 ∧ processes ≠ [])) := by
  by_cases h1 : algorithm = "FCFS"
  · subst h1
    refine iff_of_false ?_ ?_
    · rintro ⟨e, he⟩
      rw [show runAlgorithm "FCFS" processes quantum =
        Except.ok (fcfs_scheduling processes) from rfl] at he
      exact Except.noConfusion he
    · rintro (hmem | ⟨hrr, _⟩ | ⟨hrr, _⟩)
      · exact hmem (by decide)
      · exact absurd hrr (by decide)
      · exact absurd hrr (by decide)
  by_cases h2 : algorithm = "SJF"
  · subst h2
    refine iff_of_false ?_ ?_
    · rintro ⟨e, he⟩
      rw [show runAlgorithm "SJF" processes quantum =
        Except.ok (sjf_scheduling processes) from rfl] at he
      exact Except.noConfusion he
    · rintro (hmem | ⟨hrr, _⟩ | ⟨hrr, _⟩)
      · exact hmem (by decide)
      · exact absurd hrr (by decide)
      · exact absurd hrr (by decide)
  by_cases h3 : algorithm = "SJF_PREEMPTIVE"
  · subst h3
    refine iff_of_false ?_ ?_
    · rintro ⟨e, he⟩
      rw [show runAlgorithm "SJF_PREEMPTIVE" processes quantum =
        Except.ok (sjf_preemptive_scheduling processes) from rfl] at he
      exact Except.noConfusion he
    · rintro (hmem | ⟨hrr, _⟩ | ⟨hrr, _⟩)
      · exact hmem (by decide)
      · exact absurd hrr (by decide)
      · exact absurd hrr (by decide)
  by_cases h4 : algorithm = "PRIORITY"
  · subst h4
    refine iff_of_false ?_ ?_
    · rintro ⟨e, he⟩
      rw [show runAlgorithm "PRIORITY" processes quantum =
        Except.ok (priority_scheduling processes) from rfl] at he
      exact Except.noConfusion he
    · rintro (hmem | ⟨hrr, _⟩ | ⟨hrr, _⟩)
      · exact hmem (by decide)
      · exact absurd hrr (by decide)
      · exact absurd hrr (by decide)
  by_cases h5 : algorithm = "PRIORITY_PREEMPTIVE"
  · subst h5
    refine iff_of_false ?_ ?_
    · rintro ⟨e, he⟩
      rw [show runAlgorithm "PRIORITY_PREEMPTIVE" processes quantum =
        Except.ok (priority_preemptive_scheduling processes) from rfl] at he
      exact Except.noConfusion he
    · rintro (hmem | ⟨hrr, _⟩ | ⟨hrr, _⟩)
      · exact hmem (by decide)
      · exact absurd hrr (by decide)
      · exact absurd hrr (by decide)
  by_cases h6 : algorithm = "RR"
  · subst h6
    rcases quantum with _ | qv
    · exact iff_of_true ⟨"Time quantum is required for Round Robin.", rfl⟩
        (Or.inr (Or.inl ⟨rfl, rfl⟩))
    · by_cases hps : processes = []
      · subst hps
        refine iff_of_false ?_ ?_
        · rintro ⟨e, he⟩
          rw [show runAlgorithm "RR" [] (some qv) = Except.ok ([], [])
            from rfl] at he
          exact Except.noConfusion he
        · rintro (hmem | ⟨_, hq⟩ | ⟨_, qv', _, _, hne⟩)
          · exact hmem (by decide)
          · exact Option.noConfusion hq
          · exact hne rfl
      · by_cases hqv : qv ≤ 0
        · refine iff_of_true ?_ (Or.inr (Or.inr ⟨rfl, qv, rfl, hqv, hps⟩))
          refine ⟨"Time quantum must be a positive integer.", ?_⟩
          show round_robin_scheduling processes qv = _
          rw [round_robin_scheduling, if_neg hps, if_pos hqv]
        · refine iff_of_false ?_ ?_
          · rintro ⟨e, he⟩
            rw [show runAlgorithm "RR" processes (some qv) =
              round_robin_scheduling processes qv from rfl,
              round_robin_scheduling, if_neg hps, if_neg hqv] at he
            exact Except.noConfusion he
          · rintro (hmem | ⟨_, hq⟩ | ⟨_, qv', hqv', hle, _⟩)
            · exact hmem (by decide)
            · exact Option.noConfusion hq
            · exact hqv ((Option.some.inj hqv').symm ▸ hle)
  · refine iff_of_true ?_ (Or.inl ?_)
    · refine ⟨"Unsupported algorithm key: " ++ algorithm, ?_⟩
      rw [runAlgorithm.eq_def, if_neg h1, if_neg h2, if_neg h3, if_neg h4,
        if_neg h5, if_neg h6]
    · intro hmem
      simp only [algorithmKeys, List.mem_cons, List.not_mem_nil,
        or_false] at hmem
      rcases hmem with h | h | h | h | h | h
      · exact h1 h
      · exact h2 h
      · exact h3 h
      · exact h4 h
      · exact h5 h
      · exact h6 h

/-- The three-level ordering key that claim C5 assigns to FCFS: the
primary criterion is the arrival time itself, so the key is
`(arrival_time, arrival_time, pid)`. -/
def fcfsKey (p : Process) : Int × Int × String :=
  (p.arrival_time, p.arrival_time, p.pid)

theorem lex2_refl (a : Int × String) : lex2 a a :=
  Or.inr ⟨rfl, le_refl _⟩

/-- The head of the arrival-sorted process list is minimal under the
`(arrival_time, pid)` order. -/
theorem sortByArrivalPid_head_min (l : List Process) {c : Process}
    {tail : List Process} (h : sortByArrivalPid l = c :: tail) :
    c ∈ l ∧ ∀ p ∈ l, lex2 (arrivalPid c) (arrivalPid p) := by
  haveI : IsTotal Process (fun a b => lex2 (arrivalPid a) (arrivalPid b)) :=
    ⟨fun a b => lex2_total _ _⟩
  haveI : IsTrans Process (fun a b => lex2 (arrivalPid a) (arrivalPid b)) :=
    ⟨fun _ _ _ => lex2_trans⟩
  have hperm := List.perm_insertionSort
    (fun a b => lex2 (arrivalPid a) (arrivalPid b)) l
  rw [show List.insertionSort (fun a b => lex2 (arrivalPid a) (arrivalPid b))
    l = sortByArrivalPid l from rfl, h] at hperm
  have hsorted := List.sorted_insertionSort
    (fun a b => lex2 (arrivalPid a) (arrivalPid b)) l
  rw [show List.insertionSort (fun a b => lex2 (arrivalPid a) (arrivalPid b))
    l = sortByArrivalPid l from rfl, h] at hsorted
  refine ⟨hperm.mem_iff.mp (List.mem_cons_self c tail), fun p hp => ?_⟩
  have hp' : p ∈ c :: tail := hperm.mem_iff.mpr hp
  rcases List.mem_cons.mp hp' with rfl | hp'
  · exact lex2_refl _
  · exact (List.sorted_cons.mp hsorted).1 p hp'

/-- The `(arrival, pid)` order coincides with the three-level order whose
first two components are both the arrival time. -/
theorem lex2_iff_lex3_fcfs (a b : Process) :
    lex2 (arrivalPid a) (arrivalPid b) ↔ lex3 (fcfsKey a) (fcfsKey b) := by
  constructor
  · rintro (h | ⟨h, h2⟩)
    · exact Or.inl h
    · exact Or.inr ⟨h, Or.inr ⟨h, h2⟩⟩
  · rintro (h | ⟨h, h2 | ⟨_, h3⟩⟩)
    · exact Or.inl h
    · exact absurd h2 (by
        show ¬ a.arrival_time < b.arrival_time
        rw [show a.arrival_time = b.arrival_time from h]
        exact lt_irrefl _)
    · exact Or.inr ⟨h, h3⟩

/-- The process `c` is in the queue `l` and minimal there under the
three-level key order. -/
def MinimalFor (key : Process → Int × Int × String) (c : Process)
    (l : List Process) : Prop :=
  c ∈ l ∧ ∀ p ∈ l, lex3 (key c) (key p)

/-- C5: each algorithm's selection step — sorting the ready queue by its
key and taking the head (FCFS sorts the whole process list up front) —
chooses a ready process that is minimal under the three-level lexicographic
order (primary criterion, then arrival time, then pid); for FCFS the
primary criterion is the arrival time itself. -/
theorem C5_tie_break (l : List Process) (rem : String → Int)
    (c1 c2 c3 c4 c5 : Process) (t1 t2 t3 t4 t5 : List Process)
    (h1 : List.insertionSort (fun a b => lex3 (sjfKey a) (sjfKey b)) l =
      c1 :: t1)
    (h2 : List.insertionSort
      (fun a b => lex3 (srtfKey rem a) (srtfKey rem b)) l = c2 :: t2)
    (h3 : List.insertionSort (fun a b => lex3 (prioKey a) (prioKey b)) l =
      c3 :: t3)
    (h4 : List.insertionSort
      (fun a b => lex3 (prioPreKey rem a) (prioPreKey rem b)) l = c4 :: t4)
    (h5 : sortByArrivalPid l = c5 :: t5) :
    MinimalFor sjfKey c1 l ∧ MinimalFor (srtfKey rem) c2 l ∧
    MinimalFor prioKey c3 l ∧ MinimalFor (prioPreKey rem) c4 l ∧
    MinimalFor fcfsKey c5 l := by
  refine ⟨sortKey_head_min sjfKey l h1, sortKey_head_min _ l h2,
    sortKey_head_min _ l h3, sortKey_head_min _ l h4, ?_⟩
  obtain ⟨hm, hmin⟩ := sortByArrivalPid_head_min l h5
  exact ⟨hm, fun p hp => (lex2_iff_lex3_fcfs c5 p).mp (hmin p hp)⟩

/-- Witness for C5, on a singleton queue where all five selections pick
the same process. -/
theorem C5_tie_break_witness :
    (List.insertionSort (fun a b => lex3 (sjfKey a) (sjfKey b))
        [(⟨"P1", 0, 1, 0⟩ : Process)] = [⟨"P1", 0, 1, 0⟩] ∧
      List.insertionSort (fun a b =>
        lex3 (srtfKey (fun _ => 1) a) (srtfKey (fun _ => 1) b))
        [(⟨"P1", 0, 1, 0⟩ : Process)] = [⟨"P1", 0, 1, 0⟩] ∧
      List.insertionSort (fun a b => lex3 (prioKey a) (prioKey b))
        [(⟨"P1", 0, 1, 0⟩ : Process)] = [⟨"P1", 0, 1, 0⟩] ∧
      List.insertionSort (fun a b =>
        lex3 (prioPreKey (fun _ => 1) a) (prioPreKey (fun _ => 1) b))
        [(⟨"P1", 0, 1, 0⟩ : Process)] = [⟨"P1", 0, 1, 0⟩] ∧
      sortByArrivalPid [(⟨"P1", 0, 1, 0⟩ : Process)] = [⟨"P1", 0, 1, 0⟩]) ∧
    (MinimalFor sjfKey ⟨"P1", 0, 1, 0⟩ [⟨"P1", 0, 1, 0⟩] ∧
      MinimalFor (srtfKey fun _ => 1) ⟨"P1", 0, 1, 0⟩ [⟨"P1", 0, 1, 0⟩] ∧
      MinimalFor prioKey ⟨"P1", 0, 1, 0⟩ [⟨"P1", 0, 1, 0⟩] ∧
      MinimalFor (prioPreKey fun _ => 1) ⟨"P1", 0, 1, 0⟩ [⟨"P1", 0, 1, 0⟩] ∧
      MinimalFor fcfsKey ⟨"P1", 0, 1, 0⟩ [⟨"P1", 0, 1, 0⟩]) :=
  ⟨⟨rfl, rfl, rfl, rfl, rfl⟩,
    C5_tie_break [⟨"P1", 0, 1, 0⟩] (fun _ => 1) _ _ _ _ _ _ _ _ _ _
      rfl rfl rfl rfl rfl⟩

/-- The conclusion of claim C4, about one iteration of the Round Robin
loop that pops `c` and runs it from `t` to `e`: the admitted batch `A`
consists exactly of the processes of `rest` that have arrived by the slice
end `e`; if `c` still has remaining time the loop recurses with queue
`(ready0 ++ A) ++ [c]` — every admitted arrival strictly before the
re-appended `c`, which sits at the back — and an unchanged completion map;
otherwise `c` is not re-queued and its completion time is recorded as the
slice end `e`. -/
def C4Prop (quantum : Int) (fuel : Nat) (c : Process)
    (ready0 rest : List Process) (t e : Int) (rem : String → Int)
    (sch : List ScheduleEntry) (ct : String → Option Int)
    (A : List Process) : Prop :=
  (∀ p ∈ rest, p.arrival_time ≤ e → p ∈ A) ∧
  (∀ p ∈ A, p ∈ rest ∧ p.arrival_time ≤ e) ∧
  (0 < rem c.pid - min quantum (rem c.pid) →
    rrLoop quantum (fuel + 1) (c :: ready0) rest t rem sch ct =
      rrLoop quantum fuel ((ready0 ++ A) ++ [c])
        ((rest.dropWhile fun p => decide (p.arrival_time ≤ t)).dropWhile
          fun p => decide (p.arrival_time ≤ e))
        e (updR rem c.pid (rem c.pid - min quantum (rem c.pid)))
        (sch ++ [⟨some c.pid, t, e⟩]) ct) ∧
  (rem c.pid - min quantum (rem c.pid) ≤ 0 →
    rrLoop quantum (fuel + 1) (c :: ready0) rest t rem sch ct =
      rrLoop quantum fuel (ready0 ++ A)
        ((rest.dropWhile fun p => decide (p.arrival_time ≤ t)).dropWhile
          fun p => decide (p.arrival_time ≤ e))
        e (updR rem c.pid (rem c.pid - min quantum (rem c.pid)))
        (sch ++ [⟨some c.pid, t, e⟩]) (updD ct c.pid e) ∧
      updD ct c.pid e c.pid = some e)

/-- C4: in Round Robin, after the time slice of `c` ends at `e`, every
pending process whose arrival time is at most `e` is appended to the ready
queue before `c` is re-appended; `c` goes to the back of the queue only if
it has remaining time, and otherwise its completion time is recorded as the
slice end `e`. -/
theorem C4_rr_enqueue_order (quantum : Int) (fuel : Nat) (c : Process)
    (ready0 rest : List Process) (t e : Int) (rem : String → Int)
    (sch : List ScheduleEntry) (ct : String → Option Int)
    (A : List Process)
    (hs : List.Sorted
      (fun a b : Process => a.arrival_time ≤ b.arrival_time) rest)
    (hq : 0 < quantum) (hr : 0 ≤ rem c.pid)
    (he : e = t + min quantum (rem c.pid))
    (hA : A = (rest.takeWhile fun p => decide (p.arrival_time ≤ t)) ++
      ((rest.dropWhile fun p => decide (p.arrival_time ≤ t)).takeWhile
        fun p => decide (p.arrival_time ≤ e))) :
    C4Prop quantum fuel c ready0 rest t e rem sch ct A := by
  have hte : t ≤ e := by
    rw [he]
    have : 0 ≤ min quantum (rem c.pid) := le_min (le_of_lt hq) hr
    omega
  subst hA
  refine ⟨?_, ?_, ?_, ?_⟩
  · intro p hp hpe
    have hp' : p ∈ (rest.takeWhile fun q => decide (q.arrival_time ≤ t)) ++
        rest.dropWhile fun q => decide (q.arrival_time ≤ t) := by
      rw [List.takeWhile_append_dropWhile]
      exact hp
    rcases List.mem_append.mp hp' with hp1 | hp1
    · exact List.mem_append_left _ hp1
    · refine List.mem_append_right _ ?_
      exact mem_takeWhile_of_sorted
        (List.Pairwise.sublist (List.dropWhile_sublist _) hs) hp1 hpe
  · intro p hp
    rcases List.mem_append.mp hp with hp1 | hp1
    · obtain ⟨hpr, hpt⟩ := mem_takeWhile_arrival hp1
      exact ⟨hpr, le_trans hpt hte⟩
    · obtain ⟨hpd, hpe⟩ := mem_takeWhile_arrival hp1
      exact ⟨(List.dropWhile_sublist _).subset hpd, hpe⟩
  · intro h3
    rw [rrLoop_eq_ready, if_pos h3, he]
    simp only [List.append_assoc]
  · intro h4
    refine ⟨?_, updD_same ct c.pid e⟩
    rw [rrLoop_eq_ready, if_neg (by omega : ¬ 0 < rem c.pid -
      min quantum (rem c.pid)), he]
    simp only [List.append_assoc]

/-- Witness for C4: a one-slice Round Robin step at time 0 with quantum 2,
where process P2 (arrival 1) is admitted during P1's slice and enqueued
ahead of the re-appended P1. -/
theorem C4_rr_enqueue_order_witness :
    (List.Sorted (fun a b : Process => a.arrival_time ≤ b.arrival_time)
        [(⟨"P2", 1, 3, 0⟩ : Process)] ∧
      (0 : Int) < 2 ∧
      (0 : Int) ≤ (fun _ => (5 : Int)) (Process.pid ⟨"P1", 0, 5, 0⟩) ∧
      (2 : Int) = 0 +
        min 2 ((fun _ => (5 : Int)) (Process.pid ⟨"P1", 0, 5, 0⟩)) ∧
      [(⟨"P2", 1, 3, 0⟩ : Process)] =
        (([(⟨"P2", 1, 3, 0⟩ : Process)].takeWhile fun p =>
            decide (p.arrival_time ≤ 0)) ++
          (([(⟨"P2", 1, 3, 0⟩ : Process)].dropWhile fun p =>
            decide (p.arrival_time ≤ 0)).takeWhile fun p =>
              decide (p.arrival_time ≤ 2)))) ∧
    C4Prop 2 5 ⟨"P1", 0, 5, 0⟩ [] [⟨"P2", 1, 3, 0⟩] 0 2 (fun _ => 5) []
      (fun _ => none) [⟨"P2", 1, 3, 0⟩] :=
  ⟨⟨by decide, by decide, by decide, by decide, by decide⟩,
    C4_rr_enqueue_order 2 5 ⟨"P1", 0, 5, 0⟩ [] [⟨"P2", 1, 3, 0⟩] 0 2
      (fun _ => 5) [] (fun _ => none) [⟨"P2", 1, 3, 0⟩]
      (by decide) (by decide) (by decide) (by decide) (by decide)⟩

theorem comparisonRows_cons_ok (k : String) (ks : List String)
    (processes : List Process) (quantum : Option Int)
    (r : List ScheduleEntry × List Stat) (rows : List (String × Aggregates))
    (h1 : runAlgorithm k processes quantum = .ok r)
    (h2 : comparisonRows ks processes quantum = .ok rows) :
    comparisonRows (k :: ks) processes quantum =
      .ok ((k, computeAggregates r.1 r.2) :: rows) := by
  simp only [comparisonRows, h1, h2]

theorem comparisonRows_skip_rr (ks : List String) (processes : List Process)
    (quantum : Option Int) (e : String)
    (h1 : runAlgorithm "RR" processes quantum = .error e) :
    comparisonRows ("RR" :: ks) processes quantum =
      comparisonRows ks processes quantum := by
  simp only [comparisonRows, h1]
  simp

/-- The five rows that the comparison produces when the Round Robin row is
skipped: one aggregate row per non-RR algorithm, in dictionary order. -/
def C6Rows (processes : List Process) : List (String × Aggregates) :=
  [("FCFS", computeAggregates (fcfs_scheduling processes).1
      (fcfs_scheduling processes).2),
   ("SJF", computeAggregates (sjf_scheduling processes).1
      (sjf_scheduling processes).2),
   ("SJF_PREEMPTIVE", computeAggregates (sjf_preemptive_scheduling processes).1
      (sjf_preemptive_scheduling processes).2),
   ("PRIORITY", computeAggregates (priority_scheduling processes).1
      (priority_scheduling processes).2),
   ("PRIORITY_PREEMPTIVE",
      computeAggregates (priority_preemptive_scheduling processes).1
      (priority_preemptive_scheduling processes).2)]

/-- C6: for every non-empty process set, the comparison driver run with a
missing or non-positive quantum returns (does not raise) exactly five rows,
one per non-Round-Robin algorithm in order, omitting only the Round Robin
row. -/
theorem C6_comparison_skips_rr (processes : List Process)
    (quantum : Option Int) (hne : processes ≠ [])
    (hq : quantum = none ∨ ∃ qv, quantum = some qv ∧ qv ≤ 0) :
    run_comparison processes quantum = .ok (C6Rows processes) ∧
    (C6Rows processes).map Prod.fst =
      ["FCFS", "SJF", "SJF_PREEMPTIVE", "PRIORITY", "PRIORITY_PREEMPTIVE"] ∧
    (C6Rows processes).length = 5 := by
  refine ⟨?_, rfl, rfl⟩
  have hRR : ∃ e, runAlgorithm "RR" processes quantum = .error e := by
    rcases hq with rfl | ⟨qv, rfl, hqv⟩
    · exact ⟨"Time quantum is required for Round Robin.", rfl⟩
    · refine ⟨"Time quantum must be a positive integer.", ?_⟩
      show round_robin_scheduling processes qv = _
      simp only [round_robin_scheduling]
      rw [if_neg hne, if_pos hqv]
  obtain ⟨e, hErr⟩ := hRR
  have hF : runAlgorithm "FCFS" processes quantum =
    .ok (fcfs_scheduling processes) := rfl
  have hS : runAlgorithm "SJF" processes quantum =
    .ok (sjf_scheduling processes) := rfl
  have hSP : runAlgorithm "SJF_PREEMPTIVE" processes quantum =
    .ok (sjf_preemptive_scheduling processes) := rfl
  have hP : runAlgorithm "PRIORITY" processes quantum =
    .ok (priority_scheduling processes) := rfl
  have hPP : runAlgorithm "PRIORITY_PREEMPTIVE" processes quantum =
    .ok (priority_preemptive_scheduling processes) := rfl
  have t1 : comparisonRows ["RR"] processes quantum = .ok [] := by
    rw [comparisonRows_skip_rr [] processes quantum e hErr]
    rfl
  have t2 := comparisonRows_cons_ok "PRIORITY_PREEMPTIVE" ["RR"] processes
    quantum (priority_preemptive_scheduling processes) [] hPP t1
  have t3 := comparisonRows_cons_ok "PRIORITY" _ processes quantum
    (priority_scheduling processes) _ hP t2
  have t4 := comparisonRows_cons_ok "SJF_PREEMPTIVE" _ processes quantum
    (sjf_preemptive_scheduling processes) _ hSP t3
  have t5 := comparisonRows_cons_ok "SJF" _ processes quantum
    (sjf_scheduling processes) _ hS t4
  have t6 := comparisonRows_cons_ok "FCFS" _ processes quantum
    (fcfs_scheduling processes) _ hF t5
  exact t6

/-- Witness for C6, on a one-process set with no quantum supplied. -/
theorem C6_comparison_skips_rr_witness :
    ([(⟨"P1", 0, 1, 0⟩ : Process)] ≠ []) ∧
    (run_comparison [(⟨"P1", 0, 1, 0⟩ : Process)] none =
        .ok (C6Rows [⟨"P1", 0, 1, 0⟩]) ∧
      (C6Rows [(⟨"P1", 0, 1, 0⟩ : Process)]).map Prod.fst =
        ["FCFS", "SJF", "SJF_PREEMPTIVE", "PRIORITY", "PRIORITY_PREEMPTIVE"] ∧
      (C6Rows [(⟨"P1", 0, 1, 0⟩ : Process)]).length = 5) :=
  ⟨by decide,
    C6_comparison_skips_rr [⟨"P1", 0, 1, 0⟩] none (by decide) (Or.inl rfl)⟩

theorem int_min?_spec (xs : List Int) (a : Int) (h : xs.min? = some a) :
    a ∈ xs ∧ ∀ b ∈ xs, a ≤ b := by
  haveI : Std.Antisymm (fun x1 x2 : Int => x1 ≤ x2) :=
    ⟨fun h1 h2 => le_antisymm h1 h2⟩
  exact (List.min?_eq_some_iff (fun a => le_refl a) (fun a b => min_choice a b)
    (fun _ _ _ => le_min_iff)).mp h

theorem int_max?_spec (xs : List Int) (a : Int) (h : xs.max? = some a) :
    a ∈ xs ∧ ∀ b ∈ xs, b ≤ a := by
  haveI : Std.Antisymm (fun x1 x2 : Int => x1 ≤ x2) :=
    ⟨fun h1 h2 => le_antisymm h1 h2⟩
  exact (List.max?_eq_some_iff (fun a => le_refl a) (fun a b => max_choice a b)
    (fun _ _ _ => max_le_iff)).mp h

/-- The conclusion of claim C9, stated over the aggregate record computed
from a schedule and its per-process stats: with empty stats the four
waiting/turnaround fields are zero; with nonempty stats the averages are
the arithmetic means (stated multiplicatively) and min/max_waiting are an
attained lower/upper bound of the waiting times; with an empty schedule
utilization and throughput are zero; and when the makespan `M = max(end)`
exists, utilization times `M` is the summed length of the non-idle slices
and throughput times `M` is the process count if `0 < M`, while a
non-positive makespan short-circuits both to zero. -/
def C9Prop (schedule : List ScheduleEntry) (stats : List Stat) : Prop :=
  (stats = [] →
    (computeAggregates schedule stats).avg_waiting = 0 ∧
    (computeAggregates schedule stats).avg_turnaround = 0 ∧
    (computeAggregates schedule stats).min_waiting = 0 ∧
    (computeAggregates schedule stats).max_waiting = 0) ∧
  (stats ≠ [] →
    (computeAggregates schedule stats).avg_waiting * (stats.length : ℚ) =
      (((stats.map fun s => s.waiting_time).sum : Int) : ℚ) ∧
    (computeAggregates schedule stats).avg_turnaround * (stats.length : ℚ) =
      (((stats.map fun s => s.turnaround_time).sum : Int) : ℚ) ∧
    (∃ s ∈ stats,
      (computeAggregates schedule stats).min_waiting = (s.waiting_time : ℚ)) ∧
    (∀ s ∈ stats,
      (computeAggregates schedule stats).min_waiting ≤ (s.waiting_time : ℚ)) ∧
    (∃ s ∈ stats,
      (computeAggregates schedule stats).max_waiting = (s.waiting_time : ℚ)) ∧
    (∀ s ∈ stats,
      (s.waiting_time : ℚ) ≤ (computeAggregates schedule stats).max_waiting)) ∧
  (schedule = [] →
    (computeAggregates schedule stats).cpu_utilization = 0 ∧
    (computeAggregates schedule stats).throughput = 0) ∧
  (∀ M : Int, (schedule.map fun e => e.stop).max? = some M →
    (0 < M →
      (computeAggregates schedule stats).cpu_utilization * (M : ℚ) =
        ((((schedule.filter fun e => e.pid.isSome).map
          fun e => e.stop - e.start).sum : Int) : ℚ) ∧
      (computeAggregates schedule stats).throughput * (M : ℚ) =
        (stats.length : ℚ)) ∧
    (M ≤ 0 →
      (computeAggregates schedule stats).cpu_utilization = 0 ∧
      (computeAggregates schedule stats).throughput = 0))

/-- C9: the metrics aggregator computes avg_waiting and avg_turnaround as
arithmetic means over the per-process stats, min/max_waiting as the
minimum and maximum waiting times, cpu_utilization as busy time over
makespan (busy time summing the durations of non-idle entries, makespan
being the maximum schedule end), and throughput as process count over
makespan; with empty stats, an empty schedule, or a non-positive makespan
the corresponding fields are zero rather than a division by zero. -/
theorem C9_aggregates (schedule : List ScheduleEntry) (stats : List Stat) :
    C9Prop schedule stats := by
  unfold C9Prop
  simp only [computeAggregates]
  refine ⟨?_, ?_, ?_, ?_⟩
  · rintro rfl
    simp
  · intro h
    have hlen : (stats.length : ℚ) ≠ 0 := by
      have h0 : stats.length ≠ 0 := fun hc => h (List.length_eq_zero.mp hc)
      exact_mod_cast h0
    have hwne : stats.map (fun s => s.waiting_time) ≠ [] := by
      simpa using h
    obtain ⟨m, hm⟩ :
        ∃ m, (stats.map fun s => s.waiting_time).min? = some m := by
      cases hw : stats.map fun s => s.waiting_time with
      | nil => exact absurd hw hwne
      | cons y ys => exact ⟨_, List.min?_cons⟩
    obtain ⟨M, hM⟩ :
        ∃ M, (stats.map fun s => s.waiting_time).max? = some M := by
      cases hw : stats.map fun s => s.waiting_time with
      | nil => exact absurd hw hwne
      | cons y ys => exact ⟨_, List.max?_cons⟩
    obtain ⟨hmm, hmle⟩ := int_min?_spec _ m hm
    obtain ⟨hMm, hMle⟩ := int_max?_spec _ M hM
    simp only [if_neg h, hm, hM, Option.getD_some]
    refine ⟨div_mul_cancel₀ _ hlen, div_mul_cancel₀ _ hlen, ?_, ?_, ?_, ?_⟩
    · obtain ⟨s, hs, heq⟩ := List.mem_map.mp hmm
      exact ⟨s, hs, by exact_mod_cast heq.symm⟩
    · intro s hs
      exact_mod_cast hmle _ (List.mem_map_of_mem _ hs)
    · obtain ⟨s, hs, heq⟩ := List.mem_map.mp hMm
      exact ⟨s, hs, by exact_mod_cast heq.symm⟩
    · intro s hs
      exact_mod_cast hMle _ (List.mem_map_of_mem _ hs)
  · rintro rfl
    simp
  · intro M hM
    have hsne : schedule ≠ [] := by
      rintro rfl
      simp at hM
    constructor
    · intro hpos
      have hMq : ((M : ℚ)) ≠ 0 := by
        exact_mod_cast (by omega : M ≠ 0)
      simp only [if_neg hsne, hM, Option.getD_some, if_pos hpos]
      exact ⟨div_mul_cancel₀ _ hMq, div_mul_cancel₀ _ hMq⟩
    · intro hneg
      simp only [if_neg hsne, hM, Option.getD_some,
        if_neg (by omega : ¬ (0 : Int) < M)]
      constructor <;> trivial

end Scheduler
